import Mathlib

/-! SuperSlicer perimeter generator: loop tree, shell depths, loop joining.

A shallow embedding of `xs/src/libslic3r/PerimeterGenerator.cpp`, of the layers slider
helpers of `src/slic3r/GUI/GUI_Preview.cpp` and of the arithmetic of
`src/slic3r/GUI/CalibrationBridgeDialog.cpp`.

* Coordinates (`coord_t`) are integers; `std::vector` is `List`.
* The polygon engine (offsets, boolean operations, point-in-polygon test) lives
  outside this file's sources and is taken as a parameter wherever it is called.
* A `for` loop that erases from the vector it walks is kept as an index loop over
  the mutable state, driven by a step budget equal to the vector's size; the unbounded
  depth loop and the segment loop of `_variable_width` take a step budget and return
  `none` when it runs out.
* A `double` is the rational number it stands for. Where the outcome of the source
  turns on how a result is rounded (the splice threshold, the subdivision of
  `_variable_width`, the bounds of the gap fill, the layers slider helpers) the
  operation is rounded to the nearest double, ties to even, as the machine does it;
  elsewhere doubles and floats are computed with exactly. `size_t`, `unsigned int` and
  `int` conversions are taken modulo `2^64` and `2^32` where a value is converted.
* Reading the front or back of an empty vector is undefined in C++; where the source
  does so the embedding either returns `none` or says which value stands in.

The definitions come first, the theorems after them.
-/

namespace Slic3r

/-! ## Data model -/

/-- A point with scaled integer coordinates (`coord_t`). -/
structure Point where
  x : Int
  y : Int
deriving DecidableEq, Repr

/-- A closed ring of points (`Polygon`, a `MultiPoint`). -/
structure Polygon where
  points : List Point
deriving DecidableEq, Repr

/-- An open sequence of points (`Polyline`, a `MultiPoint`). -/
structure Polyline where
  points : List Point
deriving DecidableEq, Repr

/-- A contour with its holes (`ExPolygon`). -/
structure ExPolygon where
  contour : Polygon
  holes : List Polygon
deriving DecidableEq, Repr

abbrev Polygons := List Polygon
abbrev ExPolygons := List ExPolygon

/-- `MultiPoint::first_point()`: `points.front()`. The front of an empty vector is
undefined in C++; the embedding returns the origin there. -/
def Polygon.first_point (p : Polygon) : Point := p.points.headD ⟨0, 0⟩

/-- `PerimeterGeneratorLoop`: a polygon, its depth, whether it is a contour or a hole,
the overhang flag, and the loops nested in it. The constructor takes the fields in the
order of the C++ constructor `(polygon, depth, is_contour, is_overhang)`; `children`
starts empty. -/
inductive PerimeterGeneratorLoop where
  | mk (polygon : Polygon) (depth : Nat) (is_contour : Bool) (is_overhang : Bool)
      (children : List PerimeterGeneratorLoop)
deriving Repr

abbrev PerimeterGeneratorLoops := List PerimeterGeneratorLoop

/-- The data a loop carries itself, without its children. -/
structure LoopNode where
  polygon : Polygon
  depth : Nat
  is_contour : Bool
  is_overhang : Bool
deriving DecidableEq, Repr

namespace PerimeterGeneratorLoop

def polygon : PerimeterGeneratorLoop → Polygon
  | mk p _ _ _ _ => p

def depth : PerimeterGeneratorLoop → Nat
  | mk _ d _ _ _ => d

def is_contour : PerimeterGeneratorLoop → Bool
  | mk _ _ c _ _ => c

def is_overhang : PerimeterGeneratorLoop → Bool
  | mk _ _ _ o _ => o

def children : PerimeterGeneratorLoop → List PerimeterGeneratorLoop
  | mk _ _ _ _ ch => ch

/-- The loop's own data. -/
def own : PerimeterGeneratorLoop → LoopNode
  | mk p d c o _ => ⟨p, d, c, o⟩

/-- `parent.children.push_back(child)`. -/
def push_child (child : PerimeterGeneratorLoop) : PerimeterGeneratorLoop → PerimeterGeneratorLoop
  | mk p d c o ch => mk p d c o (ch ++ [child])

/-- `is_external()`: `depth == 0`. -/
def is_external (l : PerimeterGeneratorLoop) : Bool := l.depth == 0

/-- `is_internal_contour()`: a contour none of whose children is a contour. -/
def is_internal_contour (l : PerimeterGeneratorLoop) : Bool :=
  l.is_contour && l.children.all (fun c => !c.is_contour)

mutual
/-- Every loop of the tree rooted at a loop, the root first. -/
def nodes : PerimeterGeneratorLoop → List LoopNode
  | mk p d c o ch => ⟨p, d, c, o⟩ :: nodesList ch
/-- Every loop of a forest. -/
def nodesList : List PerimeterGeneratorLoop → List LoopNode
  | [] => []
  | l :: ls => nodes l ++ nodesList ls
end

mutual
/-- Every (parent, child) pair of the tree rooted at a loop. -/
def edges : PerimeterGeneratorLoop → List (LoopNode × LoopNode)
  | mk p d c o ch => ch.map (fun x => ((⟨p, d, c, o⟩ : LoopNode), x.own)) ++ edgesList ch
/-- Every (parent, child) pair of a forest. -/
def edgesList : List PerimeterGeneratorLoop → List (LoopNode × LoopNode)
  | [] => []
  | l :: ls => edges l ++ edgesList ls
end

end PerimeterGeneratorLoop

/-! ## Loop tree building (`process`, "nest loops") -/

/-- The two vectors `contours` and `holes` of `process`: depth => loops. -/
structure LoopLists where
  contours : List PerimeterGeneratorLoops
  holes : List PerimeterGeneratorLoops
deriving Repr

/-- Every loop held anywhere in the two vectors, children included. -/
def LoopLists.all_nodes (st : LoopLists) : List LoopNode :=
  st.contours.flatMap PerimeterGeneratorLoop.nodesList ++
    st.holes.flatMap PerimeterGeneratorLoop.nodesList

/-- Every (parent, child) pair held anywhere in the two vectors. -/
def LoopLists.all_edges (st : LoopLists) : List (LoopNode × LoopNode) :=
  st.contours.flatMap PerimeterGeneratorLoop.edgesList ++
    st.holes.flatMap PerimeterGeneratorLoop.edgesList

/-- The inner `for (int j = 0; j < rows[t].size(); ++j)` with its
`if (candidate_parent.polygon.contains(p))`: the first index `j` that passes. -/
def scan_row (contains : Polygon → Point → Bool) (row : PerimeterGeneratorLoops) (p : Point) :
    Option Nat :=
  row.findIdx? (fun candidate_parent => contains candidate_parent.polygon p)

/-- The nested search `for t in ts: for j: if contains: goto found`: the first pair
`(t, j)` in loop order whose candidate contains `p`. -/
def scan_depths (contains : Polygon → Point → Bool) (rows : List PerimeterGeneratorLoops)
    (ts : List Nat) (p : Point) : Option (Nat × Nat) :=
  ts.findSome? (fun t => (scan_row contains (rows.getD t []) p).map (fun j => (t, j)))

/-- `for (int t = d+1; t <= loop_number; ++t)`. -/
def depths_above (loop_number : Int) (d : Nat) : List Nat :=
  List.range' (d + 1) (loop_number.toNat - d)

/-- `for (int t = loop_number; t >= 0; --t)`. -/
def depths_down_from (loop_number : Int) : List Nat :=
  (List.range (loop_number + 1).toNat).reverse

/-- `for (int t = d-1; t >= 0; --t)`. -/
def depths_below (d : Nat) : List Nat :=
  (List.range d).reverse

/-- `rows[t][j].children.push_back(loop)`. -/
def attach_child (rows : List PerimeterGeneratorLoops) (t j : Nat) (loop : PerimeterGeneratorLoop) :
    List PerimeterGeneratorLoops :=
  rows.modify (fun row => row.modify (PerimeterGeneratorLoop.push_child loop) j) t

/-- `rows[d].erase(rows[d].begin() + i)`. -/
def erase_loop (rows : List PerimeterGeneratorLoops) (d i : Nat) : List PerimeterGeneratorLoops :=
  rows.modify (fun row => row.eraseIdx i) d

/-- The loop `for (int i = 0; i < (int)holes_d.size(); ++i)` of "nest loops: holes first",
from index `i` on. A hole that finds a parent is copied into the parent's children and
erased from `holes[d]`; `--i` followed by the loop's `++i` leaves the index where it is.
A hole that finds none stays and the index moves on. The first argument bounds the number
of iterations. -/
def nest_holes_row (contains : Polygon → Point → Bool) (loop_number : Int) (d : Nat) :
    Nat → Nat → LoopLists → LoopLists
  | 0, _, st => st
  | fuel + 1, i, st =>
    if h : i < (st.holes.getD d []).length then
      let loop := (st.holes.getD d [])[i]
      -- find the hole loop that contains this one, if any
      match scan_depths contains st.holes (depths_above loop_number d) loop.polygon.first_point with
      | some (t, j) =>
        nest_holes_row contains loop_number d fuel i
          { st with holes := erase_loop (attach_child st.holes t j loop) d i }
      | none =>
        -- if no hole contains this hole, find the contour loop that contains it
        match scan_depths contains st.contours (depths_down_from loop_number)
            loop.polygon.first_point with
        | some (t, j) =>
          nest_holes_row contains loop_number d fuel i
            { contours := attach_child st.contours t j loop, holes := erase_loop st.holes d i }
        | none => nest_holes_row contains loop_number d fuel (i + 1) st
    else st

/-- "nest loops: holes first": `for (int d = 0; d <= loop_number; ++d)`. Each row gets as
many steps as it has loops on entry. -/
def nest_holes (contains : Polygon → Point → Bool) (loop_number : Int) (st : LoopLists) :
    LoopLists :=
  (List.range (loop_number + 1).toNat).foldl
    (fun s d => nest_holes_row contains loop_number d (s.holes.getD d []).length 0 s) st

/-- The loop `for (int i = 0; i < (int)contours_d.size(); ++i)` of "nest contour loops",
from index `i` on. -/
def nest_contours_row (contains : Polygon → Point → Bool) (d : Nat) :
    Nat → Nat → LoopLists → LoopLists
  | 0, _, st => st
  | fuel + 1, i, st =>
    if h : i < (st.contours.getD d []).length then
      let loop := (st.contours.getD d [])[i]
      -- find the contour loop that contains it
      match scan_depths contains st.contours (depths_below d) loop.polygon.first_point with
      | some (t, j) =>
        nest_contours_row contains d fuel i
          { st with contours := erase_loop (attach_child st.contours t j loop) d i }
      | none => nest_contours_row contains d fuel (i + 1) st
    else st

/-- "nest contour loops": `for (int d = loop_number; d >= 1; --d)`. -/
def nest_contours (contains : Polygon → Point → Bool) (loop_number : Int) (st : LoopLists) :
    LoopLists :=
  (List.range' 1 loop_number.toNat).reverse.foldl
    (fun s d => nest_contours_row contains d (s.contours.getD d []).length 0 s) st

/-- Lines 364-417 of `process`: holes first, then contours. -/
def nest_loops (contains : Polygon → Point → Bool) (loop_number : Int) (st : LoopLists) :
    LoopLists :=
  nest_contours contains loop_number (nest_holes contains loop_number st)

/-! ### The nesting rules, as the design states them -/

/-- The own data of the loops of row `t` (empty when the row does not exist). -/
def own_row (rows : List PerimeterGeneratorLoops) (t : Nat) : List LoopNode :=
  (rows.getD t []).map PerimeterGeneratorLoop.own

/-- The first candidate, in the order given, whose polygon contains `p`. -/
def first_containing (contains : Polygon → Point → Bool) (candidates : List LoopNode)
    (p : Point) : Option LoopNode :=
  candidates.find? (fun c => contains c.polygon p)

/-- Hole rule: the first hole whose polygon contains `p` when the depths
`d+1, d+2, ..., loop_number` are scanned in increasing order, each in list order; if there
is none, the first contour that contains `p` when the depths `loop_number, ..., 0` are
scanned downwards, each in list order. -/
def hole_parent_rule (contains : Polygon → Point → Bool) (loop_number : Int)
    (holes contours : List PerimeterGeneratorLoops) (d : Nat) (p : Point) : Option LoopNode :=
  match first_containing contains
      (((List.range (loop_number + 1).toNat).filter (fun t => d < t)).flatMap (own_row holes)) p with
  | some parent => some parent
  | none =>
    first_containing contains
      ((List.range (loop_number + 1).toNat).reverse.flatMap (own_row contours)) p

/-- Contour rule: the first contour whose polygon contains `p` when the depths
`d-1, ..., 0` are scanned downwards, each in list order. -/
def contour_parent_rule (contains : Polygon → Point → Bool)
    (contours : List PerimeterGeneratorLoops) (d : Nat) (p : Point) : Option LoopNode :=
  first_containing contains ((List.range d).reverse.flatMap (own_row contours)) p

/-- The (parent, child) pair of a loop under a rule, if the rule gives it a parent. -/
def rule_edge (rule : Point → Option LoopNode) (child : LoopNode) : List (LoopNode × LoopNode) :=
  match rule child.polygon.first_point with
  | some parent => [(parent, child)]
  | none => []

/-- The pairs the hole rule prescribes for the holes of depths `0..loop_number`, read off
the lists as they are before nesting. -/
def hole_edges_rule (contains : Polygon → Point → Bool) (loop_number : Int)
    (holes contours : List PerimeterGeneratorLoops) : List (LoopNode × LoopNode) :=
  (List.range (loop_number + 1).toNat).flatMap (fun d =>
    (own_row holes d).flatMap (rule_edge (hole_parent_rule contains loop_number holes contours d)))

/-- The pairs the contour rule prescribes for the contours of depths `1..loop_number`. -/
def contour_edges_rule (contains : Polygon → Point → Bool) (loop_number : Int)
    (contours : List PerimeterGeneratorLoops) : List (LoopNode × LoopNode) :=
  (List.range' 1 loop_number.toNat).flatMap (fun d =>
    (own_row contours d).flatMap (rule_edge (contour_parent_rule contains contours d)))

/-- The loops of a row that a rule leaves without a parent. -/
def rule_orphans (rule : Point → Option LoopNode) (row : List LoopNode) : List LoopNode :=
  row.filter (fun l => (rule l.polygon.first_point).isNone)

/-- Lines 364-427 of `process`, as far as the loop tree goes: the loops are nested and
only the trees of `contours.front()` are handed to the traversal. `process` returns
`void`; the section has no `throw`, no `assert` and no early `return`, so the model
always completes with `Except.ok`. -/
def process_loop_tree (contains : Polygon → Point → Bool) (loop_number : Int)
    (st : LoopLists) : Except String PerimeterGeneratorLoops :=
  Except.ok ((nest_loops contains loop_number st).contours.headD [])

/-- The loops that are still in a per-depth list other than `contours[0]`, with their
subtrees. -/
def LoopLists.leftover_nodes (st : LoopLists) : List LoopNode :=
  st.contours.tail.flatMap PerimeterGeneratorLoop.nodesList ++
    st.holes.flatMap PerimeterGeneratorLoop.nodesList

/-- A point-in-polygon test that is exact for axis-parallel rectangles (strictly inside),
to run the definitions on concrete input. -/
def rect_contains (poly : Polygon) (p : Point) : Bool :=
  poly.points.any (fun a => decide (a.x < p.x) && decide (a.y < p.y)) &&
    poly.points.any (fun a => decide (p.x < a.x) && decide (p.y < a.y))

/-- The axis-parallel square with corners `(a, a)` and `(b, b)`. -/
def square (a b : Int) : Polygon := ⟨[⟨a, a⟩, ⟨b, a⟩, ⟨b, b⟩, ⟨a, b⟩]⟩

/-- Two nested contours and two nested holes, as the shell loop records them. -/
def nested_sample : LoopLists :=
  { contours := [[.mk (square 0 100) 0 true false []], [.mk (square 10 90) 1 true false []]],
    holes := [[.mk (square 40 60) 0 false false []], [.mk (square 30 70) 1 false false []]] }

/-- A depth-1 contour that is larger than the depth-0 contour, and a hole outside
every contour. -/
def orphan_sample : LoopLists :=
  { contours := [[.mk (square 0 100) 0 true false []], [.mk (square (-1) 101) 1 true false []]],
    holes := [[.mk (square 200 210) 0 false false []], []] }

/-- What a row pass has done when it is over. -/
structure RowDone (rule : Point → Option LoopNode) (i : Nat)
    (row row' : List LoopNode) (st st' : LoopLists) : Prop where
  row_eq : row' = row.take i ++ rule_orphans rule (row.drop i)
  nodes_perm : st'.all_nodes.Perm st.all_nodes
  edges_perm : st'.all_edges.Perm (st.all_edges ++ (row.drop i).flatMap (rule_edge rule))

/-! ## Shell generation (`process`, the depth loop) -/

/-- A centerline with a width at each point (`ThickPolyline`); widths are `coordf_t`
(double), read here as exact rationals. -/
structure ThickPolyline where
  points : List Point
  width : List ℚ
deriving DecidableEq, Repr

abbrev ThickPolylines := List ThickPolyline

/-- The part of a `Surface` that `process` reads. -/
structure Surface where
  expolygon : ExPolygon
  extra_perimeters : Nat
deriving Repr

/-- The configuration values the depth loop reads. The two comparisons
`gap_fill_speed.value > 0` and `fill_density.value > 0` are on doubles and enter as their
outcome; `infill_overlap x` stands for
`scale_(config->get_abs_value("infill_overlap", unscale(x)))`. -/
structure PerimeterConfig where
  perimeters : Int
  extra_perimeters : Bool
  only_one_perimeter_top : Bool
  thin_walls : Bool
  no_perimeter_unsupported : Bool
  min_perimeter_unsupported : Int
  noperi_bridge_only : Bool
  gap_fill_speed_positive : Bool
  fill_density_positive : Bool
  infill_overlap : Int → Int

/-- The scaled widths and spacings computed at the top of `process` (lines 28-55) from the
flows; `Flow` is not part of these sources, so the values enter as they are. -/
structure FlowWidths where
  perimeter_width : Int
  perimeter_spacing : Int
  ext_perimeter_width : Int
  ext_perimeter_spacing : Int
  ext_perimeter_spacing2 : Int
  solid_infill_spacing : Int
  min_spacing : Int
  ext_min_spacing : Int

/-- The polygon engine as `process` calls it (ClipperUtils, `ExPolygon`, `BridgeDetector`).
Offset distances are passed as exact rationals where the source passes a `float`.
`bridge_detect_angle e lower spacing` and `bridge_coverage e lower spacing` stand for
`BridgeDetector detector(e, lower, spacing)` followed by `detector.detect_angle(angle)`
and `detector.coverage(-1, true)`. `thin_wall_polylines last next_onion` stands for lines
254-288, which only produce the medial axes appended to `thin_walls`. -/
structure PolygonEngine where
  simplify_p : ExPolygon → Polygons
  union_ex : Polygons → ExPolygons
  union_ex2 : ExPolygons → ExPolygons → Bool → ExPolygons
  diff_ex : ExPolygons → ExPolygons → Bool → ExPolygons
  diff_ex_p : Polygons → Polygons → ExPolygons
  intersection_ex : ExPolygons → ExPolygons → Bool → ExPolygons
  offset : ExPolygons → ℚ → Polygons
  offset_ex : ExPolygons → ℚ → ExPolygons
  offset2_ex : ExPolygons → ℚ → ℚ → ExPolygons
  simplify : ExPolygon → ℚ → ExPolygons
  convex_hull : ExPolygons → Polygon
  bridge_detect_angle : ExPolygons → ExPolygons → Int → Bool
  bridge_coverage : ExPolygons → ExPolygons → Int → Polygons
  thin_wall_polylines : ExPolygons → ExPolygons → ThickPolylines

/-- What one island's depth loop reads besides the island itself. `lower_slices` and
`upper_slices` are pointers that may be `NULL` (`none`). -/
structure ShellEnv where
  engine : PolygonEngine
  config : PerimeterConfig
  widths : FlowWidths
  lower_slices : Option ExPolygons
  upper_slices : Option ExPolygons

/-- The variables of `process` that the depth loop changes. `fill_surfaces` holds what
the loop appends to `this->fill_surfaces`. -/
structure ShellState where
  loop_number : Int
  last : ExPolygons
  contours : List PerimeterGeneratorLoops
  holes : List PerimeterGeneratorLoops
  gaps : ExPolygons
  stored : ExPolygons
  thin_walls : ThickPolylines
  fill_surfaces : ExPolygons

/-- Lines 71-76: `perimeters + extra_perimeters - 1`, forced to `0` when
`only_one_perimeter_top` is set and there is no upper layer. -/
def initial_loop_number (env : ShellEnv) (surface : Surface) : Int :=
  if env.config.only_one_perimeter_top && env.upper_slices.isNone then 0
  else env.config.perimeters + (surface.extra_perimeters : Int) - 1

/-- Lines 78-86: the state on entry of the depth loop; the two vectors are built with
`loop_number + 1` empty rows. -/
def shell_init (env : ShellEnv) (surface : Surface) : ShellState :=
  { loop_number := initial_loop_number env surface
    last := env.engine.union_ex (env.engine.simplify_p surface.expolygon)
    contours := List.replicate (initial_loop_number env surface + 1).toNat []
    holes := List.replicate (initial_loop_number env surface + 1).toNat []
    gaps := []
    stored := []
    thin_walls := []
    fill_surfaces := [] }

/-- Lines 108-139: the part of `unsupported_filtered` that counts as bridged. -/
def bridged_part (env : ShellEnv) (unsupported_filtered support : ExPolygons) : ExPolygons :=
  let g := env.engine
  let perimeter_spacing := env.widths.perimeter_spacing
  if env.config.noperi_bridge_only then
    if g.bridge_detect_angle unsupported_filtered support perimeter_spacing then
      let bridgeable := g.union_ex (g.bridge_coverage unsupported_filtered support perimeter_spacing)
      if !bridgeable.isEmpty then
        let bridgeable_simplified :=
          bridgeable.flatMap (fun poly => g.simplify poly ((perimeter_spacing.tdiv 2 : Int) : ℚ))
        let overlap := env.config.infill_overlap perimeter_spacing
        g.intersection_ex unsupported_filtered (g.offset_ex bridgeable_simplified (overlap : ℚ)) false
      else []
    else []
  else
    g.intersection_ex unsupported_filtered [⟨g.convex_hull support, []⟩] false

/-- Lines 91-170: at depth `min_perimeter_unsupported` the unsupported, bridgeable area is
taken out of `last` and appended to the fill surfaces. Returns the new `last` and what
is appended. -/
def divert_unsupported (env : ShellEnv) (i : Nat) (last : ExPolygons) : ExPolygons × ExPolygons :=
  let g := env.engine
  let perimeter_spacing := env.widths.perimeter_spacing
  match env.lower_slices with
  | none => (last, [])
  | some lower =>
    if env.config.no_perimeter_unsupported && decide ((i : Int) = env.config.min_perimeter_unsupported)
        && !lower.isEmpty then
      -- compute our unsupported surface
      let unsupported := g.diff_ex last lower true
      if !unsupported.isEmpty then
        -- remove small overhangs
        let unsupported_filtered :=
          g.offset2_ex unsupported (-(perimeter_spacing : ℚ)) (perimeter_spacing : ℚ)
        if !unsupported_filtered.isEmpty then
          let support := g.diff_ex last unsupported true
          let unsupported_filtered := bridged_part env unsupported_filtered support
          if !unsupported_filtered.isEmpty then
            -- and we want at least 1 perimeter of overlap
            let bridge := unsupported_filtered
            let unsupported_filtered :=
              g.intersection_ex (g.offset_ex unsupported_filtered (perimeter_spacing : ℚ)) last false
            let bridge_and_support :=
              g.offset2_ex (g.union_ex2 bridge support true)
                ((perimeter_spacing.tdiv 2 : Int) : ℚ) (((-perimeter_spacing).tdiv 2 : Int) : ℚ)
            let unsupported_filtered :=
              g.intersection_ex
                (g.offset_ex unsupported_filtered ((perimeter_spacing.tdiv 2 : Int) : ℚ))
                bridge_and_support false
            let last := g.diff_ex last unsupported_filtered true
            -- remove "thin air" polygons
            let thin_air := last.filter (fun ex => (g.intersection_ex support [ex] false).isEmpty)
            (last.filter (fun ex => !(g.intersection_ex support [ex] false).isEmpty),
              unsupported_filtered ++ thin_air)
          else (last, [])
        else (last, [])
      else (last, [])
    else (last, [])

/-- Lines 175-219: `has_overhang`. -/
def detect_overhang (env : ShellEnv) (last : ExPolygons) : Bool :=
  let g := env.engine
  let perimeter_spacing := env.widths.perimeter_spacing
  match env.lower_slices with
  | none => false
  | some lower =>
    if env.config.extra_perimeters && !last.isEmpty && !lower.isEmpty then
      -- split the polygons with bottom/notbottom
      let unsupported := g.diff_ex last lower true
      if !unsupported.isEmpty then
        -- only consider overhangs and let bridges alone
        let lower_island := g.diff_ex last unsupported true
        let unsupported :=
          if g.bridge_detect_angle unsupported lower_island perimeter_spacing then
            let bridgeable := g.union_ex (g.bridge_coverage unsupported lower_island perimeter_spacing)
            if !bridgeable.isEmpty then
              let bridgeable_simplified :=
                bridgeable.flatMap (fun poly => g.simplify poly ((perimeter_spacing.tdiv 2 : Int) : ℚ))
              let bridgeable_simplified :=
                if !bridgeable_simplified.isEmpty then
                  g.offset_ex bridgeable_simplified ((perimeter_spacing : ℚ) / (19 / 10))
                else bridgeable_simplified
              if !bridgeable_simplified.isEmpty then
                g.diff_ex unsupported bridgeable_simplified true
              else unsupported
            else unsupported
          else unsupported
        !unsupported.isEmpty
      else false
    else false

/-- Lines 235-252: the depth-0 inset with thin walls enabled, with its second try. Sizes
are compared as the source does after casting to `int32_t`. -/
def thin_wall_onion (env : ShellEnv) (last : ExPolygons) : ExPolygons :=
  let g := env.engine
  let ext_perimeter_width := env.widths.ext_perimeter_width
  let ext_min_spacing := env.widths.ext_min_spacing
  let next_onion := g.offset2_ex last
    (-((ext_perimeter_width.tdiv 2 + ext_min_spacing.tdiv 2 - 1 : Int) : ℚ))
    ((ext_min_spacing.tdiv 2 - 1 : Int) : ℚ)
  -- detect edge case where a curve can be split in multiple small chunks.
  let no_thin_onion := g.offset_ex last (-((ext_perimeter_width.tdiv 2 : Int) : ℚ))
  if no_thin_onion.length > 0 && next_onion.length > 3 * no_thin_onion.length then
    -- use a sightly smaller spacing to try to drastically improve the split
    let next_onion_secondTry := g.offset2_ex last
      (-(((ext_perimeter_width.tdiv 2 : Int) : ℚ) + (ext_min_spacing : ℚ) / (5 / 2) - 1))
      ((ext_min_spacing : ℚ) / (5 / 2) - 1)
    if ((next_onion.length : Int) - (no_thin_onion.length : Int)).natAbs >
        2 * ((next_onion_secondTry.length : Int) - (no_thin_onion.length : Int)).natAbs then
      next_onion_secondTry
    else next_onion
  else next_onion

/-- Lines 223-317: `next_onion` at depth `i`, with the gaps and thin walls found on the
way. Returns `(next_onion, new gaps, new thin walls)`. -/
def compute_next_onion (env : ShellEnv) (i : Nat) (last : ExPolygons) :
    ExPolygons × ExPolygons × ThickPolylines :=
  let g := env.engine
  if i = 0 then
    if !env.config.thin_walls then
      -- compute next onion, without taking care of thin_walls : destroy too thin areas.
      (g.offset_ex last (-((env.widths.ext_perimeter_width.tdiv 2 : Int) : ℚ)), [], [])
    else
      let next_onion := thin_wall_onion env last
      (next_onion, [], g.thin_wall_polylines last next_onion)
  else
    let distance := if i = 1 then env.widths.ext_perimeter_spacing2 else env.widths.perimeter_spacing
    let next_onion :=
      if env.config.thin_walls then
        g.offset2_ex last
          (-((distance + env.widths.min_spacing.tdiv 2 - 1 : Int) : ℚ))
          ((env.widths.min_spacing.tdiv 2 - 1 : Int) : ℚ)
      else
        g.offset_ex last (-(distance : ℚ))
    -- look for gaps
    let gaps :=
      if env.config.gap_fill_speed_positive && env.config.fill_density_positive then
        g.diff_ex_p (g.offset last (-(1 / 2) * (distance : ℚ)))
          (g.offset next_onion ((1 / 2) * (distance : ℚ) + 10))
      else []
    (next_onion, gaps, [])

/-- Lines 336-343: the loops recorded at depth `i` for one `ExPolygon` of the inset. -/
def record_loops (i : Nat) (has_overhang : Bool) (next_onion : ExPolygons)
    (contours holes : List PerimeterGeneratorLoops) :
    List PerimeterGeneratorLoops × List PerimeterGeneratorLoops :=
  next_onion.foldl (fun (acc : List PerimeterGeneratorLoops × List PerimeterGeneratorLoops) expolygon =>
    (acc.1.modify (fun row => row ++ [PerimeterGeneratorLoop.mk expolygon.contour i true has_overhang []]) i,
     acc.2.modify (fun row => row ++ expolygon.holes.map
        (fun hole => PerimeterGeneratorLoop.mk hole i false has_overhang [])) i))
    (contours, holes)

/-- Lines 346-355: with `only_one_perimeter_top` and an upper layer, after depth 0 the
top part of `last` is stored away and only the covered part stays. Returns
`(last, stored)`. -/
def split_top (env : ShellEnv) (i : Nat) (last stored : ExPolygons) : ExPolygons × ExPolygons :=
  let g := env.engine
  match env.upper_slices with
  | none => (last, stored)
  | some upper_polygons =>
    if i = 0 ∧ env.config.only_one_perimeter_top = true then
      let top_polygons := g.diff_ex last upper_polygons true
      let inner_polygons := g.diff_ex last top_polygons true
      let half := ((env.widths.perimeter_spacing.tdiv 2 : Int) : ℚ)
      (g.intersection_ex (g.offset_ex inner_polygons half) last false,
        g.union_ex2 stored (g.intersection_ex (g.offset_ex top_polygons half) last false) false)
    else (last, stored)

/-- How one pass of `for (int i = 0;; ++i)` ends: at a `break`, or at the closing brace. -/
inductive PassEnd where
  | stop (st : ShellState)
  | next (st : ShellState)

/-- Lines 336-355: the loops of the inset are recorded at depth `i`, the inset becomes
`last`, and the top split is applied. -/
def record_pass (env : ShellEnv) (i : Nat) (has_overhang : Bool) (next_onion : ExPolygons)
    (st : ShellState) : ShellState :=
  let recorded := record_loops i has_overhang next_onion st.contours st.holes
  let top := split_top env i next_onion st.stored
  { st with contours := recorded.1, holes := recorded.2, last := top.1, stored := top.2 }

/-- One pass of the depth loop (lines 88-359) at depth `i`. -/
def shell_pass (env : ShellEnv) (i : Nat) (st : ShellState) : PassEnd :=
  -- store surface for bridge infill to avoid unsupported perimeters
  let diverted := divert_unsupported env i st.last
  let last := diverted.1
  -- We can add more perimeters if there are uncovered overhangs
  let has_overhang := detect_overhang env last
  -- Calculate next onion shell of perimeters.
  let onion := compute_next_onion env i last
  let next_onion := onion.1
  let st1 : ShellState :=
    { st with last := last, fill_surfaces := st.fill_surfaces ++ diverted.2,
              gaps := st.gaps ++ onion.2.1, thin_walls := st.thin_walls ++ onion.2.2 }
  if next_onion.isEmpty then
    -- Store the number of loops actually generated. No region left to be filled in.
    PassEnd.stop { st1 with loop_number := (i : Int) - 1, last := [] }
  else if (i : Int) > st1.loop_number then
    if has_overhang then
      PassEnd.next (record_pass env i has_overhang next_onion
        { st1 with loop_number := st1.loop_number + 1,
                   contours := st1.contours ++ [[]], holes := st1.holes ++ [[]] })
    else
      -- If i > loop_number, we were looking just for gaps.
      PassEnd.stop st1
  else
    PassEnd.next (record_pass env i has_overhang next_onion st1)

/-- The depth loop from depth `i` on: `none` when the step budget runs out before a
`break`. -/
def shell_loop (env : ShellEnv) : Nat → Nat → ShellState → Option ShellState
  | 0, _, _ => none
  | fuel + 1, i, st =>
    match shell_pass env i st with
    | PassEnd.stop st' => some st'
    | PassEnd.next st' => shell_loop env fuel (i + 1) st'

/-- Lines 71-359 for one island: `none` when no loop is asked for
(`loop_number < 0` on entry skips the block) or when the budget runs out. -/
def generate_shells (env : ShellEnv) (surface : Surface) (fuel : Nat) : Option ShellState :=
  if initial_loop_number env surface ≥ 0 then shell_loop env fuel 0 (shell_init env surface)
  else none

/-- The state at the top of pass `i`, if the loop gets there. -/
def state_at_pass (env : ShellEnv) (st0 : ShellState) : Nat → Option ShellState
  | 0 => some st0
  | i + 1 =>
    match state_at_pass env st0 i with
    | none => none
    | some st =>
      match shell_pass env i st with
      | PassEnd.stop _ => none
      | PassEnd.next st' => some st'

/-- The inset computed in pass `i` from the state at its top. -/
def inset_of_pass (env : ShellEnv) (i : Nat) (st : ShellState) : ExPolygons :=
  (compute_next_onion env i (divert_unsupported env i st.last).1).1

/-- The value of `has_overhang` in pass `i` from the state at its top. -/
def overhang_of_pass (env : ShellEnv) (i : Nat) (st : ShellState) : Bool :=
  detect_overhang env (divert_unsupported env i st.last).1

/-- A stand-in polygon engine on axis-parallel squares, to run the depth loop on concrete
input: every inset moves each side of a square inwards by 10 and drops the square when
nothing is left; a difference returns its first argument whole (the second one lies
elsewhere); the bridge detector finds no bridge. -/
def sample_engine : PolygonEngine :=
  let inset : ExPolygons → ExPolygons := fun region =>
    region.filterMap (fun ex =>
      match ex.contour.points with
      | [a, _, c, _] =>
        if a.x + 20 < c.x then some ⟨square (a.x + 10) (c.x - 10), []⟩ else none
      | _ => none)
  { simplify_p := fun ex => [ex.contour]
    union_ex := fun ps => ps.map (fun p => ⟨p, []⟩)
    union_ex2 := fun a b _ => a ++ b
    diff_ex := fun a _ _ => a
    diff_ex_p := fun _ _ => []
    intersection_ex := fun a _ _ => a
    offset := fun a _ => a.map (fun ex => ex.contour)
    offset_ex := fun a _ => inset a
    offset2_ex := fun a _ _ => inset a
    simplify := fun ex _ => [ex]
    convex_hull := fun a => (a.map (fun ex => ex.contour)).headD ⟨[]⟩
    bridge_detect_angle := fun _ _ _ => false
    bridge_coverage := fun _ _ _ => []
    thin_wall_polylines := fun _ _ => [] }

/-- A plain configuration asking for `perimeters` loops. -/
def sample_config (perimeters : Int) (extra_perimeters : Bool) : PerimeterConfig :=
  { perimeters := perimeters
    extra_perimeters := extra_perimeters
    only_one_perimeter_top := false
    thin_walls := false
    no_perimeter_unsupported := false
    min_perimeter_unsupported := 0
    noperi_bridge_only := false
    gap_fill_speed_positive := false
    fill_density_positive := false
    infill_overlap := fun _ => 0 }

def sample_widths : FlowWidths :=
  { perimeter_width := 10, perimeter_spacing := 10, ext_perimeter_width := 10,
    ext_perimeter_spacing := 10, ext_perimeter_spacing2 := 10, solid_infill_spacing := 10,
    min_spacing := 6, ext_min_spacing := 6 }

/-- Two loops asked for, no lower layer: no overhang can be detected. -/
def plain_env : ShellEnv :=
  { engine := sample_engine, config := sample_config 2 false, widths := sample_widths,
    lower_slices := none, upper_slices := none }

/-- One loop asked for, extra perimeters on overhangs enabled, and a lower layer that
lies elsewhere: the whole island is an overhang at every depth. -/
def overhang_env : ShellEnv :=
  { engine := sample_engine, config := sample_config 1 true, widths := sample_widths,
    lower_slices := some [⟨square 1000 1001, []⟩], upper_slices := none }

/-- A square island of side 70. -/
def sample_island : Surface :=
  { expolygon := ⟨square 0 70, []⟩, extra_perimeters := 0 }

/-- What holds at the top of pass `i` of the depth loop, `L0` being `loop_number` on
entry of the loop. -/
structure ShellInv (L0 : Int) (i : Nat) (st : ShellState) : Prop where
  len_eq : st.contours.length = st.holes.length
  len_ge : st.loop_number + 1 ≤ (st.contours.length : Int)
  number : st.loop_number = max L0 ((i : Int) - 1)
  deeper_empty : ∀ d, i ≤ d → st.contours.getD d [] = [] ∧ st.holes.getD d [] = []

/-! ## Extrusion entities -/

/-- The extrusion roles this file's sources name. -/
inductive ExtrusionRole where
  | erPerimeter
  | erExternalPerimeter
  | erOverhangPerimeter
  | erGapFill
  | erMixed
deriving DecidableEq, Repr

/-- The loop roles this file's sources name. -/
inductive ExtrusionLoopRole where
  | elrDefault
  | elrContourInternalPerimeter
deriving DecidableEq, Repr

/-- `ExtrusionPath`: a polyline with its role, volumetric flow, width and height (the
three numbers are `double`/`float` in the source, exact rationals here). -/
structure ExtrusionPath where
  polyline : Polyline
  role : ExtrusionRole
  mm3_per_mm : ℚ
  width : ℚ
  height : ℚ
deriving DecidableEq, Repr

/-- `ExtrusionPath path(role)`: an empty polyline; the three numbers start at `-1` and
are assigned before a path is used. -/
def ExtrusionPath.of_role (role : ExtrusionRole) : ExtrusionPath :=
  { polyline := ⟨[]⟩, role := role, mm3_per_mm := -1, width := -1, height := -1 }

/-- `ExtrusionLoop`: a sequence of paths and a loop role. -/
structure ExtrusionLoop where
  paths : List ExtrusionPath
  role : ExtrusionLoopRole
deriving DecidableEq, Repr

/-- `points.front()` of the first path, when there is one. -/
def ExtrusionLoop.first_point? (l : ExtrusionLoop) : Option Point :=
  l.paths.head?.bind (fun path => path.polyline.points.head?)

/-- `points.back()` of the last path, when there is one. -/
def ExtrusionLoop.last_point? (l : ExtrusionLoop) : Option Point :=
  l.paths.getLast?.bind (fun path => path.polyline.points.getLast?)

/-- A loop is closed when its first path starts where its last path ends. -/
def ExtrusionLoop.is_closed (l : ExtrusionLoop) : Prop :=
  l.first_point?.isSome = true ∧ l.first_point? = l.last_point?

/-- What `_variable_width` appends to its collection: a loop, or a collection of paths
with its `no_sort` flag. -/
inductive ExtrusionEntity where
  | loop (l : ExtrusionLoop)
  | path_collection (paths : List ExtrusionPath) (no_sort : Bool)
deriving DecidableEq, Repr

/-! ## Double arithmetic (`binary64`, round to nearest, ties to even) -/

/-- Rounding to the nearest integer, a tie going to the even one. -/
def round_half_even (t : ℚ) : Int :=
  if t - ⌊t⌋ < 1 / 2 then ⌊t⌋
  else if 1 / 2 < t - ⌊t⌋ then ⌊t⌋ + 1
  else if ⌊t⌋ % 2 = 0 then ⌊t⌋ else ⌊t⌋ + 1

/-- The power `2^q` of an integer exponent. -/
def pow2 (q : Int) : ℚ :=
  if 0 ≤ q then ((2 ^ q.toNat : Nat) : ℚ) else 1 / ((2 ^ (-q).toNat : Nat) : ℚ)

/-- The number of times `n` can be halved before it falls below 2; the first argument
bounds the number of halvings. -/
def log2_loop : Nat → Nat → Nat
  | 0, _ => 0
  | fuel + 1, n => if 2 ≤ n then log2_loop fuel (n / 2) + 1 else 0

/-- The position of the leading bit of `n >= 1`; `n` halvings are enough. -/
def floor_log2 (n : Nat) : Nat := log2_loop n n

/-- The binary exponent `e` of a positive number `x`, for which `2^e <= x < 2^(e+1)`:
the difference of the leading bit positions of numerator and denominator, or one less. -/
def binary_exponent (x : ℚ) : Int :=
  if pow2 ((floor_log2 x.num.natAbs : Int) - (floor_log2 x.den : Int)) ≤ x then
    (floor_log2 x.num.natAbs : Int) - (floor_log2 x.den : Int)
  else (floor_log2 x.num.natAbs : Int) - (floor_log2 x.den : Int) - 1

/-- The exponent of the last place of the double nearest to a number `x >= 0`: 52 binary
places below its leading bit, and `-1074` for the subnormal numbers. -/
def last_place (x : ℚ) : Int := max (binary_exponent x - 52) (-1074)

/-- The double nearest to a number `x >= 0`. What lies beyond the largest double, which
the machine rounds to infinity, is set to `2^1024`. -/
def round_magnitude (x : ℚ) : ℚ :=
  min ((round_half_even (x / pow2 (last_place x)) : ℚ) * pow2 (last_place x)) (pow2 1024)

/-- The double nearest to a number: the result of a `double` operation whose exact
result is `x`. -/
def round_double (x : ℚ) : ℚ :=
  if 0 ≤ x then round_magnitude x else -round_magnitude (-x)

/-- `a + b` on doubles. -/
def double_add (a b : ℚ) : ℚ := round_double (a + b)

/-- `a - b` on doubles. -/
def double_sub (a b : ℚ) : ℚ := round_double (a - b)

/-- `a * b` on doubles. -/
def double_mul (a b : ℚ) : ℚ := round_double (a * b)

/-- `a / b` on doubles, for `b` other than 0. -/
def double_div (a b : ℚ) : ℚ := round_double (a / b)

/-! ## Joining the loops of a tree (`_traverse_and_join_loops`) -/

/-- `PerimeterPolylineNode`: a piece `me` of the parent's path and, before it, the joined
loop of a child. -/
structure PerimeterPolylineNode where
  to_extrude_before : ExtrusionLoop
  me : ExtrusionPath
deriving DecidableEq, Repr

/-- What `_traverse_and_join_loops` reads from the generator and its configuration, and
the geometry it calls, none of which is part of these sources. `supported_polylines pl`
and `overhang_polylines pl` stand for the polylines of `intersection_pl(pl,
_lower_slices_p)` and `diff_pl(pl, _lower_slices_p)` that `extrusion_paths_append` turns
into paths; `default_has_to_reverse` is the default argument of the declaration.
Distances and lengths are `double` in the source; they are compared exactly here, and
the product of line 762 is rounded as the machine rounds it. -/
structure JoinEnv where
  overhangs : Bool
  layer_id : Int
  support_material : Bool
  support_material_contact_distance_zero : Bool
  ext_mm3_per_mm : ℚ
  mm3_per_mm : ℚ
  mm3_per_mm_overhang : ℚ
  ext_perimeter_flow_width : ℚ
  perimeter_flow_width : ℚ
  overhang_flow_width : ℚ
  overhang_flow_height : ℚ
  layer_height : ℚ
  perimeter_scaled_width : Int
  scaled_epsilon : Int
  default_has_to_reverse : Bool
  split_at_vertex : Polygon → Point → Polyline
  clip_end : Polyline → ℚ → Polyline
  clip_start : Polyline → ℚ → Polyline
  length : Polyline → ℚ
  closest_point_index : Polygon → Point → Nat
  distance_to : Point → Point → ℚ
  supported_polylines : Polyline → List Polyline
  overhang_polylines : Polyline → List Polyline
  chained_path : List ExtrusionPath → List ExtrusionPath

/-- The cast `(coord_t) x` of a double: truncation towards zero. -/
def to_coord (x : ℚ) : Int := if 0 ≤ x then ⌊x⌋ else ⌈x⌉

/-- `points.back()`; the origin stands in for the back of an empty vector. -/
def Polyline.last_point (pl : Polyline) : Point := pl.points.getLastD ⟨0, 0⟩

/-- Lines 686-746: the node list `myPolylines` before any child is looked at. Without
overhang detection it is the single path of the loop. -/
def own_nodes (env : JoinEnv) (is_external : Bool) (initialPolyline : Polyline) :
    List PerimeterPolylineNode :=
  let role := if is_external then ExtrusionRole.erExternalPerimeter else ExtrusionRole.erPerimeter
  if env.overhangs && decide (env.layer_id > 0)
      && !(env.support_material && env.support_material_contact_distance_zero) then
    -- get non-overhang paths by intersecting this loop with the grown lower slices
    let paths := (env.supported_polylines initialPolyline).map (fun pl =>
      ({ polyline := pl, role := role,
         mm3_per_mm := if is_external then env.ext_mm3_per_mm else env.mm3_per_mm,
         width := if is_external then env.ext_perimeter_flow_width else env.perimeter_flow_width,
         height := env.layer_height } : ExtrusionPath))
    -- get overhang paths by checking what parts of this loop fall outside
    let paths := paths ++ (env.overhang_polylines initialPolyline).map (fun pl =>
      ({ polyline := pl, role := ExtrusionRole.erOverhangPerimeter,
         mm3_per_mm := env.mm3_per_mm_overhang,
         width := env.overhang_flow_width, height := env.overhang_flow_height } : ExtrusionPath))
    -- reapply the nearest point search for starting point
    (env.chained_path paths).map (fun path =>
      ({ to_extrude_before := ⟨[], ExtrusionLoopRole.elrDefault⟩, me := path } : PerimeterPolylineNode))
  else
    [{ to_extrude_before := ⟨[], ExtrusionLoopRole.elrDefault⟩
       me := { polyline := initialPolyline, role := role
               mm3_per_mm := if is_external then env.ext_mm3_per_mm else env.mm3_per_mm
               width := if is_external then env.ext_perimeter_flow_width else env.perimeter_flow_width
               height := env.layer_height } }]

/-- The running best of the search for a splice point: `smallest_dist` and, once a point
was accepted, `(smallest_idx, my_smallest_idx, my_polyline_idx)`; `none` is the initial
`(size_t)-1`. -/
structure SpliceSearch where
  smallest_dist : Int
  found : Option (Nat × Nat × Nat)
deriving DecidableEq, Repr

/-- Lines 770-791: the loop over the points `idx_point, ...` of one parent piece, with
`count` points left to look at. A nearer point that leaves too little room ends the loop
(`break`). -/
def scan_piece (env : JoinEnv) (child_polygon : Polygon) (idx_poly : Nat) (points : List Point) :
    Nat → Nat → SpliceSearch → SpliceSearch
  | 0, _, best => best
  | count + 1, idx_point, best =>
    let p := points.getD idx_point ⟨0, 0⟩
    let nearest_idx := env.closest_point_index child_polygon p
    let dist := to_coord (env.distance_to (child_polygon.points.getD nearest_idx ⟨0, 0⟩) p)
    if dist < best.smallest_dist then
      -- test if there are enough space
      if env.length ⟨points.drop idx_point⟩ + (env.scaled_epsilon : ℚ)
          < (env.perimeter_scaled_width : ℚ) then
        -- not enough space => continue with next polyline
        best
      else
        scan_piece env child_polygon idx_poly points count (idx_point + 1)
          { smallest_dist := dist, found := some (nearest_idx, idx_point, idx_poly) }
    else
      scan_piece env child_polygon idx_poly points count (idx_point + 1) best

/-- Lines 762-792: the search over all parent pieces for the point nearest to the child.
A piece shorter than `dist_cut` (minus epsilon) is passed over; of a piece all points but
the last are looked at. -/
def find_splice (env : JoinEnv) (child_polygon : Polygon) (myPolylines : List PerimeterPolylineNode) :
    SpliceSearch :=
  (List.range myPolylines.length).foldl (fun best idx_poly =>
    match myPolylines[idx_poly]? with
    | none => best
    | some node =>
      if env.length node.me.polyline + (env.scaled_epsilon : ℚ) < (env.perimeter_scaled_width : ℚ) then
        best
      else
        scan_piece env child_polygon idx_poly node.me.polyline.points
          (node.me.polyline.points.length - 1) 0 best)
    { smallest_dist := to_coord (double_mul (round_double (env.perimeter_scaled_width : ℚ))
        (round_double (41 / 10))), found := none }

/-- Lines 799-813: a new node with the child's joined loop and a copy of the parent piece
is inserted after the piece; the copy keeps the points from `my_smallest_idx` on and is
clipped at its start, the piece keeps the points up to `my_smallest_idx`. -/
def splice_child (env : JoinEnv) (myPolylines : List PerimeterPolylineNode)
    (child_loop : ExtrusionLoop) (my_polyline_idx my_smallest_idx : Nat) :
    List PerimeterPolylineNode :=
  match myPolylines[my_polyline_idx]? with
  | none => myPolylines
  | some piece =>
    let new_node : PerimeterPolylineNode :=
      { to_extrude_before := child_loop
        me := { piece.me with polyline :=
          (env.clip_start ⟨piece.me.polyline.points.drop my_smallest_idx⟩
            ((env.perimeter_scaled_width - env.scaled_epsilon : Int) : ℚ)) } }
    let cut_piece : PerimeterPolylineNode :=
      { piece with me := { piece.me with polyline :=
          ⟨piece.me.polyline.points.take (my_smallest_idx + 1)⟩ } }
    myPolylines.take my_polyline_idx ++ cut_piece :: new_node :: myPolylines.drop (my_polyline_idx + 1)

/-- The variables of the final loop of `_traverse_and_join_loops`: the node that
`myPolylines.front()` refers to (the loop writes to it), the paths collected so far and
`last_point`. -/
structure AssemblyState where
  front : PerimeterPolylineNode
  paths : List ExtrusionPath
  last_point : Point
deriving DecidableEq, Repr

/-- `paths.front().polyline.points.insert(begin, p)` on a list of paths. -/
def prepend_to_first_path (p : Point) : List ExtrusionPath → List ExtrusionPath
  | [] => []
  | path :: rest => { path with polyline := ⟨p :: path.polyline.points⟩ } :: rest

/-- One pass of `for (size_t idx_node = 1; idx_node < myPolylines.size(); idx_node++)`
(lines 838-862). The pass takes `current_node` from `myPolylines.front()`, whatever
`idx_node` is. -/
def assembly_pass (s : AssemblyState) : AssemblyState :=
  let current_node := s.front
  -- insert inner node
  let s1 : AssemblyState :=
    if !current_node.to_extrude_before.paths.isEmpty then
      let before := prepend_to_first_path s.last_point current_node.to_extrude_before.paths
      { front := { current_node with to_extrude_before := { current_node.to_extrude_before with paths := before } }
        paths := s.paths ++ before
        last_point := (before.getLastD (ExtrusionPath.of_role ExtrusionRole.erPerimeter)).polyline.last_point }
    else s
  let current_node := s1.front
  if !current_node.me.polyline.points.isEmpty then
    let me := { current_node.me with polyline := ⟨s1.last_point :: current_node.me.polyline.points⟩ }
    { front := { current_node with me := me }
      paths := s1.paths ++ [me]
      last_point := me.polyline.last_point }
  else s1

/-- Lines 829-873: the joined loop is put together from the node list. -/
def final_assembly (myPolylines : List PerimeterPolylineNode) : ExtrusionLoop :=
  match myPolylines with
  | [] => ⟨[], ExtrusionLoopRole.elrContourInternalPerimeter⟩
  | first_node :: _ =>
    let s := Nat.iterate assembly_pass (myPolylines.length - 1)
      { front := first_node, paths := [first_node.me], last_point := first_node.me.polyline.last_point }
    ⟨s.paths, ExtrusionLoopRole.elrContourInternalPerimeter⟩

mutual
/-- `_traverse_and_join_loops(loop, entryPoint, has_to_reverse)`. The debug counter, the
console output and the SVG dumps are left out. -/
def traverse_and_join_loops (env : JoinEnv) :
    PerimeterGeneratorLoop → Point → Bool → ExtrusionLoop
  | .mk polygon depth is_contour _ children, entryPoint, has_to_reverse =>
    let dist_cut := env.perimeter_scaled_width
    let initialPolyline := env.split_at_vertex polygon entryPoint
    let initialPolyline : Polyline :=
      if (has_to_reverse && is_contour) || (!is_contour && !has_to_reverse) then
        ⟨initialPolyline.points.reverse⟩
      else initialPolyline
    let initialPolyline := env.clip_end initialPolyline (dist_cut : ℚ)
    let myPolylines := own_nodes env (depth == 0) initialPolyline
    -- iterate on each point ot find the best place to go into the child
    let myPolylines := join_children env children has_to_reverse myPolylines
    -- create the polyline
    final_assembly myPolylines
/-- Lines 760-818: `for (const PerimeterGeneratorLoop &child : loop.children)`. -/
def join_children (env : JoinEnv) :
    List PerimeterGeneratorLoop → Bool → List PerimeterPolylineNode → List PerimeterPolylineNode
  | [], _, myPolylines => myPolylines
  | child :: rest, has_to_reverse, myPolylines =>
    match (find_splice env child.polygon myPolylines).found with
    | none =>
      -- can't find a point near enough! => don't extrude this perimeter
      join_children env rest has_to_reverse myPolylines
    | some (smallest_idx, my_smallest_idx, my_polyline_idx) =>
      -- create new node with recursive ask for the inner perimeter
      let child_loop := traverse_and_join_loops env child
        (child.polygon.points.getD smallest_idx ⟨0, 0⟩) (!has_to_reverse)
      join_children env rest has_to_reverse
        (splice_child env myPolylines child_loop my_polyline_idx my_smallest_idx)
end

/-- `extr_loop.paths.back().polyline.points.push_back(p)`. -/
def push_to_last_path (p : Point) : List ExtrusionPath → List ExtrusionPath
  | [] => []
  | [path] => [{ path with polyline := ⟨path.polyline.points ++ [p]⟩ }]
  | path :: rest => path :: push_to_last_path p rest

/-- Line 425 of `process`: the first point of the first path is appended to the last
path. `none` when there is no first point (C++ would read the front of an empty vector). -/
def close_loop (extr_loop : ExtrusionLoop) : Option ExtrusionLoop :=
  match extr_loop.first_point? with
  | none => none
  | some p => some { extr_loop with paths := push_to_last_path p extr_loop.paths }

/-- Lines 421-427 of `process`: the loops appended to `entities`, one per loop of
`contours.front()`, in order. -/
def island_entities (env : JoinEnv) : PerimeterGeneratorLoops → Option (List ExtrusionLoop)
  | [] => some []
  | loop :: rest =>
    match close_loop (traverse_and_join_loops env loop loop.polygon.first_point
        env.default_has_to_reverse) with
    | none => none
    | some extr_loop =>
      match island_entities env rest with
      | none => none
      | some entities => some (extr_loop :: entities)

/-- The length of a polyline whose segments are parallel to the axes. -/
def axis_length : List Point → ℚ
  | a :: b :: rest => ((|b.x - a.x| + |b.y - a.y| : Int) : ℚ) + axis_length (b :: rest)
  | _ => 0

/-- A stand-in geometry for `_traverse_and_join_loops` on concrete input: the polygon is
split at the given vertex and closed, nothing is clipped, lengths and distances are
measured along the axes, and the closest point is the first one at the least distance. -/
def sample_join_env : JoinEnv :=
  { overhangs := false, layer_id := 0, support_material := false,
    support_material_contact_distance_zero := false,
    ext_mm3_per_mm := 1, mm3_per_mm := 1, mm3_per_mm_overhang := 1,
    ext_perimeter_flow_width := 1, perimeter_flow_width := 1,
    overhang_flow_width := 1, overhang_flow_height := 1, layer_height := 1,
    perimeter_scaled_width := 10, scaled_epsilon := 1, default_has_to_reverse := false,
    split_at_vertex := fun poly p =>
      ⟨poly.points.drop (poly.points.indexOf p) ++ poly.points.take (poly.points.indexOf p + 1)⟩,
    clip_end := fun pl _ => pl, clip_start := fun pl _ => pl,
    length := fun pl => axis_length pl.points,
    closest_point_index := fun poly p =>
      (poly.points.enum.foldl (fun (best : Nat × Int) (kq : Nat × Point) =>
        if |kq.2.x - p.x| + |kq.2.y - p.y| < best.2 then
          (kq.1, |kq.2.x - p.x| + |kq.2.y - p.y|)
        else best)
        (0, |(poly.points.headD ⟨0, 0⟩).x - p.x| + |(poly.points.headD ⟨0, 0⟩).y - p.y|)).1,
    distance_to := fun a b => ((|a.x - b.x| + |a.y - b.y| : Int) : ℚ),
    supported_polylines := fun pl => [pl], overhang_polylines := fun _ => [],
    chained_path := fun paths => paths }

/-- A depth-0 contour with one depth-1 contour inside it, ten units further in. -/
def joined_sample : PerimeterGeneratorLoop :=
  .mk (square 0 100) 0 true false [.mk (square 10 90) 1 true false []]

/-! ## Variable-width paths (`_variable_width`) -/

/-- A segment with a width at each end (`ThickLine`). -/
structure ThickLine where
  a : Point
  b : Point
  a_width : ℚ
  b_width : ℚ
deriving DecidableEq, Repr

/-- The two fields of `Flow` that `_variable_width` reads and writes. -/
structure Flow where
  width : ℚ
  height : ℚ
deriving DecidableEq, Repr

/-- The constants and the geometry `_variable_width` uses, none of which is part of these
sources: `tolerance` is `scale_(0.05)`, `scaling_factor` the factor of `scale_` and
`unscale`, `round_excess` the number `1 - 0.25 * PI`, `thicklines` is
`ThickPolyline::thicklines()`, `line_length` and `point_at` are `ThickLine::length()`
and `ThickLine::point_at(distance)`, `flow_mm3_per_mm` is `Flow::mm3_per_mm()`. The
subdivision of a line (lines 898-932) is computed in doubles, every operation rounded;
the flow arithmetic of lines 934-959, which runs through the `float` fields of `Flow`
and the constant `PI`, is computed exactly, with `round_excess` for the constant. -/
structure WidthEnv where
  tolerance : ℚ
  scaled_epsilon : ℚ
  scaling_factor : ℚ
  round_excess : ℚ
  thicklines : ThickPolyline → List ThickLine
  line_length : ThickLine → ℚ
  point_at : ThickLine → ℚ → Point
  flow_mm3_per_mm : Flow → ℚ

/-- `scale_(x)`. -/
def WidthEnv.scale (env : WidthEnv) (x : ℚ) : ℚ := x / env.scaling_factor

/-- `unscale(x)`. -/
def WidthEnv.unscale (env : WidthEnv) (x : ℚ) : ℚ := x * env.scaling_factor

/-- Line 898: `thickness_delta = fabs(line.a_width - line.b_width)`, the difference
rounded to a double. -/
def thickness_delta (line : ThickLine) : ℚ := |double_sub line.a_width line.b_width|

/-- `const unsigned short segments = ceil(thickness_delta / tolerance)`: the ceiling of
the rounded quotient; the conversion keeps the value modulo `2^16`. -/
def width_segments (env : WidthEnv) (thickness_delta : ℚ) : Nat :=
  (⌈double_div thickness_delta env.tolerance⌉ % 65536).toNat

/-- Line 901: `seg_len = line_len / segments`; not read when `segments` is 0. -/
def seg_len (env : WidthEnv) (line : ThickLine) (segments : Nat) : ℚ :=
  double_div (env.line_length line) (segments : ℚ)

/-- Line 910: the width at the inner point `j`,
`w = line.a_width + (j*seg_len) * (line.b_width-line.a_width) / line_len`, each of the
five operations rounded to a double. -/
def interpolated_width (env : WidthEnv) (line : ThickLine) (segments j : Nat) : ℚ :=
  double_add line.a_width
    (double_div
      (double_mul (double_mul (j : ℚ) (seg_len env line segments))
        (double_sub line.b_width line.a_width))
      (env.line_length line))

/-- Lines 902-919: the points `pp` of the subdivision of a line. -/
def subdivision_points (env : WidthEnv) (line : ThickLine) (segments : Nat) : List Point :=
  [line.a] ++ (List.range' 1 (segments - 1)).map
      (fun (j : Nat) => env.point_at line (double_mul (j : ℚ) (seg_len env line segments)))
    ++ [line.b]

/-- Lines 902-919: the widths `width` of the subdivision of a line, two per inner point. -/
def subdivision_widths (env : WidthEnv) (line : ThickLine) (segments : Nat) : List ℚ :=
  [line.a_width] ++ (List.range' 1 (segments - 1)).flatMap (fun j =>
      let w := interpolated_width env line segments j
      [w, w])
    ++ [line.b_width]

/-- Lines 921-928: the lines that replace `lines[i]`. -/
def subdivision_lines (env : WidthEnv) (line : ThickLine) (segments : Nat) : List ThickLine :=
  let pp := subdivision_points env line segments
  let width := subdivision_widths env line segments
  (List.range segments).map (fun j =>
    ({ a := pp.getD j ⟨0, 0⟩, b := pp.getD (j + 1) ⟨0, 0⟩,
       a_width := width.getD (2 * j) 0, b_width := width.getD (2 * j + 1) 0 } : ThickLine))

/-- The variables of the segment loop of `_variable_width`. -/
structure WidthState where
  lines : List ThickLine
  i : Nat
  path : ExtrusionPath
  paths : List ExtrusionPath
  flow : Flow
deriving DecidableEq, Repr

/-- One pass of `for (int i = 0; i < (int)lines.size(); ++i)` (lines 892-960), for
`i < lines.size()`. A `--i` before the loop's `++i` leaves `i` where it is. -/
def width_pass (env : WidthEnv) (role : ExtrusionRole) (line : ThickLine) (s : WidthState) :
    WidthState :=
  let line_len := env.line_length line
  if line_len < env.scaled_epsilon then { s with i := s.i + 1 }
  else
    let thickness_delta := thickness_delta line
    if thickness_delta > env.tolerance then
      let segments := width_segments env thickness_delta
      -- delete this line and insert new ones
      { s with lines := s.lines.take s.i ++ subdivision_lines env line segments
                 ++ s.lines.drop (s.i + 1) }
    else
      let w := max line.a_width line.b_width
      if s.path.polyline.points.isEmpty then
        let flow : Flow := { s.flow with width := env.unscale w + s.flow.height * env.round_excess }
        { s with i := s.i + 1, flow := flow,
                 path := { s.path with polyline := ⟨[line.a, line.b]⟩,
                                       mm3_per_mm := env.flow_mm3_per_mm flow,
                                       width := flow.width, height := flow.height } }
      else
        let thickness_delta := |env.scale s.flow.width - w|
        if thickness_delta ≤ env.tolerance / 2 then
          -- the width difference between this line and the current flow width is
          -- within the accepted tolerance
          { s with i := s.i + 1,
                   path := { s.path with polyline := ⟨s.path.polyline.points ++ [line.b]⟩ } }
        else
          -- we need to initialize a new line
          { s with paths := s.paths ++ [s.path], path := ExtrusionPath.of_role role }

/-- The segment loop of `_variable_width`: `none` when the step budget runs out before
`i` reaches `lines.size()`. -/
def width_loop (env : WidthEnv) (role : ExtrusionRole) : Nat → WidthState → Option WidthState
  | 0, _ => none
  | fuel + 1, s =>
    match s.lines[s.i]? with
    | none => some s
    | some line => width_loop env role fuel (width_pass env role line s)

/-- Lines 961-973: the paths of one polyline become one entity, or none. A path is kept
at the end when `polyline.is_valid()` (at least two points); the paths form a loop when
`paths.front().first_point().coincides_with(paths.back().last_point())`. -/
def collect_paths (s : WidthState) : List ExtrusionEntity :=
  let paths := if s.path.polyline.points.length ≥ 2 then s.paths ++ [s.path] else s.paths
  if paths.isEmpty then []
  else if (paths.headD s.path).polyline.points.headD ⟨0, 0⟩ =
      (paths.getLastD s.path).polyline.last_point then
    [ExtrusionEntity.loop ⟨paths, ExtrusionLoopRole.elrDefault⟩]
  else
    -- not a loop : avoid to "sort" it.
    [ExtrusionEntity.path_collection paths true]

/-- `_variable_width(polylines, role, flow)`: the entities of the returned collection.
`flow` is a local copy that the segment loop writes to and that lives across the
polylines. `none` when a segment loop runs out of its budget. -/
def variable_width (env : WidthEnv) (role : ExtrusionRole) (fuel : Nat) :
    List ThickPolyline → Flow → Option (List ExtrusionEntity)
  | [], _ => some []
  | p :: rest, flow =>
    match width_loop env role fuel
        { lines := env.thicklines p, i := 0, path := ExtrusionPath.of_role role, paths := [],
          flow := flow } with
    | none => none
    | some s =>
      match variable_width env role fuel rest s.flow with
      | none => none
      | some coll => some (collect_paths s ++ coll)

/-- A stand-in environment for `_variable_width` on concrete input: unit scaling, no
width correction, every line of length 100. -/
def sample_width_env : WidthEnv :=
  { tolerance := 50, scaled_epsilon := 1, scaling_factor := 1, round_excess := 0,
    thicklines := fun p =>
      (List.range (p.points.length - 1)).map (fun k =>
        ({ a := p.points.getD k ⟨0, 0⟩, b := p.points.getD (k + 1) ⟨0, 0⟩,
           a_width := p.width.getD (2 * k) 0, b_width := p.width.getD (2 * k + 1) 0 } : ThickLine)),
    line_length := fun _ => 100,
    point_at := fun line _ => line.a,
    flow_mm3_per_mm := fun _ => 1 }

/-- A closed triangle of constant width 400. -/
def triangle_centerline : ThickPolyline :=
  { points := [⟨0, 0⟩, ⟨100, 0⟩, ⟨0, 100⟩, ⟨0, 0⟩], width := [400, 400, 400, 400, 400, 400] }

/-- Every path kept so far has at least two points, and the running path is empty or has
at least two points. -/
def WidthState.paths_valid (s : WidthState) : Prop :=
  (∀ p ∈ s.paths, 2 ≤ p.polyline.points.length) ∧
    (s.path.polyline.points = [] ∨ 2 ≤ s.path.polyline.points.length)

/-! ### The splice search, as the design states it -/

/-- The initial `smallest_dist` of line 762, `(coord_t)(dist_cut * 4.1)`: `dist_cut` is
converted to a double, its product with the double nearest to 4.1 is rounded to a double,
and the cast cuts the fraction off. For `dist_cut = 100` this is 409, not 410. -/
def splice_threshold (env : JoinEnv) : Int :=
  to_coord (double_mul (round_double (env.perimeter_scaled_width : ℚ)) (round_double (41 / 10)))

/-- Scan order of the search: piece by piece, and vertex by vertex within a piece. -/
def scanned_before (i j i' j' : Nat) : Prop := i < i' ∨ (i = i' ∧ j < j')

/-- The environment of `_variable_width` with the constants at their nominal values:
`SCALING_FACTOR = 0.000001`, so `tolerance = scale_(0.05) = 50000`, and
`SCALED_EPSILON = 100`; `round_excess` is `1 - 0.25 * PI` cut after four decimals.
Lengths are taken along the axes, which is exact for axis-parallel lines. -/
def metric_width_env : WidthEnv :=
  { tolerance := 50000, scaled_epsilon := 100, scaling_factor := 1 / 1000000,
    round_excess := 2146 / 10000,
    thicklines := sample_width_env.thicklines,
    line_length := fun line => ((|line.b.x - line.a.x| + |line.b.y - line.a.y| : Int) : ℚ),
    point_at := fun line _ => line.a,
    flow_mm3_per_mm := fun flow => flow.height * (flow.width - flow.height * (2146 / 10000)) }

/-- A straight centerline of two segments of 1 mm, of width 0.4 mm throughout. -/
def straight_centerline : ThickPolyline :=
  { points := [⟨0, 0⟩, ⟨1000000, 0⟩, ⟨2000000, 0⟩],
    width := [400000, 400000, 400000, 400000] }

/-- The points of the paths of an entity, path by path. -/
def ExtrusionEntity.path_points : ExtrusionEntity → List (List Point)
  | .loop l => l.paths.map (fun p => p.polyline.points)
  | .path_collection paths _ => paths.map (fun p => p.polyline.points)
/-- Lines 961-962: the paths of a polyline once its segment loop is over. The running
path is kept when `polyline.is_valid()`. -/
def WidthState.final_paths (s : WidthState) : List ExtrusionPath :=
  if s.path.polyline.points.length ≥ 2 then s.paths ++ [s.path] else s.paths

/-- The states in which the segment loops of the polylines end, in input order; the flow
a loop ends with is the flow the next loop starts with. `none` when a loop runs out of
its budget. -/
def polyline_states (env : WidthEnv) (role : ExtrusionRole) (fuel : Nat) :
    List ThickPolyline → Flow → Option (List WidthState)
  | [], _ => some []
  | p :: rest, flow =>
    match width_loop env role fuel
        { lines := env.thicklines p, i := 0, path := ExtrusionPath.of_role role, paths := [],
          flow := flow } with
    | none => none
    | some s =>
      match polyline_states env role fuel rest s.flow with
      | none => none
      | some states => some (s :: states)

/-- The design's rule for the finished path sequence of one polyline: no entity for no
path; a loop when the first point of the first path coincides with the last point of the
last path; otherwise a collection of the paths, in their order, that must not be
sorted. -/
def polyline_entity : List ExtrusionPath → List ExtrusionEntity
  | [] => []
  | first :: rest =>
    if first.polyline.points.headD ⟨0, 0⟩
        = ((first :: rest).getLastD first).polyline.last_point then
      [ExtrusionEntity.loop ⟨first :: rest, ExtrusionLoopRole.elrDefault⟩]
    else [ExtrusionEntity.path_collection (first :: rest) true]

/-! ### The three insets of the thin-wall second try, and the unsupported part -/

/-- Lines 235-238: the thin-aware inset at depth 0. -/
def first_try (env : ShellEnv) (last : ExPolygons) : ExPolygons :=
  env.engine.offset2_ex last
    (-((env.widths.ext_perimeter_width.tdiv 2 + env.widths.ext_min_spacing.tdiv 2 - 1 : Int) : ℚ))
    ((env.widths.ext_min_spacing.tdiv 2 - 1 : Int) : ℚ)

/-- Line 241: `no_thin_onion`, the inset that takes no care of thin walls. -/
def no_thin_try (env : ShellEnv) (last : ExPolygons) : ExPolygons :=
  env.engine.offset_ex last (-((env.widths.ext_perimeter_width.tdiv 2 : Int) : ℚ))

/-- Lines 244-247: `next_onion_secondTry`, the thin-aware inset with the smaller
spacing. -/
def second_try (env : ShellEnv) (last : ExPolygons) : ExPolygons :=
  env.engine.offset2_ex last
    (-(((env.widths.ext_perimeter_width.tdiv 2 : Int) : ℚ)
      + (env.widths.ext_min_spacing : ℚ) / (5 / 2) - 1))
    ((env.widths.ext_min_spacing : ℚ) / (5 / 2) - 1)

/-- A stand-in engine whose thin-aware insets fall into pieces: the plain inset keeps the
region, the first try (outward offset 2 with `sample_widths`) gives 11 copies of every
piece and the second try 7. -/
def fragmenting_engine : PolygonEngine :=
  { sample_engine with
    offset_ex := fun a _ => a
    offset2_ex := fun a _ delta2 =>
      a.flatMap (fun ex => List.replicate (if delta2 = 2 then 11 else 7) ex) }

/-- Thin walls enabled, on the fragmenting engine. -/
def fragmenting_env : ShellEnv :=
  { engine := fragmenting_engine
    config := { sample_config 2 false with thin_walls := true }
    widths := sample_widths, lower_slices := none, upper_slices := none }

/-- Lines 95 and 179: `unsupported = diff_ex(last, lower_slices->expolygons, true)`. -/
def unsupported_of (g : PolygonEngine) (last lower : ExPolygons) : ExPolygons :=
  g.diff_ex last lower true

/-- Lines 102 and 187: `diff_ex(last, unsupported, true)`, the supported part of
`last`. -/
def supported_of (g : PolygonEngine) (last lower : ExPolygons) : ExPolygons :=
  g.diff_ex last (unsupported_of g last lower) true

/-- A stand-in engine with an exact difference on regions made of whole pieces: the
difference keeps the pieces of the first region that are not in the second. -/
def piecewise_engine : PolygonEngine :=
  { sample_engine with
    diff_ex := fun a b _ => a.filter (fun ex => !b.contains ex) }

/-- Extra perimeters and the diversion of unsupported areas enabled, over a lower layer
that holds the square `square 0 70`. -/
def piecewise_env : ShellEnv :=
  { engine := piecewise_engine
    config := { sample_config 1 true with no_perimeter_unsupported := true }
    widths := sample_widths
    lower_slices := some [⟨square 0 70, []⟩], upper_slices := none }

/-! ## Gap fill (`process`, lines 482-513) -/

/-- What the gap-fill block reads and calls besides the polygon engine and the widths:
the macro `INSET_OVERLAP_TOLERANCE`, the layer height, the solid infill flow,
`ExPolygon::area`, `ExPolygon::medial_axis(bound, max_width, min_width, polylines,
height)`, which works on the vector `polylines` it is handed, `to_polygons` and
`polygons_covered_by_width`; none of them is part of these sources. -/
structure GapFillEnv where
  shell : ShellEnv
  width_env : WidthEnv
  inset_overlap_tolerance : ℚ
  layer_height : ℚ
  solid_infill_flow : Flow
  area : ExPolygon → ℚ
  medial_axis : ExPolygon → ExPolygon → ℚ → ℚ → ThickPolylines → ℚ → ThickPolylines
  to_polygons : ExPolygons → Polygons
  polygons_covered_by_width : List ExtrusionEntity → ℚ → Polygons

/-- Line 485: `double min = 0.2 * perimeter_width * (1 - INSET_OVERLAP_TOLERANCE)`, from
left to right in doubles: the double nearest to 0.2 times the width converted to a
double, times the rounded difference. -/
def GapFillEnv.min (env : GapFillEnv) : ℚ :=
  double_mul
    (double_mul (round_double (2 / 10)) (round_double (env.shell.widths.perimeter_width : ℚ)))
    (double_sub 1 env.inset_overlap_tolerance)

/-- Line 486: `double max = 2. * perimeter_spacing`. -/
def GapFillEnv.max (env : GapFillEnv) : ℚ :=
  double_mul 2 (round_double (env.shell.widths.perimeter_spacing : ℚ))

/-- Line 495: the product `min*max` that the area of a fragment is compared with, rounded
to a double. -/
def GapFillEnv.min_max (env : GapFillEnv) : ℚ := double_mul env.min env.max

/-- Lines 491-498: the loop over the fragments, which fills `polylines`. -/
def gap_polylines (env : GapFillEnv) (fragments : ExPolygons) : ThickPolylines :=
  fragments.foldl (fun polylines ex =>
    -- remove too small gaps that are too hard to fill.
    if env.area ex > env.min_max then
      env.medial_axis ex ex env.max env.min polylines env.layer_height
    else polylines) []

/-- A stand-in environment for the gap-fill block on squares: the area of a piece is the
area of the square its contour spans, the medial axis of a piece is the diagonal of that
square with the side as width; `min` is the double nearest to 1.2 times 0.6, `max` is
20 and their rounded product `min*max` is 24. -/
def sample_gap_env : GapFillEnv :=
  { shell := plain_env, width_env := sample_width_env
    inset_overlap_tolerance := 4 / 10, layer_height := 2
    solid_infill_flow := ⟨10, 2⟩
    area := fun ex =>
      match ex.contour.points with
      | [a, _, c, _] => (((c.x - a.x) * (c.y - a.y) : Int) : ℚ)
      | _ => 0
    medial_axis := fun ex _ _ _ polylines _ =>
      match ex.contour.points with
      | [a, _, c, _] =>
        polylines ++ [{ points := [a, c], width := [((c.x - a.x : Int) : ℚ), ((c.x - a.x : Int) : ℚ)] }]
      | _ => polylines
    to_polygons := fun a => a.flatMap (fun ex => ex.contour :: ex.holes)
    polygons_covered_by_width := fun _ _ => [] }
/-! ## Ordering the loops of a tree (`_traverse_loops`) -/

/-- What `_traverse_loops` reads and calls. The configuration and flow values are those
of `JoinEnv`. `supported_parts polygon` and `overhang_parts polygon` stand for
`intersection_pl(polygon, _lower_slices_p)` and `diff_pl(polygon, _lower_slices_p)`,
`chained_paths` for `ExtrusionEntityCollection(paths).chained_path()` read back as
paths, and `chained_path coll` for `coll.chained_path(&sorted_coll, false, erMixed,
&sorted_coll.orig_indices)`: the entities of `sorted_coll`, each with its index in
`coll`. `make_clockwise` and `make_counter_clockwise` are those of `ExtrusionLoop`. -/
structure TraverseEnv where
  join : JoinEnv
  width_env : WidthEnv
  ext_perimeter_flow : Flow
  split_at_first_point : Polygon → Polyline
  supported_parts : Polygon → List Polyline
  overhang_parts : Polygon → List Polyline
  chained_paths : List ExtrusionPath → List ExtrusionPath
  chained_path : List ExtrusionEntity → List (Nat × ExtrusionEntity)
  make_clockwise : ExtrusionLoop → ExtrusionLoop
  make_counter_clockwise : ExtrusionLoop → ExtrusionLoop

/-- Lines 564-615: the `ExtrusionLoop` that is built for one loop. -/
def loop_entity (env : TraverseEnv) (loop : PerimeterGeneratorLoop) : ExtrusionLoop :=
  let is_external := loop.is_external
  let role := if is_external then ExtrusionRole.erExternalPerimeter else ExtrusionRole.erPerimeter
  let loop_role :=
    if loop.is_internal_contour then ExtrusionLoopRole.elrContourInternalPerimeter
    else ExtrusionLoopRole.elrDefault
  -- detect overhanging/bridging perimeters
  let paths : List ExtrusionPath :=
    if env.join.overhangs && decide (env.join.layer_id > 0)
        && !(env.join.support_material && env.join.support_material_contact_distance_zero) then
      -- get non-overhang paths by intersecting this loop with the grown lower slices
      let paths := (env.supported_parts loop.polygon).map (fun pl =>
        ({ polyline := pl, role := role,
           mm3_per_mm := if is_external then env.join.ext_mm3_per_mm else env.join.mm3_per_mm,
           width := if is_external then env.join.ext_perimeter_flow_width
                    else env.join.perimeter_flow_width,
           height := env.join.layer_height } : ExtrusionPath))
      -- get overhang paths by checking what parts of this loop fall outside
      let paths := paths ++ (env.overhang_parts loop.polygon).map (fun pl =>
        ({ polyline := pl, role := ExtrusionRole.erOverhangPerimeter,
           mm3_per_mm := env.join.mm3_per_mm_overhang,
           width := env.join.overhang_flow_width,
           height := env.join.overhang_flow_height } : ExtrusionPath))
      -- reapply the nearest point search for starting point
      env.chained_paths paths
    else
      [{ polyline := env.split_at_first_point loop.polygon, role := role
         mm3_per_mm := if is_external then env.join.ext_mm3_per_mm else env.join.mm3_per_mm
         width := if is_external then env.join.ext_perimeter_flow_width
                  else env.join.perimeter_flow_width
         height := env.join.layer_height }]
  ⟨paths, loop_role⟩

/-- Lines 618-625: the entities of the thin walls, which are appended to `coll`. `none`
when `_variable_width` runs out of its budget. -/
def thin_wall_entities (env : TraverseEnv) (fuel : Nat) (thin_walls : ThickPolylines) :
    Option (List ExtrusionEntity) :=
  if !thin_walls.isEmpty then
    variable_width env.width_env ExtrusionRole.erExternalPerimeter fuel thin_walls
      env.ext_perimeter_flow
  else some []

/-- Lines 561-625: `coll`, one loop per entry of `loops`, then the thin walls. -/
def collection (env : TraverseEnv) (loops : PerimeterGeneratorLoops)
    (thin_walls : List ExtrusionEntity) : List ExtrusionEntity :=
  loops.map (fun loop => ExtrusionEntity.loop (loop_entity env loop)) ++ thin_walls

/-- Lines 638-660: one pass of the loop over `sorted_coll.orig_indices`; `item` is the
index `*idx` with the entity of `sorted_coll` at the same position, `children_of[*idx]`
the result of `_traverse_loops(loop.children, thin_walls)`. -/
def traverse_pass (env : TraverseEnv) (loops : PerimeterGeneratorLoops)
    (children_of : List (List ExtrusionEntity)) (coll : List ExtrusionEntity)
    (entities : List ExtrusionEntity) (item : Nat × ExtrusionEntity) : List ExtrusionEntity :=
  if item.1 ≥ loops.length then
    -- this is a thin wall
    -- let's get it from the sorted collection as it might have been reversed
    entities ++ [item.2]
  else
    match loops[item.1]?, coll[item.1]? with
    | some loop, some (ExtrusionEntity.loop eloop) =>
      let children := children_of.getD item.1 []
      if loop.is_contour then
        let eloop :=
          if loop.is_overhang && env.join.layer_id.tmod 2 == 1 then env.make_clockwise eloop
          else env.make_counter_clockwise eloop
        entities ++ children ++ [ExtrusionEntity.loop eloop]
      else
        let eloop := env.make_clockwise eloop
        entities ++ [ExtrusionEntity.loop eloop] ++ children
    | _, _ => entities

/-- Lines 561-662, given the thin-wall entities and, for every loop of `loops`, the
result of the recursive call on its children. -/
def traverse_body (env : TraverseEnv) (loops : PerimeterGeneratorLoops)
    (children_of : List (List ExtrusionEntity)) (thin_walls : List ExtrusionEntity) :
    List ExtrusionEntity :=
  let coll := collection env loops thin_walls
  -- sort entities into a new collection using a nearest-neighbor search
  let sorted_coll := env.chained_path coll
  -- traverse children and build the final collection
  sorted_coll.foldl (traverse_pass env loops children_of coll) []

mutual
/-- The results of `_traverse_loops(loop.children, thin_walls)` for the loops of a list,
in the order of the list. -/
def children_entities (env : TraverseEnv) :
    List PerimeterGeneratorLoop → List (List ExtrusionEntity)
  | [] => []
  | loop :: rest => traverse_children env loop :: children_entities env rest
/-- `_traverse_loops(loop.children, thin_walls)` as it is called at line 647, where
`thin_walls` is empty: the outermost call has cleared it (line 624) if it was not. -/
def traverse_children (env : TraverseEnv) : PerimeterGeneratorLoop → List ExtrusionEntity
  | .mk _ _ _ _ children => traverse_body env children (children_entities env children) []
end

/-- `_traverse_loops(loops, thin_walls)`: the entities of the returned collection. The
recursive calls do not depend on the pass that makes them, so they are taken for every
loop of `loops` beforehand. `none` when `_variable_width` runs out of its budget. -/
def traverse_loops (env : TraverseEnv) (fuel : Nat) (loops : PerimeterGeneratorLoops)
    (thin_walls : ThickPolylines) : Option (List ExtrusionEntity) :=
  match thin_wall_entities env fuel thin_walls with
  | none => none
  | some entities => some (traverse_body env loops (children_entities env loops) entities)

/-! ### The order and winding rules, as the design states them -/

/-- The two windings a loop can be given. -/
inductive Winding where
  | clockwise
  | counter_clockwise
deriving DecidableEq, Repr

/-- The design's winding rule: a hole is clockwise; a contour is counter-clockwise,
except that an overhang contour on an odd layer is clockwise. -/
def winding_rule (is_contour is_overhang odd_layer : Bool) : Winding :=
  if is_contour then
    if is_overhang && odd_layer then Winding.clockwise else Winding.counter_clockwise
  else Winding.clockwise

/-- Giving a loop a winding. -/
def TraverseEnv.with_winding (env : TraverseEnv) : Winding → ExtrusionLoop → ExtrusionLoop
  | Winding.clockwise, l => env.make_clockwise l
  | Winding.counter_clockwise, l => env.make_counter_clockwise l

/-- The design's emission order for one node: the entities of the children before the
own loop of a contour, and after the own loop of a hole. -/
def emission_order (is_contour : Bool) (own : ExtrusionEntity)
    (children : List ExtrusionEntity) : List ExtrusionEntity :=
  if is_contour then children ++ [own] else own :: children

/-- Twice the signed area below a closed sequence of points: positive when the points run
counter-clockwise. -/
def doubled_area : List Point → Int
  | a :: b :: rest => (a.x * b.y - b.x * a.y) + doubled_area (b :: rest)
  | _ => 0

/-- A loop run backwards: the paths in reverse order, each with its points reversed. -/
def ExtrusionLoop.reversed (l : ExtrusionLoop) : ExtrusionLoop :=
  { l with paths :=
      (l.paths.map (fun p => { p with polyline := ⟨p.polyline.points.reverse⟩ })).reverse }

/-- A stand-in environment for `_traverse_loops` on concrete input, on layer 1: a polygon
is split into one closed path, nothing is sorted, and a loop is reversed when the sign of
its area is not the one asked for. -/
def sample_traverse_env : TraverseEnv :=
  { join := { sample_join_env with layer_id := 1 }
    width_env := sample_width_env
    ext_perimeter_flow := ⟨10, 2⟩
    split_at_first_point := fun poly => ⟨poly.points ++ poly.points.take 1⟩
    supported_parts := fun poly => [⟨poly.points ++ poly.points.take 1⟩]
    overhang_parts := fun _ => []
    chained_paths := fun paths => paths
    chained_path := fun coll => coll.enum
    make_clockwise := fun l =>
      if doubled_area (l.paths.flatMap (fun p => p.polyline.points)) > 0 then l.reversed else l
    make_counter_clockwise := fun l =>
      if doubled_area (l.paths.flatMap (fun p => p.polyline.points)) < 0 then l.reversed else l }

/-- An overhang contour at depth 0 with a contour and a hole in it; the contour holds
another hole. -/
def overhang_tree : PerimeterGeneratorLoop :=
  .mk (square 0 100) 0 true true
    [.mk (square 10 90) 1 true false [.mk (square 40 50) 0 false false []],
     .mk (square 60 70) 0 false false []]

/-! ### The step budget of the segment loop -/

/-- An upper bound on the passes the segment loop spends on a line, counted through
`rounds` rounds of subdivision: one for a line that is passed over, two for a line that
is added to a path (the second one when the line had to start a new path), and for a line
that is subdivided one more than what its parts take. -/
def line_cost (env : WidthEnv) : Nat → ThickLine → Nat
  | 0, line => if env.line_length line < env.scaled_epsilon then 1 else 2
  | rounds + 1, line =>
    if env.line_length line < env.scaled_epsilon then 1
    else if thickness_delta line > env.tolerance then
      1 + ((subdivision_lines env line (width_segments env (thickness_delta line))).map
        (line_cost env rounds)).sum
    else 2

/-- The bound for a list of lines. -/
def lines_cost (env : WidthEnv) (rounds : Nat) (lines : List ThickLine) : Nat :=
  (lines.map (line_cost env rounds)).sum

/-- The bound for the rest of the segment loop in a given state. -/
def WidthState.budget (env : WidthEnv) (rounds : Nat) (s : WidthState) : Nat :=
  lines_cost env rounds (s.lines.drop s.i) + (if s.path.polyline.points.isEmpty then 0 else 1)

/-- A line that the segment loop is done with after at most `rounds` rounds of
subdivision: it is passed over, or its widths differ by no more than the tolerance, or
it is subdivided into parts that are done with after one round fewer. -/
def tame (env : WidthEnv) : Nat → ThickLine → Bool
  | 0, line =>
    decide (env.line_length line < env.scaled_epsilon) ||
      decide (thickness_delta line ≤ env.tolerance)
  | rounds + 1, line =>
    decide (env.line_length line < env.scaled_epsilon) ||
      decide (thickness_delta line ≤ env.tolerance) ||
      (subdivision_lines env line (width_segments env (thickness_delta line))).all
        (tame env rounds)

/-! ## The layers slider of the preview (`GUI_Preview.cpp`) -/

/-- `std::lower_bound(zs.begin(), zs.end(), val)` as the standard library runs it: a
binary search over `[first, first + len)` that halves `len` in every pass. The position
is returned as an index; `zs.size()` stands for `zs.end()`. The first argument bounds
the number of passes. -/
def lower_bound_loop (zs : List ℚ) (val : ℚ) : Nat → Nat → Nat → Nat
  | 0, first, _ => first
  | fuel + 1, first, len =>
    if len > 0 then
      let half := len / 2
      let middle := first + half
      if zs.getD middle 0 < val then
        lower_bound_loop zs val fuel (middle + 1) (len - half - 1)
      else lower_bound_loop zs val fuel first half
    else first

/-- `std::lower_bound` on a whole vector; `len` passes are enough, as `len` shrinks in
every pass. -/
def lower_bound (zs : List ℚ) (val : ℚ) : Nat :=
  lower_bound_loop zs val zs.length 0 zs.length

/-- The conversion `int(x)` of an index or size: the value modulo `2^32`, read as a
signed number. -/
def to_int32 (x : Int) : Int := (x + 2147483648) % 4294967296 - 2147483648

/-- `find_close_layer_idx(zs, z, eps)` (lines 686-711). The differences `z - *it_l` and
`*it_h - z` are rounded to doubles before they are compared. -/
def find_close_layer_idx (zs : List ℚ) (z eps : ℚ) : Int :=
  if zs.isEmpty then -1
  else
    let it_h := lower_bound zs z
    if it_h = zs.length then
      let it_l := it_h - 1
      if double_sub z (zs.getD it_l 0) < eps then to_int32 ((zs.length : Int) - 1) else -1
    else if it_h = 0 then
      if double_sub (zs.getD it_h 0) z < eps then 0 else -1
    else
      let it_l := it_h - 1
      let dist_l := double_sub z (zs.getD it_l 0)
      let dist_h := double_sub (zs.getD it_h 0) z
      if min dist_l dist_h < eps then
        if dist_l < dist_h then to_int32 (it_l : Int) else to_int32 (it_h : Int)
      else -1

/-- `Preview::check_layers_slider_values(ticks_from_model, layers_z)` (lines 713-728):
the ticks that are left, and whether `m_schedule_background_process()` is called.
`CustomGCode::Item` is not part of these sources: the ticks are of any type with a
`print_z`; `epsilon` is `DoubleSlider::epsilon()`. The difference `val.print_z -
DoubleSlider::epsilon()` is rounded to a double. `old_size` is an `unsigned int`. -/
def check_layers_slider_values {Item : Type} (print_z : Item → ℚ) (epsilon : ℚ)
    (ticks_from_model : List Item) (layers_z : List ℚ) : List Item × Bool :=
  let old_size := ticks_from_model.length % 4294967296
  -- All ticks that would end up outside the slider range should be erased.
  let ticks := ticks_from_model.filter (fun val =>
    !(decide (lower_bound layers_z (double_sub (print_z val) epsilon) = layers_z.length)))
  (ticks, decide (ticks.length ≠ old_size))

/-! ## The bridge calibration dialog (`CalibrationBridgeDialog.cpp`) -/

/-- `wxNOT_FOUND`, which `wxComboBox::GetSelection()` returns when nothing is selected;
wxWidgets defines it as `-1`. -/
def wxNOT_FOUND : Int := -1

/-- The labels of the `steps` combo box (`choices_steps`, line 25), in percent. -/
def choices_steps : List ℚ := [5 / 2, 5, 10]

/-- The labels of the `nb_tests` combo box (`choices_nb`, line 29). -/
def choices_nb : List Nat := [1, 2, 3, 4, 5, 6]

/-- Line 56: `size_t step = 5 + (idx_steps == wxNOT_FOUND ? 0 : (idx_steps == 0 ? 2.5f :
idx_steps == 1 ? 5.F : 10.f))`. The sum is a `float`; its conversion to `size_t` drops
the fraction. -/
def calibration_step (idx_steps : Int) : Nat :=
  (to_coord (5 + (if idx_steps = wxNOT_FOUND then (0 : ℚ)
    else if idx_steps = 0 then 5 / 2 else if idx_steps = 1 then 5 else 10))).toNat

/-- Line 57: `size_t nb_items = 1 + (idx_nb == wxNOT_FOUND ? 0 : idx_nb)`; the `int` sum
is converted to the 64-bit `size_t`. -/
def calibration_nb_items (idx_nb : Int) : Nat :=
  ((1 + (if idx_nb = wxNOT_FOUND then 0 else idx_nb)) % 18446744073709551616).toNat

/-- Line 112: `start + (add ? 1 : -1) * i * step`, the value that test object `i` is
given. `i` and `step` are `size_t`, so the sign and `start` are converted to `size_t`
and the arithmetic is modulo `2^64`. -/
def tested_value (start : Int) (add : Bool) (i step : Nat) : Nat :=
  ((start + (if add then 1 else -1) * (i : Int) * (step : Int)) % 18446744073709551616).toNat

/-- The values of `i` with which `create_geometry` reads `objs_idx[i]`, in the order of
the reads: the scaling loop (lines 73-80, `float z_scale = nozzle_diameter / 0.4`), the
part loop (lines 86-89; the read stands inside the `if`, and a loop that reads nothing is
in range all the same, so every `i` of the loop is listed), the translate statement and
loop (lines 97-100), and the config loop (lines 109-117). -/
def objs_idx_reads (nb_items : Nat) (nozzle_diameter : ℚ) : List Nat :=
  let z_scale := nozzle_diameter / (4 / 10)
  -- do scaling
  (if z_scale < 9 / 10 ∨ 12 / 10 < z_scale then List.range 5 else [])
    -- add sub-part after scale
    ++ List.range nb_items
    -- translate
    ++ [0] ++ List.range' 1 (nb_items - 1)
    -- custom config
    ++ List.range nb_items

/-! ### The joined loop: connected paths and plain roles -/

/-- Path `b` starts at the point where path `a` ends. -/
def connects (a b : ExtrusionPath) : Prop :=
  ∃ p, a.polyline.points.getLast? = some p ∧ b.polyline.points.head? = some p

/-- What holds of the variables of the final loop of `_traverse_and_join_loops` when the
first node carries no child loop: the paths collected so far are connected, and if the
first node's own path has points, the last path collected ends at `last_point`. -/
structure AssemblyInv (s : AssemblyState) : Prop where
  front_plain : s.front.to_extrude_before.paths = []
  chain : s.paths.Chain' connects
  ends_at : s.front.me.polyline.points ≠ [] →
    ∃ last, s.paths.getLast? = some last ∧
      last.polyline.points.getLast? = some s.last_point

/-- The roles of a perimeter that is not an overhang. -/
def plain_role (role : ExtrusionRole) : Prop :=
  role = ExtrusionRole.erExternalPerimeter ∨ role = ExtrusionRole.erPerimeter

/-- Every path of the nodes, own or of a child loop, has a plain role. -/
def plain_nodes (nodes : List PerimeterPolylineNode) : Prop :=
  ∀ n ∈ nodes, plain_role n.me.role ∧ ∀ q ∈ n.to_extrude_before.paths, plain_role q.role

/-! ### Inputs on which the rounding shows -/

/-- The environment of `_variable_width` with the constants as the machine computes
them: `SCALING_FACTOR` is the double nearest to 0.000001, `tolerance = scale_(0.05)` is
the rounded quotient of the doubles nearest to 0.05 and 0.000001, which is
`50000.00000000001`, and `SCALED_EPSILON` the rounded quotient of the doubles nearest to
0.0001 and 0.000001. Lengths are taken along the axes, which is exact for axis-parallel
lines, and `point_at` goes the rounded share of the way along each axis. -/
def double_width_env : WidthEnv :=
  { tolerance := double_div (round_double (5 / 100)) (round_double (1 / 1000000)),
    scaled_epsilon := double_div (round_double (1 / 10000)) (round_double (1 / 1000000)),
    scaling_factor := round_double (1 / 1000000),
    round_excess := 2146 / 10000,
    thicklines := sample_width_env.thicklines,
    line_length := fun line => ((|line.b.x - line.a.x| + |line.b.y - line.a.y| : Int) : ℚ),
    point_at := fun line distance =>
      let len : ℚ := ((|line.b.x - line.a.x| + |line.b.y - line.a.y| : Int) : ℚ)
      ⟨to_coord (double_add (line.a.x : ℚ)
          (double_div (double_mul ((line.b.x - line.a.x : Int) : ℚ) distance) len)),
        to_coord (double_add (line.a.y : ℚ)
          (double_div (double_mul ((line.b.y - line.a.y : Int) : ℚ) distance) len))⟩,
    flow_mm3_per_mm := fun flow => flow.height * (flow.width - flow.height * (2146 / 10000)) }

/-- A line of 1 mm whose width grows from 0 to 0.3 mm. -/
def steep_line : ThickLine :=
  { a := ⟨0, 0⟩, b := ⟨1000000, 0⟩, a_width := 0, b_width := 300000 }

/-- The line of 1 mm, the parts that its subdivision gives, and the parts that the
subdivision of those parts gives which are subdivided in their turn. -/
def steep_line_family : List ThickLine :=
  let parts := fun (line : ThickLine) =>
    if ¬ double_width_env.line_length line < double_width_env.scaled_epsilon ∧
        double_width_env.tolerance < thickness_delta line then
      subdivision_lines double_width_env line
        (width_segments double_width_env (thickness_delta line))
    else []
  steep_line :: (parts steep_line ++ (parts steep_line).flatMap parts)

/-- The stand-in environment of the gap-fill block with a perimeter width of 300007 and
a spacing of 350000 scaled units, `INSET_OVERLAP_TOLERANCE` being the double nearest to
0.4, and the area of a piece the area of the rectangle its contour spans. -/
def fine_gap_env : GapFillEnv :=
  { sample_gap_env with
    shell := { plain_env with
      widths := { sample_widths with perimeter_width := 300007, perimeter_spacing := 350000 } }
    inset_overlap_tolerance := round_double (4 / 10) }

/-- The distance of a member `v` of the vector from `z` as `find_close_layer_idx`
computes it: the difference of the larger and the smaller of the two, rounded to a
double. -/
def computed_distance (z v : ℚ) : ℚ := round_double |v - z|

/-- The stand-in environment of `_traverse_and_join_loops` with a perimeter width of 100
scaled units, for which `dist_cut * 4.1` is rounded to a double just below 410. -/
def wide_join_env : JoinEnv :=
  { sample_join_env with perimeter_scaled_width := 100 }

/-- The piece list of the contour `square 0 1000` entered at `(0, 0)`, before any child
is looked at. -/
def wide_pieces : List PerimeterPolylineNode :=
  own_nodes wide_join_env true (wide_join_env.split_at_vertex (square 0 1000) ⟨0, 0⟩)

/-! # Theorems -/

open PerimeterGeneratorLoop

/-! ## Trees: nodes and edges -/

theorem nodesList_eq_flatMap (l : List PerimeterGeneratorLoop) :
    nodesList l = l.flatMap nodes := by
  induction l with
  | nil => simp [nodesList]
  | cons x xs ih => simp [nodesList, ih]

theorem edgesList_eq_flatMap (l : List PerimeterGeneratorLoop) :
    edgesList l = l.flatMap edges := by
  induction l with
  | nil => simp [edgesList]
  | cons x xs ih => simp [edgesList, ih]

theorem own_push_child (c p : PerimeterGeneratorLoop) : (push_child c p).own = p.own := by
  cases p; rfl

theorem polygon_eq_own (l : PerimeterGeneratorLoop) : l.polygon = l.own.polygon := by
  cases l; rfl

theorem nodes_push_child (c p : PerimeterGeneratorLoop) :
    nodes (push_child c p) = nodes p ++ nodes c := by
  cases p with
  | mk pg d ct o ch =>
    simp [push_child, nodes, nodesList_eq_flatMap]

theorem edges_push_child (c p : PerimeterGeneratorLoop) :
    (edges (push_child c p)).Perm (edges p ++ (p.own, c.own) :: edges c) := by
  cases p with
  | mk pg d ct o ch =>
    simp only [push_child, edges, edgesList_eq_flatMap, own, List.map_append, List.map_cons,
      List.map_nil, List.flatMap_append, List.flatMap_cons, List.flatMap_nil, List.append_nil,
      List.append_assoc]
    refine List.Perm.append_left _ ?_
    have hc : ([((⟨pg, d, ct, o⟩ : LoopNode), c.own)] ++ List.flatMap ch edges).Perm
        (List.flatMap ch edges ++ [((⟨pg, d, ct, o⟩ : LoopNode), c.own)]) :=
      List.perm_append_comm
    simpa using hc.append_right (edges c)

/-! ## Lists of rows: what `modify` and `eraseIdx` do to a sum over the elements -/

theorem flatMap_modify_perm {α β : Type} (f : α → List β) (g : α → α) (l : List α) (n : Nat)
    (hn : n < l.length) (e1 e2 : List β) (hg : (f (g l[n]) ++ e1).Perm (f l[n] ++ e2)) :
    ((l.modify g n).flatMap f ++ e1).Perm (l.flatMap f ++ e2) := by
  have hl : l = l.take n ++ l[n] :: l.drop (n + 1) := by
    rw [List.getElem_cons_drop, List.take_append_drop]
  rw [List.modify_eq_take_cons_drop hn]
  conv_rhs => rw [hl]
  simp only [List.flatMap_append, List.flatMap_cons, List.append_assoc]
  refine List.Perm.append_left _ ?_
  have h1 : (f (g l[n]) ++ (List.flatMap (List.drop (n + 1) l) f ++ e1)).Perm
      ((f (g l[n]) ++ e1) ++ List.flatMap (List.drop (n + 1) l) f) := by
    rw [List.append_assoc]
    exact List.Perm.append_left _ List.perm_append_comm
  have h2 : ((f l[n] ++ e2) ++ List.flatMap (List.drop (n + 1) l) f).Perm
      (f l[n] ++ (List.flatMap (List.drop (n + 1) l) f ++ e2)) := by
    rw [List.append_assoc]
    exact List.Perm.append_left _ List.perm_append_comm
  exact h1.trans ((hg.append_right _).trans h2)

theorem flatMap_eraseIdx_perm {α β : Type} (f : α → List β) (l : List α) (i : Nat)
    (hi : i < l.length) : ((l.eraseIdx i).flatMap f ++ f l[i]).Perm (l.flatMap f) := by
  have hl : l = l.take i ++ l[i] :: l.drop (i + 1) := by
    rw [List.getElem_cons_drop, List.take_append_drop]
  rw [List.eraseIdx_eq_take_drop_succ]
  conv_rhs => rw [hl]
  simp only [List.flatMap_append, List.flatMap_cons, List.append_assoc]
  exact List.Perm.append_left _ List.perm_append_comm

theorem lt_length_of_getD_pos {α : Type} (rows : List (List α)) (t j : Nat)
    (h : j < (rows.getD t []).length) : t < rows.length := by
  by_contra hc
  rw [List.getD_eq_default _ _ (Nat.le_of_not_lt hc)] at h
  simp at h

theorem getD_modify_rows {α : Type} (f : List α → List α) (hf : f [] = [])
    (rows : List (List α)) (t s : Nat) :
    (rows.modify f t).getD s [] = if t = s then f (rows.getD s []) else rows.getD s [] := by
  simp only [List.getD_eq_getElem?_getD, List.getElem?_modify]
  by_cases hts : t = s
  · subst hts
    cases h : rows[t]? <;> simp [hf]
  · cases h : rows[s]? <;> simp [hts]

/-! ## Rows of loops: own data under `attach_child` and `erase_loop` -/

theorem flatMap_congr_mem {α β : Type} (l : List α) (f g : α → List β)
    (h : ∀ x ∈ l, f x = g x) : l.flatMap f = l.flatMap g := by
  induction l with
  | nil => rfl
  | cons x xs ih =>
    simp only [List.flatMap_cons]
    rw [h x (List.mem_cons_self _ _), ih (fun y hy => h y (List.mem_cons_of_mem _ hy))]

theorem map_own_modify_push (c : PerimeterGeneratorLoop) (row : PerimeterGeneratorLoops)
    (j : Nat) : (row.modify (push_child c) j).map own = row.map own := by
  induction row generalizing j with
  | nil => simp
  | cons x xs ih =>
    cases j with
    | zero => simp [own_push_child]
    | succ j => simp [ih]

theorem getD_attach_ne (rows : List PerimeterGeneratorLoops) (t j s : Nat)
    (loop : PerimeterGeneratorLoop) (h : t ≠ s) :
    (attach_child rows t j loop).getD s [] = rows.getD s [] := by
  unfold attach_child
  rw [getD_modify_rows _ (by simp)]
  simp [h]

theorem own_row_attach (rows : List PerimeterGeneratorLoops) (t j s : Nat)
    (loop : PerimeterGeneratorLoop) :
    own_row (attach_child rows t j loop) s = own_row rows s := by
  unfold own_row attach_child
  rw [getD_modify_rows _ (by simp)]
  split
  · exact map_own_modify_push _ _ _
  · rfl

theorem getD_erase_ne (rows : List PerimeterGeneratorLoops) (d i s : Nat) (h : d ≠ s) :
    (erase_loop rows d i).getD s [] = rows.getD s [] := by
  unfold erase_loop
  rw [getD_modify_rows _ (by simp)]
  simp [h]

theorem getD_erase_eq (rows : List PerimeterGeneratorLoops) (d i : Nat) :
    (erase_loop rows d i).getD d [] = (rows.getD d []).eraseIdx i := by
  unfold erase_loop
  rw [getD_modify_rows _ (by simp)]
  simp

theorem own_row_erase_ne (rows : List PerimeterGeneratorLoops) (d i s : Nat) (h : d ≠ s) :
    own_row (erase_loop rows d i) s = own_row rows s := by
  unfold own_row
  rw [getD_erase_ne _ _ _ _ h]

theorem own_row_erase_eq (rows : List PerimeterGeneratorLoops) (d i : Nat) :
    own_row (erase_loop rows d i) d = (own_row rows d).eraseIdx i := by
  unfold own_row
  rw [getD_erase_eq]
  simp [List.eraseIdx_eq_take_drop_succ, List.map_take, List.map_drop]

/-! ## Rows of loops: sums over all loops under `attach_child` and `erase_loop` -/

theorem rows_attach_perm {β : Type} (w : PerimeterGeneratorLoop → List β)
    (rows : List PerimeterGeneratorLoops) (t j : Nat) (loop : PerimeterGeneratorLoop)
    (hj : j < (rows.getD t []).length) (e : List β)
    (hw : (w (push_child loop ((rows.getD t [])[j]))).Perm (w ((rows.getD t [])[j]) ++ e)) :
    ((attach_child rows t j loop).flatMap (fun r => r.flatMap w)).Perm
      (rows.flatMap (fun r => r.flatMap w) ++ e) := by
  have ht : t < rows.length := lt_length_of_getD_pos rows t j hj
  have hrow : rows.getD t [] = rows[t] := List.getD_eq_getElem _ _ ht
  simp only [hrow] at hj hw
  have h1 := flatMap_modify_perm (fun r : PerimeterGeneratorLoops => r.flatMap w)
    (fun row => row.modify (push_child loop) j) rows t ht [] e
    (by
      simp only [List.append_nil]
      have h2 := flatMap_modify_perm w (push_child loop) rows[t] j hj [] e
        (by simpa using hw)
      simpa using h2)
  simpa [attach_child] using h1

theorem rows_erase_perm {β : Type} (w : PerimeterGeneratorLoop → List β)
    (rows : List PerimeterGeneratorLoops) (d i : Nat)
    (hi : i < (rows.getD d []).length) :
    ((erase_loop rows d i).flatMap (fun r => r.flatMap w) ++ w ((rows.getD d [])[i])).Perm
      (rows.flatMap (fun r => r.flatMap w)) := by
  have hd : d < rows.length := lt_length_of_getD_pos rows d i hi
  have hrow : rows.getD d [] = rows[d] := List.getD_eq_getElem _ _ hd
  simp only [hrow] at hi ⊢
  have h1 := flatMap_modify_perm (fun r : PerimeterGeneratorLoops => r.flatMap w)
    (fun row => row.eraseIdx i) rows d hd (w (rows[d][i])) []
    (by
      simp only [List.append_nil]
      exact flatMap_eraseIdx_perm w rows[d] i hi)
  simpa [erase_loop] using h1

/-- Moving a loop inside one vector of rows: copied under `rows[t][j]`, erased at
`rows[d][i]`, `t ≠ d`. -/
theorem rows_move_perm {β : Type} [DecidableEq β] (w : PerimeterGeneratorLoop → List β)
    (rows : List PerimeterGeneratorLoops) (t j d i : Nat) (htd : t ≠ d)
    (hj : j < (rows.getD t []).length) (hi : i < (rows.getD d []).length) (e : List β)
    (hw : (w (push_child ((rows.getD d [])[i]) ((rows.getD t [])[j]))).Perm
      (w ((rows.getD t [])[j]) ++ (e ++ w ((rows.getD d [])[i])))) :
    ((erase_loop (attach_child rows t j ((rows.getD d [])[i])) d i).flatMap
      (fun r => r.flatMap w)).Perm (rows.flatMap (fun r => r.flatMap w) ++ e) := by
  have h1 := rows_attach_perm w rows t j _ hj _ hw
  have hrow : (attach_child rows t j ((rows.getD d [])[i])).getD d [] = rows.getD d [] :=
    getD_attach_ne _ _ _ _ _ htd
  have hi' : i < ((attach_child rows t j ((rows.getD d [])[i])).getD d []).length := by
    rw [hrow]; exact hi
  have h2 := rows_erase_perm w (attach_child rows t j ((rows.getD d [])[i])) d i hi'
  simp only [hrow] at h2
  rw [List.perm_iff_count] at h1 h2 ⊢
  intro a
  have e1 := h1 a
  have e2 := h2 a
  simp only [List.count_append] at e1 e2 ⊢
  omega

/-! ## The index search of the code against "the first candidate that contains" -/

theorem scan_row_eq_own (contains : Polygon → Point → Bool) (row : PerimeterGeneratorLoops)
    (p : Point) :
    scan_row contains row p = (row.map own).findIdx? (fun c => contains c.polygon p) := by
  unfold scan_row
  rw [List.findIdx?_map]
  congr 1
  funext c
  simp [polygon_eq_own]

theorem scan_depths_congr (contains : Polygon → Point → Bool)
    (rows rows' : List PerimeterGeneratorLoops) (ts : List Nat) (p : Point)
    (h : ∀ t ∈ ts, own_row rows t = own_row rows' t) :
    scan_depths contains rows ts p = scan_depths contains rows' ts p := by
  unfold scan_depths
  induction ts with
  | nil => rfl
  | cons t ts ih =>
    simp only [List.findSome?_cons]
    have ht := h t (List.mem_cons_self _ _)
    unfold own_row at ht
    rw [scan_row_eq_own, scan_row_eq_own, ht, ih (fun s hs => h s (List.mem_cons_of_mem _ hs))]

theorem scan_row_some (contains : Polygon → Point → Bool) (row : PerimeterGeneratorLoops)
    (p : Point) (j : Nat) (h : scan_row contains row p = some j) :
    ∃ hj : j < row.length, contains (row[j]).polygon p = true ∧
      first_containing contains (row.map own) p = some (row[j]).own := by
  unfold scan_row at h
  rw [List.findIdx?_eq_some_iff_getElem] at h
  obtain ⟨hj, hp, hmin⟩ := h
  refine ⟨hj, hp, ?_⟩
  unfold first_containing
  rw [List.find?_eq_some_iff_getElem]
  refine ⟨by rw [← polygon_eq_own]; exact hp, j, by simpa using hj, by simp, ?_⟩
  intro k hk
  have := hmin k hk
  simpa [← polygon_eq_own] using this

theorem scan_row_none (contains : Polygon → Point → Bool) (row : PerimeterGeneratorLoops)
    (p : Point) (h : scan_row contains row p = none) :
    first_containing contains (row.map own) p = none := by
  unfold scan_row at h
  rw [List.findIdx?_eq_none_iff] at h
  unfold first_containing
  rw [List.find?_eq_none]
  intro x hx
  obtain ⟨c, hc, rfl⟩ := List.mem_map.1 hx
  have := h c hc
  simpa [← polygon_eq_own] using this

theorem scan_depths_some (contains : Polygon → Point → Bool)
    (rows : List PerimeterGeneratorLoops) (ts : List Nat) (p : Point) (t j : Nat)
    (h : scan_depths contains rows ts p = some (t, j)) :
    t ∈ ts ∧ ∃ hj : j < (rows.getD t []).length,
      contains ((rows.getD t [])[j]).polygon p = true ∧
      first_containing contains (ts.flatMap (own_row rows)) p = some ((rows.getD t [])[j]).own := by
  unfold scan_depths at h
  induction ts with
  | nil => simp at h
  | cons s ts ih =>
    rw [List.findSome?_cons] at h
    cases hs : scan_row contains (rows.getD s []) p with
    | some j' =>
      rw [hs] at h
      simp only [Option.map_some', Option.some.injEq, Prod.mk.injEq] at h
      obtain ⟨rfl, rfl⟩ := h
      obtain ⟨hj, hp, hf⟩ := scan_row_some contains _ p _ hs
      refine ⟨List.mem_cons_self _ _, hj, hp, ?_⟩
      unfold first_containing at hf ⊢
      rw [List.flatMap_cons, List.find?_append]
      unfold own_row
      rw [hf]
      rfl
    | none =>
      rw [hs] at h
      simp only [Option.map_none'] at h
      obtain ⟨hm, hj, hp, hf⟩ := ih h
      refine ⟨List.mem_cons_of_mem _ hm, hj, hp, ?_⟩
      have hn := scan_row_none contains _ p hs
      unfold first_containing at hf hn ⊢
      rw [List.flatMap_cons, List.find?_append]
      unfold own_row at hf ⊢
      rw [hn, hf]
      rfl

theorem scan_depths_none (contains : Polygon → Point → Bool)
    (rows : List PerimeterGeneratorLoops) (ts : List Nat) (p : Point)
    (h : scan_depths contains rows ts p = none) :
    first_containing contains (ts.flatMap (own_row rows)) p = none := by
  unfold scan_depths at h
  induction ts with
  | nil => rfl
  | cons s ts ih =>
    rw [List.findSome?_cons] at h
    cases hs : scan_row contains (rows.getD s []) p with
    | some j' => rw [hs] at h; simp at h
    | none =>
      rw [hs] at h
      simp only [Option.map_none'] at h
      have hn := scan_row_none contains _ p hs
      have hf := ih h
      unfold first_containing at hf hn ⊢
      rw [List.flatMap_cons, List.find?_append]
      unfold own_row at hf ⊢
      rw [hn, hf]
      rfl

theorem filter_range_gt (n d : Nat) :
    (List.range n).filter (fun t => d < t) = List.range' (d + 1) (n - 1 - d) := by
  induction n with
  | zero => simp
  | succ n ih =>
    rw [List.range_succ, List.filter_append, ih]
    by_cases h : d < n
    · have e : n + 1 - 1 - d = (n - 1 - d) + 1 := by omega
      rw [e, List.range'_1_concat]
      have e2 : d + 1 + (n - 1 - d) = n := by omega
      simp [h, e2]
    · have e : n + 1 - 1 - d = 0 := by omega
      have e2 : n - 1 - d = 0 := by omega
      have e3 : n - d = 0 := by omega
      simp [h, e, e2, e3]

theorem depths_above_eq_filter (loop_number : Int) (d : Nat) :
    depths_above loop_number d =
      (List.range (loop_number + 1).toNat).filter (fun t => d < t) := by
  unfold depths_above
  rw [filter_range_gt]
  congr 1
  omega

theorem mem_depths_above (loop_number : Int) (d t : Nat) (h : t ∈ depths_above loop_number d) :
    d < t := by
  rw [depths_above_eq_filter] at h
  simpa using (List.mem_filter.1 h).2

/-- What the hole search of the code returns, in terms of the hole rule. -/
theorem hole_search_rule (contains : Polygon → Point → Bool) (loop_number : Int)
    (holes contours : List PerimeterGeneratorLoops) (d : Nat) (p : Point) :
    (∀ t j, scan_depths contains holes (depths_above loop_number d) p = some (t, j) →
      d < t ∧ ∃ hj : j < (holes.getD t []).length,
        hole_parent_rule contains loop_number holes contours d p =
          some ((holes.getD t [])[j]).own) ∧
    (scan_depths contains holes (depths_above loop_number d) p = none →
      (∀ t j, scan_depths contains contours (depths_down_from loop_number) p = some (t, j) →
        ∃ hj : j < (contours.getD t []).length,
          hole_parent_rule contains loop_number holes contours d p =
            some ((contours.getD t [])[j]).own) ∧
      (scan_depths contains contours (depths_down_from loop_number) p = none →
        hole_parent_rule contains loop_number holes contours d p = none)) := by
  refine ⟨?_, ?_⟩
  · intro t j h
    obtain ⟨hm, hj, _, hf⟩ := scan_depths_some contains holes _ p t j h
    refine ⟨mem_depths_above _ _ _ hm, hj, ?_⟩
    unfold hole_parent_rule
    rw [← depths_above_eq_filter, hf]
  · intro h
    have hn := scan_depths_none contains holes _ p h
    refine ⟨?_, ?_⟩
    · intro t j h2
      obtain ⟨_, hj, _, hf⟩ := scan_depths_some contains contours _ p t j h2
      refine ⟨hj, ?_⟩
      unfold hole_parent_rule
      rw [← depths_above_eq_filter, hn]
      exact hf
    · intro h2
      have hf := scan_depths_none contains contours _ p h2
      unfold hole_parent_rule
      rw [← depths_above_eq_filter, hn]
      exact hf

theorem hole_parent_rule_congr (contains : Polygon → Point → Bool) (loop_number : Int)
    (holes contours holes' contours' : List PerimeterGeneratorLoops) (d : Nat)
    (hh : ∀ s, d < s → own_row holes s = own_row holes' s)
    (hc : ∀ s, own_row contours s = own_row contours' s) :
    hole_parent_rule contains loop_number holes contours d =
      hole_parent_rule contains loop_number holes' contours' d := by
  funext p
  unfold hole_parent_rule
  rw [flatMap_congr_mem _ (own_row holes) (own_row holes')
      (fun s hs => hh s (by simpa using (List.mem_filter.1 hs).2)),
    flatMap_congr_mem _ (own_row contours) (own_row contours') (fun s _ => hc s)]

theorem contour_parent_rule_congr (contains : Polygon → Point → Bool)
    (contours contours' : List PerimeterGeneratorLoops) (d : Nat)
    (hc : ∀ s, s < d → own_row contours s = own_row contours' s) :
    contour_parent_rule contains contours d = contour_parent_rule contains contours' d := by
  funext p
  unfold contour_parent_rule
  rw [flatMap_congr_mem _ (own_row contours) (own_row contours')
      (fun s hs => hc s (by simpa using hs))]

/-! ## One step of a row loop -/

theorem all_nodes_eq (st : LoopLists) :
    st.all_nodes = st.contours.flatMap (fun r => r.flatMap nodes) ++
      st.holes.flatMap (fun r => r.flatMap nodes) := by
  unfold LoopLists.all_nodes
  rw [show nodesList = fun r => r.flatMap nodes from funext nodesList_eq_flatMap]

theorem all_edges_eq (st : LoopLists) :
    st.all_edges = st.contours.flatMap (fun r => r.flatMap edges) ++
      st.holes.flatMap (fun r => r.flatMap edges) := by
  unfold LoopLists.all_edges
  rw [show edgesList = fun r => r.flatMap edges from funext edgesList_eq_flatMap]

theorem take_eraseIdx_self {α : Type} (X : List α) (i : Nat) (hi : i < X.length) :
    (X.eraseIdx i).take i = X.take i := by
  rw [List.eraseIdx_eq_take_drop_succ]
  have hl : (List.take i X).length = i := by simp; omega
  rw [List.take_append_eq_append_take]
  simp [hl]

theorem drop_eraseIdx_self {α : Type} (X : List α) (i : Nat) (hi : i < X.length) :
    (X.eraseIdx i).drop i = X.drop (i + 1) := by
  rw [List.eraseIdx_eq_take_drop_succ]
  have hl : (List.take i X).length = i := by simp; omega
  rw [List.drop_append_eq_append_drop]
  simp [hl]

theorem own_row_length (rows : List PerimeterGeneratorLoops) (d : Nat) :
    (own_row rows d).length = (rows.getD d []).length := by
  simp [own_row]

theorem own_row_getElem (rows : List PerimeterGeneratorLoops) (d i : Nat)
    (hi : i < (rows.getD d []).length) (hi' : i < (own_row rows d).length) :
    (own_row rows d)[i] = ((rows.getD d [])[i]).own := by
  simp [own_row]

/-- A loop of `rows[d]` moves under a parent of the same vector, `t ≠ d`. -/
theorem move_same_vector (rows : List PerimeterGeneratorLoops) (t j d i : Nat) (htd : t ≠ d)
    (hj : j < (rows.getD t []).length) (hi : i < (rows.getD d []).length) :
    (∀ s, s ≠ d → own_row (erase_loop (attach_child rows t j ((rows.getD d [])[i])) d i) s =
      own_row rows s) ∧
    own_row (erase_loop (attach_child rows t j ((rows.getD d [])[i])) d i) d =
      (own_row rows d).eraseIdx i ∧
    ((erase_loop (attach_child rows t j ((rows.getD d [])[i])) d i).flatMap
      (fun r => r.flatMap nodes)).Perm (rows.flatMap (fun r => r.flatMap nodes)) ∧
    ((erase_loop (attach_child rows t j ((rows.getD d [])[i])) d i).flatMap
      (fun r => r.flatMap edges)).Perm
      (rows.flatMap (fun r => r.flatMap edges) ++
        [(((rows.getD t [])[j]).own, ((rows.getD d [])[i]).own)]) := by
  refine ⟨?_, ?_, ?_, ?_⟩
  · intro s hs
    rw [own_row_erase_ne _ _ _ _ (Ne.symm hs), own_row_attach]
  · rw [own_row_erase_eq, own_row_attach]
  · have h := rows_move_perm nodes rows t j d i htd hj hi []
      (by rw [nodes_push_child]; simp)
    simpa using h
  · exact rows_move_perm edges rows t j d i htd hj hi _
      (by simpa using edges_push_child ((rows.getD d [])[i]) ((rows.getD t [])[j]))

/-- A loop of `src[d]` moves under a parent of another vector `dst`. -/
theorem move_other_vector {β : Type} [DecidableEq β] (w : PerimeterGeneratorLoop → List β)
    (src dst : List PerimeterGeneratorLoops) (t j d i : Nat)
    (hj : j < (dst.getD t []).length) (hi : i < (src.getD d []).length) (e : List β)
    (hw : (w (push_child ((src.getD d [])[i]) ((dst.getD t [])[j]))).Perm
      (w ((dst.getD t [])[j]) ++ (e ++ w ((src.getD d [])[i])))) :
    ((attach_child dst t j ((src.getD d [])[i])).flatMap (fun r => r.flatMap w) ++
      (erase_loop src d i).flatMap (fun r => r.flatMap w)).Perm
      ((dst.flatMap (fun r => r.flatMap w) ++ src.flatMap (fun r => r.flatMap w)) ++ e) := by
  have h1 := rows_attach_perm w dst t j _ hj _ hw
  have h2 := rows_erase_perm w src d i hi
  rw [List.perm_iff_count] at h1 h2 ⊢
  intro a
  have e1 := h1 a
  have e2 := h2 a
  simp only [List.count_append] at e1 e2 ⊢
  omega

/-! ## A whole row of holes -/

theorem rule_orphans_cons_some (rule : Point → Option LoopNode) (x : LoopNode)
    (xs : List LoopNode) (P : LoopNode) (h : rule x.polygon.first_point = some P) :
    rule_orphans rule (x :: xs) = rule_orphans rule xs ∧
    (x :: xs).flatMap (rule_edge rule) = (P, x) :: xs.flatMap (rule_edge rule) := by
  simp [rule_orphans, rule_edge, h]

theorem rule_orphans_cons_none (rule : Point → Option LoopNode) (x : LoopNode)
    (xs : List LoopNode) (h : rule x.polygon.first_point = none) :
    rule_orphans rule (x :: xs) = x :: rule_orphans rule xs ∧
    (x :: xs).flatMap (rule_edge rule) = xs.flatMap (rule_edge rule) := by
  simp [rule_orphans, rule_edge, h]

theorem RowDone.of_finished (rule : Point → Option LoopNode) (i : Nat) (row : List LoopNode)
    (st : LoopLists) (h : row.length ≤ i) : RowDone rule i row row st st := by
  refine ⟨?_, List.Perm.refl _, ?_⟩
  · rw [List.drop_of_length_le h, List.take_of_length_le h]; simp [rule_orphans]
  · rw [List.drop_of_length_le h]; simp

theorem RowDone.of_keep (rule : Point → Option LoopNode) (i : Nat) (row row' : List LoopNode)
    (st st' : LoopLists) (hi : i < row.length)
    (hr : rule (row[i]).polygon.first_point = none)
    (h : RowDone rule (i + 1) row row' st st') : RowDone rule i row row' st st' := by
  obtain ⟨h1, h2, h3⟩ := h
  have hd : row.drop i = row[i] :: row.drop (i + 1) := List.drop_eq_getElem_cons hi
  obtain ⟨o1, o2⟩ := rule_orphans_cons_none rule row[i] (row.drop (i + 1)) hr
  refine ⟨?_, h2, ?_⟩
  · rw [h1, hd, o1, List.take_succ, List.getElem?_eq_getElem hi]
    simp only [Option.toList, List.append_assoc, List.singleton_append]
  · rw [hd, o2]; exact h3

theorem RowDone.of_move (rule : Point → Option LoopNode) (i : Nat) (row row' : List LoopNode)
    (st st1 st' : LoopLists) (hi : i < row.length) (P : LoopNode)
    (hr : rule (row[i]).polygon.first_point = some P)
    (hn : st1.all_nodes.Perm st.all_nodes)
    (he : st1.all_edges.Perm (st.all_edges ++ [(P, row[i])]))
    (h : RowDone rule i (row.eraseIdx i) row' st1 st') : RowDone rule i row row' st st' := by
  obtain ⟨h1, h2, h3⟩ := h
  have hd : row.drop i = row[i] :: row.drop (i + 1) := List.drop_eq_getElem_cons hi
  obtain ⟨o1, o2⟩ := rule_orphans_cons_some rule row[i] (row.drop (i + 1)) P hr
  rw [take_eraseIdx_self _ _ hi, drop_eraseIdx_self _ _ hi] at h1
  rw [drop_eraseIdx_self _ _ hi] at h3
  refine ⟨?_, h2.trans hn, ?_⟩
  · rw [h1, hd, o1]
  · rw [hd, o2]
    refine h3.trans ?_
    refine ((he.append_right _).trans ?_)
    simp

theorem nest_holes_row_done (contains : Polygon → Point → Bool) (loop_number : Int) (d : Nat) :
    ∀ (fuel i : Nat) (st : LoopLists), (st.holes.getD d []).length - i ≤ fuel →
      (∀ s, s ≠ d → own_row (nest_holes_row contains loop_number d fuel i st).holes s =
        own_row st.holes s) ∧
      (∀ s, own_row (nest_holes_row contains loop_number d fuel i st).contours s =
        own_row st.contours s) ∧
      RowDone (hole_parent_rule contains loop_number st.holes st.contours d) i
        (own_row st.holes d) (own_row (nest_holes_row contains loop_number d fuel i st).holes d)
        st (nest_holes_row contains loop_number d fuel i st) := by
  intro fuel
  induction fuel with
  | zero =>
    intro i st hf
    exact ⟨fun _ _ => rfl, fun _ => rfl,
      RowDone.of_finished _ _ _ _ (by rw [own_row_length]; omega)⟩
  | succ fuel ih =>
    intro i st hf
    rw [nest_holes_row]
    by_cases hi : i < (st.holes.getD d []).length
    · rw [dif_pos hi]
      have hi' : i < (own_row st.holes d).length := by rw [own_row_length]; exact hi
      have hrow := own_row_getElem st.holes d i hi hi'
      obtain ⟨hA, hB⟩ := hole_search_rule contains loop_number st.holes st.contours d
        ((st.holes.getD d [])[i]).polygon.first_point
      rw [polygon_eq_own, ← hrow] at hA hB
      cases hs : scan_depths contains st.holes (depths_above loop_number d)
          ((st.holes.getD d [])[i]).polygon.first_point with
      | some tj =>
        obtain ⟨t, j⟩ := tj
        simp only [hs]
        rw [polygon_eq_own, ← hrow] at hs
        obtain ⟨hdt, hj, hrule⟩ := hA t j hs
        obtain ⟨m1, m2, m3, m4⟩ := move_same_vector st.holes t j d i (Nat.ne_of_gt hdt) hj hi
        have hlen : ((erase_loop (attach_child st.holes t j ((st.holes.getD d [])[i])) d i).getD
            d []).length - i ≤ fuel := by
          rw [getD_erase_eq, getD_attach_ne _ _ _ _ _ (Nat.ne_of_gt hdt),
            List.length_eraseIdx_of_lt hi]
          omega
        obtain ⟨i1, i2, i3⟩ := ih i
          { st with holes := erase_loop (attach_child st.holes t j ((st.holes.getD d [])[i])) d i }
          hlen
        have hcongr := hole_parent_rule_congr contains loop_number
          (erase_loop (attach_child st.holes t j ((st.holes.getD d [])[i])) d i) st.contours
          st.holes st.contours d (fun s hs => m1 s (Nat.ne_of_gt hs)) (fun _ => rfl)
        simp only [hcongr, m2] at i3
        refine ⟨fun s hs => (i1 s hs).trans (m1 s hs), i2, ?_⟩
        refine RowDone.of_move _ _ _ _ st _ _ hi' _ hrule ?_ ?_ i3
        · rw [all_nodes_eq, all_nodes_eq]
          exact List.Perm.append_left _ m3
        · rw [all_edges_eq, all_edges_eq, List.append_assoc, hrow]
          exact List.Perm.append_left _ m4
      | none =>
        simp only [hs]
        rw [polygon_eq_own, ← hrow] at hs
        obtain ⟨hC, hD⟩ := hB hs
        cases hs2 : scan_depths contains st.contours (depths_down_from loop_number)
            ((st.holes.getD d [])[i]).polygon.first_point with
        | some tj =>
          obtain ⟨t, j⟩ := tj
          simp only [hs2]
          rw [polygon_eq_own, ← hrow] at hs2
          obtain ⟨hj, hrule⟩ := hC t j hs2
          have hlen : ((erase_loop st.holes d i).getD d []).length - i ≤ fuel := by
            rw [getD_erase_eq, List.length_eraseIdx_of_lt hi]
            omega
          obtain ⟨i1, i2, i3⟩ := ih i
            { contours := attach_child st.contours t j ((st.holes.getD d [])[i]),
              holes := erase_loop st.holes d i } hlen
          have hcongr := hole_parent_rule_congr contains loop_number
            (erase_loop st.holes d i) (attach_child st.contours t j ((st.holes.getD d [])[i]))
            st.holes st.contours d
            (fun s hs => own_row_erase_ne _ _ _ _ (Nat.ne_of_lt hs))
            (fun s => own_row_attach _ _ _ _ _)
          simp only [hcongr, own_row_erase_eq] at i3
          refine ⟨fun s hs => (i1 s hs).trans (own_row_erase_ne _ _ _ _ (Ne.symm hs)),
            fun s => (i2 s).trans (own_row_attach _ _ _ _ _), ?_⟩
          refine RowDone.of_move _ _ _ _ st _ _ hi' _ hrule ?_ ?_ i3
          · rw [all_nodes_eq, all_nodes_eq]
            have h := move_other_vector nodes st.holes st.contours t j d i hj hi []
              (by rw [nodes_push_child]; simp)
            simpa using h
          · rw [all_edges_eq, all_edges_eq, hrow]
            have hp := edges_push_child ((st.holes.getD d [])[i]) ((st.contours.getD t [])[j])
            exact move_other_vector edges st.holes st.contours t j d i hj hi _
              (by simpa using hp)
        | none =>
          simp only [hs2]
          rw [polygon_eq_own, ← hrow] at hs2
          have hrule := hD hs2
          obtain ⟨i1, i2, i3⟩ := ih (i + 1) st (by omega)
          exact ⟨i1, i2, RowDone.of_keep _ _ _ _ st _ hi' hrule i3⟩
    · rw [dif_neg hi]
      exact ⟨fun _ _ => rfl, fun _ => rfl,
        RowDone.of_finished _ _ _ _ (by rw [own_row_length]; omega)⟩

/-- The state after the rows `0 .. m-1` of the hole pass. -/
theorem nest_holes_prefix (contains : Polygon → Point → Bool) (loop_number : Int)
    (st0 : LoopLists) (m : Nat) :
    (∀ s, m ≤ s → own_row ((List.range m).foldl (fun s d => nest_holes_row contains
        loop_number d (s.holes.getD d []).length 0 s) st0).holes s = own_row st0.holes s) ∧
    (∀ s, s < m → own_row ((List.range m).foldl (fun s d => nest_holes_row contains
        loop_number d (s.holes.getD d []).length 0 s) st0).holes s =
      rule_orphans (hole_parent_rule contains loop_number st0.holes st0.contours s)
        (own_row st0.holes s)) ∧
    (∀ s, own_row ((List.range m).foldl (fun s d => nest_holes_row contains
        loop_number d (s.holes.getD d []).length 0 s) st0).contours s =
      own_row st0.contours s) ∧
    ((List.range m).foldl (fun s d => nest_holes_row contains
        loop_number d (s.holes.getD d []).length 0 s) st0).all_nodes.Perm st0.all_nodes ∧
    ((List.range m).foldl (fun s d => nest_holes_row contains
        loop_number d (s.holes.getD d []).length 0 s) st0).all_edges.Perm
      (st0.all_edges ++ (List.range m).flatMap (fun d => (own_row st0.holes d).flatMap
        (rule_edge (hole_parent_rule contains loop_number st0.holes st0.contours d)))) := by
  induction m with
  | zero => simp
  | succ m ih =>
    rw [List.range_succ, List.foldl_append, List.flatMap_append]
    simp only [List.foldl_cons, List.foldl_nil, List.flatMap_cons, List.flatMap_nil,
      List.append_nil]
    generalize (List.range m).foldl (fun s d => nest_holes_row contains
        loop_number d (s.holes.getD d []).length 0 s) st0 = S at ih ⊢
    obtain ⟨a1, a2, a3, a4, a5⟩ := ih
    obtain ⟨r1, r2, r3⟩ := nest_holes_row_done contains loop_number m
      (S.holes.getD m []).length 0 S (by omega)
    have hcongr := hole_parent_rule_congr contains loop_number S.holes S.contours
      st0.holes st0.contours m (fun s hs => a1 s (Nat.le_of_lt hs)) a3
    rw [hcongr, a1 m (Nat.le_refl _)] at r3
    obtain ⟨b1, b2, b3⟩ := r3
    simp only [List.take_zero, List.drop_zero, List.nil_append] at b1 b3
    refine ⟨?_, ?_, ?_, b2.trans a4, ?_⟩
    · intro s hs
      rw [r1 s (by omega), a1 s (by omega)]
    · intro s hs
      by_cases hsm : s = m
      · subst hsm; exact b1
      · rw [r1 s hsm, a2 s (by omega)]
    · intro s
      rw [r2 s, a3 s]
    · refine b3.trans ?_
      rw [← List.append_assoc]
      exact List.Perm.append_right _ a5

theorem contour_search_rule (contains : Polygon → Point → Bool)
    (contours : List PerimeterGeneratorLoops) (d : Nat) (p : Point) :
    (∀ t j, scan_depths contains contours (depths_below d) p = some (t, j) →
      t < d ∧ ∃ hj : j < (contours.getD t []).length,
        contour_parent_rule contains contours d p = some ((contours.getD t [])[j]).own) ∧
    (scan_depths contains contours (depths_below d) p = none →
      contour_parent_rule contains contours d p = none) := by
  refine ⟨?_, ?_⟩
  · intro t j h
    obtain ⟨hm, hj, _, hf⟩ := scan_depths_some contains contours _ p t j h
    exact ⟨by simpa [depths_below] using hm, hj, hf⟩
  · intro h
    exact scan_depths_none contains contours _ p h

theorem nest_contours_row_done (contains : Polygon → Point → Bool) (d : Nat) :
    ∀ (fuel i : Nat) (st : LoopLists), (st.contours.getD d []).length - i ≤ fuel →
      (∀ s, s ≠ d → own_row (nest_contours_row contains d fuel i st).contours s =
        own_row st.contours s) ∧
      (nest_contours_row contains d fuel i st).holes = st.holes ∧
      RowDone (contour_parent_rule contains st.contours d) i
        (own_row st.contours d) (own_row (nest_contours_row contains d fuel i st).contours d)
        st (nest_contours_row contains d fuel i st) := by
  intro fuel
  induction fuel with
  | zero =>
    intro i st hf
    exact ⟨fun _ _ => rfl, rfl, RowDone.of_finished _ _ _ _ (by rw [own_row_length]; omega)⟩
  | succ fuel ih =>
    intro i st hf
    rw [nest_contours_row]
    by_cases hi : i < (st.contours.getD d []).length
    · rw [dif_pos hi]
      have hi' : i < (own_row st.contours d).length := by rw [own_row_length]; exact hi
      have hrow := own_row_getElem st.contours d i hi hi'
      obtain ⟨hA, hB⟩ := contour_search_rule contains st.contours d
        ((st.contours.getD d [])[i]).polygon.first_point
      rw [polygon_eq_own, ← hrow] at hA hB
      cases hs : scan_depths contains st.contours (depths_below d)
          ((st.contours.getD d [])[i]).polygon.first_point with
      | some tj =>
        obtain ⟨t, j⟩ := tj
        simp only [hs]
        rw [polygon_eq_own, ← hrow] at hs
        obtain ⟨hdt, hj, hrule⟩ := hA t j hs
        obtain ⟨m1, m2, m3, m4⟩ := move_same_vector st.contours t j d i (Nat.ne_of_lt hdt) hj hi
        have hlen : ((erase_loop (attach_child st.contours t j ((st.contours.getD d [])[i]))
            d i).getD d []).length - i ≤ fuel := by
          rw [getD_erase_eq, getD_attach_ne _ _ _ _ _ (Nat.ne_of_lt hdt),
            List.length_eraseIdx_of_lt hi]
          omega
        obtain ⟨i1, i2, i3⟩ := ih i
          { st with contours :=
              erase_loop (attach_child st.contours t j ((st.contours.getD d [])[i])) d i }
          hlen
        have hcongr := contour_parent_rule_congr contains
          (erase_loop (attach_child st.contours t j ((st.contours.getD d [])[i])) d i)
          st.contours d (fun s hs => m1 s (Nat.ne_of_lt hs))
        simp only [hcongr, m2] at i3
        refine ⟨fun s hs => (i1 s hs).trans (m1 s hs), i2, ?_⟩
        refine RowDone.of_move _ _ _ _ st _ _ hi' _ hrule ?_ ?_ i3
        · rw [all_nodes_eq, all_nodes_eq]
          exact List.Perm.append_right _ m3
        · rw [all_edges_eq, all_edges_eq, hrow]
          refine (List.Perm.append_right _ m4).trans ?_
          simp only [List.append_assoc]
          exact List.Perm.append_left _ List.perm_append_comm
      | none =>
        simp only [hs]
        rw [polygon_eq_own, ← hrow] at hs
        have hrule := hB hs
        obtain ⟨i1, i2, i3⟩ := ih (i + 1) st (by omega)
        exact ⟨i1, i2, RowDone.of_keep _ _ _ _ st _ hi' hrule i3⟩
    · rw [dif_neg hi]
      exact ⟨fun _ _ => rfl, rfl, RowDone.of_finished _ _ _ _ (by rw [own_row_length]; omega)⟩

/-- The state after the rows `k, k-1, ..., 1` of the contour pass. -/
theorem nest_contours_suffix (contains : Polygon → Point → Bool) (k : Nat) :
    ∀ S : LoopLists,
    (∀ s, (s = 0 ∨ k < s) → own_row ((List.range' 1 k).reverse.foldl (fun s d =>
        nest_contours_row contains d (s.contours.getD d []).length 0 s) S).contours s =
      own_row S.contours s) ∧
    (∀ s, 1 ≤ s → s ≤ k → own_row ((List.range' 1 k).reverse.foldl (fun s d =>
        nest_contours_row contains d (s.contours.getD d []).length 0 s) S).contours s =
      rule_orphans (contour_parent_rule contains S.contours s) (own_row S.contours s)) ∧
    ((List.range' 1 k).reverse.foldl (fun s d =>
        nest_contours_row contains d (s.contours.getD d []).length 0 s) S).holes = S.holes ∧
    ((List.range' 1 k).reverse.foldl (fun s d =>
        nest_contours_row contains d (s.contours.getD d []).length 0 s) S).all_nodes.Perm
      S.all_nodes ∧
    ((List.range' 1 k).reverse.foldl (fun s d =>
        nest_contours_row contains d (s.contours.getD d []).length 0 s) S).all_edges.Perm
      (S.all_edges ++ (List.range' 1 k).flatMap (fun d => (own_row S.contours d).flatMap
        (rule_edge (contour_parent_rule contains S.contours d)))) := by
  induction k with
  | zero =>
    intro S
    refine ⟨fun _ _ => rfl, fun s h1 h2 => absurd h2 (by omega), rfl, List.Perm.refl _, ?_⟩
    simp
  | succ k ih =>
    intro S
    rw [List.range'_1_concat, List.reverse_append, List.flatMap_append]
    simp only [List.reverse_cons, List.reverse_nil, List.nil_append, List.singleton_append,
      List.foldl_cons, List.flatMap_cons, List.flatMap_nil, List.append_nil]
    obtain ⟨r1, r2, r3⟩ := nest_contours_row_done contains (1 + k)
      (S.contours.getD (1 + k) []).length 0 S (by omega)
    generalize nest_contours_row contains (1 + k) (S.contours.getD (1 + k) []).length 0 S = S1
      at r1 r2 r3 ⊢
    obtain ⟨a1, a2, a3, a4, a5⟩ := ih S1
    obtain ⟨b1, b2, b3⟩ := r3
    simp only [List.take_zero, List.drop_zero, List.nil_append] at b1 b3
    have hrule : ∀ d, d ≤ k → contour_parent_rule contains S1.contours d =
        contour_parent_rule contains S.contours d := fun d hd =>
      contour_parent_rule_congr contains S1.contours S.contours d
        (fun s hs => r1 s (by omega))
    refine ⟨?_, ?_, a3.trans r2, a4.trans b2, ?_⟩
    · intro s hs
      rw [a1 s (by omega), r1 s (by omega)]
    · intro s hs1 hs2
      by_cases hsk : s = 1 + k
      · subst hsk
        rw [a1 (1 + k) (by omega)]
        exact b1
      · rw [a2 s hs1 (by omega), hrule s (by omega), r1 s hsk]
    · refine a5.trans ?_
      have hfm : (List.range' 1 k).flatMap (fun d => (own_row S1.contours d).flatMap
            (rule_edge (contour_parent_rule contains S1.contours d))) =
          (List.range' 1 k).flatMap (fun d => (own_row S.contours d).flatMap
            (rule_edge (contour_parent_rule contains S.contours d))) := by
        apply flatMap_congr_mem
        intro d hd
        have hd' : d ≤ k := by
          have := List.mem_range'_1.1 hd
          omega
        rw [hrule d hd', r1 d (by omega)]
      rw [hfm]
      refine (List.Perm.append_right _ b3).trans ?_
      simp only [List.append_assoc]
      exact List.Perm.append_left _ List.perm_append_comm

/-! ## The two passes as a whole -/

theorem nest_holes_done (contains : Polygon → Point → Bool) (loop_number : Int)
    (st0 : LoopLists) :
    (∀ s : Nat, ¬ ((s : Int) ≤ loop_number) →
      own_row (nest_holes contains loop_number st0).holes s = own_row st0.holes s) ∧
    (∀ s : Nat, (s : Int) ≤ loop_number → own_row (nest_holes contains loop_number st0).holes s =
      rule_orphans (hole_parent_rule contains loop_number st0.holes st0.contours s)
        (own_row st0.holes s)) ∧
    (∀ s, own_row (nest_holes contains loop_number st0).contours s = own_row st0.contours s) ∧
    (nest_holes contains loop_number st0).all_nodes.Perm st0.all_nodes ∧
    (nest_holes contains loop_number st0).all_edges.Perm
      (st0.all_edges ++ hole_edges_rule contains loop_number st0.holes st0.contours) := by
  obtain ⟨a1, a2, a3, a4, a5⟩ :=
    nest_holes_prefix contains loop_number st0 (loop_number + 1).toNat
  exact ⟨fun s hs => a1 s (by omega), fun s hs => a2 s (by omega), a3, a4, a5⟩

theorem nest_contours_done (contains : Polygon → Point → Bool) (loop_number : Int)
    (S : LoopLists) :
    (∀ s : Nat, (s = 0 ∨ ¬ ((s : Int) ≤ loop_number)) →
      own_row (nest_contours contains loop_number S).contours s = own_row S.contours s) ∧
    (∀ s : Nat, 1 ≤ s → (s : Int) ≤ loop_number →
      own_row (nest_contours contains loop_number S).contours s =
        rule_orphans (contour_parent_rule contains S.contours s) (own_row S.contours s)) ∧
    (nest_contours contains loop_number S).holes = S.holes ∧
    (nest_contours contains loop_number S).all_nodes.Perm S.all_nodes ∧
    (nest_contours contains loop_number S).all_edges.Perm
      (S.all_edges ++ contour_edges_rule contains loop_number S.contours) := by
  obtain ⟨a1, a2, a3, a4, a5⟩ := nest_contours_suffix contains loop_number.toNat S
  exact ⟨fun s hs => a1 s (by omega), fun s h1 h2 => a2 s h1 (by omega), a3, a4, a5⟩

theorem contour_edges_rule_congr (contains : Polygon → Point → Bool) (loop_number : Int)
    (contours contours' : List PerimeterGeneratorLoops)
    (h : ∀ s, own_row contours s = own_row contours' s) :
    contour_edges_rule contains loop_number contours =
      contour_edges_rule contains loop_number contours' := by
  unfold contour_edges_rule
  apply flatMap_congr_mem
  intro d _
  rw [h d, contour_parent_rule_congr contains contours contours' d (fun s _ => h s)]

theorem rule_edge_contains (contains : Polygon → Point → Bool) (cands : List LoopNode)
    (child : LoopNode) (e : LoopNode × LoopNode)
    (he : e ∈ rule_edge (first_containing contains cands) child) :
    contains e.1.polygon e.2.polygon.first_point = true := by
  unfold rule_edge at he
  cases h : first_containing contains cands child.polygon.first_point with
  | none => simp [h] at he
  | some P =>
    simp only [h, List.mem_singleton] at he
    subst he
    unfold first_containing at h
    simpa using List.find?_some h

theorem hole_edges_rule_contains (contains : Polygon → Point → Bool) (loop_number : Int)
    (holes contours : List PerimeterGeneratorLoops) (e : LoopNode × LoopNode)
    (he : e ∈ hole_edges_rule contains loop_number holes contours) :
    contains e.1.polygon e.2.polygon.first_point = true := by
  unfold hole_edges_rule at he
  obtain ⟨d, _, he⟩ := List.mem_flatMap.1 he
  obtain ⟨child, _, he⟩ := List.mem_flatMap.1 he
  unfold rule_edge hole_parent_rule at he
  cases h1 : first_containing contains
      (((List.range (loop_number + 1).toNat).filter (fun t => d < t)).flatMap (own_row holes))
      child.polygon.first_point with
  | some P =>
    simp only [h1, List.mem_singleton] at he
    subst he
    unfold first_containing at h1
    simpa using List.find?_some h1
  | none =>
    simp only [h1] at he
    exact rule_edge_contains contains _ child e he

theorem contour_edges_rule_contains (contains : Polygon → Point → Bool) (loop_number : Int)
    (contours : List PerimeterGeneratorLoops) (e : LoopNode × LoopNode)
    (he : e ∈ contour_edges_rule contains loop_number contours) :
    contains e.1.polygon e.2.polygon.first_point = true := by
  unfold contour_edges_rule at he
  obtain ⟨d, _, he⟩ := List.mem_flatMap.1 he
  obtain ⟨child, _, he⟩ := List.mem_flatMap.1 he
  exact rule_edge_contains contains _ child e he

theorem flatMap_eq_nil_of_rows_nil {β : Type} (f : PerimeterGeneratorLoops → List β)
    (hf : f [] = []) (rows : List PerimeterGeneratorLoops)
    (h : ∀ s, rows.getD s [] = []) : rows.flatMap f = [] := by
  induction rows with
  | nil => rfl
  | cons r rs ih =>
    have h0 : r = [] := by simpa using h 0
    have hs : ∀ s, rs.getD s [] = [] := fun s => by simpa using h (s + 1)
    rw [List.flatMap_cons, ih hs, h0, hf]
    rfl

theorem rule_orphans_eq_nil (rule : Point → Option LoopNode) (row : List LoopNode)
    (h : ∀ l ∈ row, rule l.polygon.first_point ≠ none) : rule_orphans rule row = [] := by
  unfold rule_orphans
  rw [List.filter_eq_nil_iff]
  intro l hl
  have := h l hl
  cases hr : rule l.polygon.first_point <;> simp_all

theorem first_containing_ne_none (contains : Polygon → Point → Bool) (cands : List LoopNode)
    (p : Point) (c : LoopNode) (hc : c ∈ cands) (hp : contains c.polygon p = true) :
    first_containing contains cands p ≠ none := by
  unfold first_containing
  intro h
  rw [List.find?_eq_none] at h
  exact h c hc hp

theorem mem_own_row (rows : List PerimeterGeneratorLoops) (t : Nat)
    (c : PerimeterGeneratorLoop) (hc : c ∈ rows.getD t []) : c.own ∈ own_row rows t :=
  List.mem_map_of_mem _ hc

theorem own_row_eq_nil (rows : List PerimeterGeneratorLoops) (t : Nat)
    (h : own_row rows t = []) : rows.getD t [] = [] := by
  simpa [own_row] using h

theorem hole_parent_rule_ne_none (contains : Polygon → Point → Bool) (loop_number : Int)
    (holes contours : List PerimeterGeneratorLoops) (d : Nat) (p : Point)
    (h : (∃ t : Nat, d < t ∧ (t : Int) ≤ loop_number ∧
          ∃ c ∈ holes.getD t [], contains c.polygon p = true) ∨
        (∃ t : Nat, (t : Int) ≤ loop_number ∧
          ∃ c ∈ contours.getD t [], contains c.polygon p = true)) :
    hole_parent_rule contains loop_number holes contours d p ≠ none := by
  unfold hole_parent_rule
  cases h1 : first_containing contains
      (((List.range (loop_number + 1).toNat).filter (fun t => d < t)).flatMap (own_row holes)) p with
  | some P => simp
  | none =>
    simp only
    rcases h with ⟨t, hdt, htl, c, hc, hp⟩ | ⟨t, htl, c, hc, hp⟩
    · exfalso
      refine first_containing_ne_none contains _ p c.own ?_ (by rw [← polygon_eq_own]; exact hp) h1
      refine List.mem_flatMap.2 ⟨t, ?_, mem_own_row _ _ _ hc⟩
      refine List.mem_filter.2 ⟨List.mem_range.2 (by omega), by simpa using hdt⟩
    · refine first_containing_ne_none contains _ p c.own ?_ (by rw [← polygon_eq_own]; exact hp)
      refine List.mem_flatMap.2 ⟨t, ?_, mem_own_row _ _ _ hc⟩
      exact List.mem_reverse.2 (List.mem_range.2 (by omega))

theorem contour_parent_rule_ne_none (contains : Polygon → Point → Bool)
    (contours : List PerimeterGeneratorLoops) (d : Nat) (p : Point)
    (h : ∃ t : Nat, t < d ∧ ∃ c ∈ contours.getD t [], contains c.polygon p = true) :
    contour_parent_rule contains contours d p ≠ none := by
  obtain ⟨t, htd, c, hc, hp⟩ := h
  unfold contour_parent_rule
  refine first_containing_ne_none contains _ p c.own ?_ (by rw [← polygon_eq_own]; exact hp)
  refine List.mem_flatMap.2 ⟨t, ?_, mem_own_row _ _ _ hc⟩
  exact List.mem_reverse.2 (List.mem_range.2 htd)

theorem flatMap_rows_eq_front {β : Type} (f : PerimeterGeneratorLoops → List β)
    (hf : f [] = []) (rows : List PerimeterGeneratorLoops)
    (h : ∀ s, 1 ≤ s → rows.getD s [] = []) : rows.flatMap f = f (rows.getD 0 []) := by
  cases rows with
  | nil => simp [hf]
  | cons r rs =>
    have hs : ∀ s, rs.getD s [] = [] := fun s => by simpa using h (s + 1) (by omega)
    rw [List.flatMap_cons, flatMap_eq_nil_of_rows_nil f hf rs hs]
    simp

theorem nodes_front_leftover (st : LoopLists) :
    nodesList (st.contours.headD []) ++ st.leftover_nodes = st.all_nodes := by
  unfold LoopLists.leftover_nodes LoopLists.all_nodes
  cases st.contours with
  | nil => simp [nodesList]
  | cons r rs => simp

/-! ## Loop tree building: the claims -/

/-- C1. Hole rule. After the hole pass the parent-child pairs are those that were there
before plus, for every hole of depths `0..loop_number`, the pair with the parent that the
hole rule names: the first hole of a depth `d+1, ..., loop_number` (increasing depth,
list order) that contains the hole's first point, else the first contour of a depth
`loop_number, ..., 0` (decreasing depth, list order) that contains it. The rule is
evaluated on the lists as they are before nesting, and every such pair is still there
when the contour pass is over. -/
theorem hole_parent_follows_rule (contains : Polygon → Point → Bool) (loop_number : Int)
    (st0 : LoopLists) :
    (nest_holes contains loop_number st0).all_edges.Perm
      (st0.all_edges ++ hole_edges_rule contains loop_number st0.holes st0.contours) ∧
    ∀ e ∈ hole_edges_rule contains loop_number st0.holes st0.contours,
      e ∈ (nest_loops contains loop_number st0).all_edges := by
  obtain ⟨_, _, _, _, a5⟩ := nest_holes_done contains loop_number st0
  obtain ⟨_, _, _, _, b5⟩ :=
    nest_contours_done contains loop_number (nest_holes contains loop_number st0)
  refine ⟨a5, fun e he => ?_⟩
  unfold nest_loops
  refine b5.symm.subset (List.mem_append_left _ ?_)
  exact a5.symm.subset (List.mem_append_right _ he)

/-- C2. Contour rule. The contour pass keeps every parent-child pair that the hole pass
left (so a contour that is copied under its parent takes its children with it) and adds,
for every contour of depths `1..loop_number`, the pair with the first contour of a depth
`d-1, ..., 0` (decreasing depth, list order) that contains its first point, evaluated on
the contour lists as they are before nesting; no loop is lost or duplicated. -/
theorem contour_parent_follows_rule (contains : Polygon → Point → Bool) (loop_number : Int)
    (st0 : LoopLists) :
    (nest_loops contains loop_number st0).all_edges.Perm
      ((nest_holes contains loop_number st0).all_edges ++
        contour_edges_rule contains loop_number st0.contours) ∧
    (nest_loops contains loop_number st0).all_nodes.Perm
      (nest_holes contains loop_number st0).all_nodes := by
  obtain ⟨_, _, a3, _, _⟩ := nest_holes_done contains loop_number st0
  obtain ⟨_, _, _, b4, b5⟩ :=
    nest_contours_done contains loop_number (nest_holes contains loop_number st0)
  rw [contour_edges_rule_congr contains loop_number _ _ a3] at b5
  exact ⟨b5, b4⟩

/-- C3. After loop tree building the polygon of every parent contains the first point of
the polygon of each of its children, provided this holds for the children the loops
have on entry (the shell loop records loops without children). -/
theorem parent_contains_first_point (contains : Polygon → Point → Bool) (loop_number : Int)
    (st0 : LoopLists)
    (h0 : ∀ e ∈ st0.all_edges, contains e.1.polygon e.2.polygon.first_point = true) :
    ∀ e ∈ (nest_loops contains loop_number st0).all_edges,
      contains e.1.polygon e.2.polygon.first_point = true := by
  obtain ⟨_, _, _, _, a5⟩ := nest_holes_done contains loop_number st0
  obtain ⟨_, _, _, _, b5⟩ :=
    nest_contours_done contains loop_number (nest_holes contains loop_number st0)
  intro e he
  unfold nest_loops at he
  rcases List.mem_append.1 (b5.subset he) with h1 | h2
  · rcases List.mem_append.1 (a5.subset h1) with h3 | h4
    · exact h0 e h3
    · exact hole_edges_rule_contains contains loop_number _ _ e h4
  · exact contour_edges_rule_contains contains loop_number _ e h2

theorem parent_contains_first_point_witness :
    (∀ e ∈ nested_sample.all_edges,
      rect_contains e.1.polygon e.2.polygon.first_point = true) ∧
    ∀ e ∈ (nest_loops rect_contains 1 nested_sample).all_edges,
      rect_contains e.1.polygon e.2.polygon.first_point = true :=
  ⟨by decide, parent_contains_first_point rect_contains 1 nested_sample (by decide)⟩

/-- C4. If no loop is recorded deeper than `loop_number`, every hole has a hole of a
greater depth or a contour that contains its first point, and every contour of depth
`>= 1` has a contour of a smaller depth that contains its first point, then after nesting
every `holes[d]` is empty, every `contours[d]` with `d >= 1` is empty, and the forest
rooted at `contours[0]` holds every loop exactly once. -/
theorem all_loops_end_in_front_forest (contains : Polygon → Point → Bool) (loop_number : Int)
    (st0 : LoopLists)
    (hdeep : ∀ s : Nat, ¬ ((s : Int) ≤ loop_number) →
      st0.holes.getD s [] = [] ∧ st0.contours.getD s [] = [])
    (hholes : ∀ d : Nat, (d : Int) ≤ loop_number → ∀ h ∈ st0.holes.getD d [],
      (∃ t : Nat, d < t ∧ (t : Int) ≤ loop_number ∧
        ∃ c ∈ st0.holes.getD t [], contains c.polygon h.polygon.first_point = true) ∨
      (∃ t : Nat, (t : Int) ≤ loop_number ∧
        ∃ c ∈ st0.contours.getD t [], contains c.polygon h.polygon.first_point = true))
    (hcontours : ∀ d : Nat, 1 ≤ d → (d : Int) ≤ loop_number → ∀ c ∈ st0.contours.getD d [],
      ∃ t : Nat, t < d ∧
        ∃ c' ∈ st0.contours.getD t [], contains c'.polygon c.polygon.first_point = true) :
    (∀ d, (nest_loops contains loop_number st0).holes.getD d [] = []) ∧
    (∀ d, 1 ≤ d → (nest_loops contains loop_number st0).contours.getD d [] = []) ∧
    (nodesList ((nest_loops contains loop_number st0).contours.getD 0 [])).Perm
      st0.all_nodes := by
  obtain ⟨a1, a2, a3, a4, _⟩ := nest_holes_done contains loop_number st0
  obtain ⟨b1, b2, b3, b4, _⟩ :=
    nest_contours_done contains loop_number (nest_holes contains loop_number st0)
  have hH : ∀ d, (nest_loops contains loop_number st0).holes.getD d [] = [] := by
    intro d
    unfold nest_loops
    rw [b3]
    apply own_row_eq_nil
    by_cases hd : (d : Int) ≤ loop_number
    · rw [a2 d hd]
      apply rule_orphans_eq_nil
      intro l hl
      obtain ⟨h, hh, rfl⟩ := List.mem_map.1 hl
      rw [← polygon_eq_own]
      exact hole_parent_rule_ne_none contains loop_number _ _ d _ (hholes d hd h hh)
    · rw [a1 d hd]
      unfold own_row
      rw [(hdeep d hd).1]
      rfl
  have hC : ∀ d, 1 ≤ d → (nest_loops contains loop_number st0).contours.getD d [] = [] := by
    intro d hd1
    unfold nest_loops
    apply own_row_eq_nil
    by_cases hd : (d : Int) ≤ loop_number
    · rw [b2 d hd1 hd, a3 d,
        contour_parent_rule_congr contains _ st0.contours d (fun s _ => a3 s)]
      apply rule_orphans_eq_nil
      intro l hl
      obtain ⟨c, hc, rfl⟩ := List.mem_map.1 hl
      rw [← polygon_eq_own]
      exact contour_parent_rule_ne_none contains _ d _ (hcontours d hd1 hd c hc)
    · rw [b1 d (Or.inr hd), a3 d]
      unfold own_row
      rw [(hdeep d hd).2]
      rfl
  refine ⟨hH, hC, ?_⟩
  have hall : (nest_loops contains loop_number st0).all_nodes =
      nodesList ((nest_loops contains loop_number st0).contours.getD 0 []) := by
    unfold LoopLists.all_nodes
    rw [flatMap_eq_nil_of_rows_nil nodesList (by simp [nodesList]) _ hH,
      flatMap_rows_eq_front nodesList (by simp [nodesList]) _ hC]
    simp
  rw [← hall]
  unfold nest_loops
  exact b4.trans a4

theorem all_loops_end_in_front_forest_witness :
    (∀ d, (nest_loops rect_contains 1 nested_sample).holes.getD d [] = []) ∧
    (∀ d, 1 ≤ d → (nest_loops rect_contains 1 nested_sample).contours.getD d [] = []) ∧
    (nodesList ((nest_loops rect_contains 1 nested_sample).contours.getD 0 [])).Perm
      nested_sample.all_nodes :=
  all_loops_end_in_front_forest rect_contains 1 nested_sample
    (by
      intro s hs
      have h2 : 2 ≤ s := by omega
      exact ⟨List.getD_eq_default _ _ h2, List.getD_eq_default _ _ h2⟩)
    (by
      intro d hd h hh
      have hd' : d = 0 ∨ d = 1 := by omega
      rcases hd' with rfl | rfl
      · left
        refine ⟨1, by decide, by decide, .mk (square 30 70) 1 false false [], ?_, ?_⟩
        · simp [nested_sample]
        · simp [nested_sample] at hh
          subst hh
          decide
      · right
        refine ⟨1, by decide, .mk (square 10 90) 1 true false [], ?_, ?_⟩
        · simp [nested_sample]
        · simp [nested_sample] at hh
          subst hh
          decide)
    (by
      intro d hd1 hd c hc
      have hd' : d = 1 := by omega
      subst hd'
      refine ⟨0, by decide, .mk (square 0 100) 0 true false [], ?_, ?_⟩
      · simp [nested_sample]
      · simp [nested_sample] at hc
        subst hc
        decide)

/-- C5, as the code has it. A loop for which the search finds no parent is not reported:
the tree section always completes; after nesting, `holes[d]` (`d <= loop_number`) and
`contours[d]` (`1 <= d <= loop_number`) hold, in order, exactly the loops the rules leave
without a parent; and the loops handed on are those of the trees of `contours[0]`, that
is all loops except the ones left, with their subtrees, in the other lists. -/
theorem orphans_stay_in_their_lists (contains : Polygon → Point → Bool) (loop_number : Int)
    (st0 : LoopLists) :
    process_loop_tree contains loop_number st0 =
      Except.ok ((nest_loops contains loop_number st0).contours.headD []) ∧
    (∀ d : Nat, (d : Int) ≤ loop_number →
      own_row (nest_loops contains loop_number st0).holes d =
        rule_orphans (hole_parent_rule contains loop_number st0.holes st0.contours d)
          (own_row st0.holes d)) ∧
    (∀ d : Nat, 1 ≤ d → (d : Int) ≤ loop_number →
      own_row (nest_loops contains loop_number st0).contours d =
        rule_orphans (contour_parent_rule contains st0.contours d) (own_row st0.contours d)) ∧
    (nodesList ((nest_loops contains loop_number st0).contours.headD []) ++
      (nest_loops contains loop_number st0).leftover_nodes).Perm st0.all_nodes := by
  obtain ⟨_, a2, a3, a4, _⟩ := nest_holes_done contains loop_number st0
  obtain ⟨_, b2, b3, b4, _⟩ :=
    nest_contours_done contains loop_number (nest_holes contains loop_number st0)
  refine ⟨rfl, ?_, ?_, ?_⟩
  · intro d hd
    unfold nest_loops
    rw [b3, a2 d hd]
  · intro d hd1 hd
    unfold nest_loops
    rw [b2 d hd1 hd, a3 d, contour_parent_rule_congr contains _ st0.contours d (fun s _ => a3 s)]
  · rw [nodes_front_leftover]
    unfold nest_loops
    exact b4.trans a4

/-- C5, as stated, fails: in `orphan_sample` neither the depth-1 contour nor the hole
has a containing candidate, yet the tree section completes normally and hands on the
depth-0 contour alone. -/
theorem orphan_dropped_without_report :
    contour_parent_rule rect_contains orphan_sample.contours 1
      (square (-1) 101).first_point = none ∧
    hole_parent_rule rect_contains 1 orphan_sample.holes orphan_sample.contours 0
      (square 200 210).first_point = none ∧
    process_loop_tree rect_contains 1 orphan_sample =
      Except.ok [.mk (square 0 100) 0 true false []] :=
  ⟨by decide, by decide, rfl⟩

/-! ## Shell generation -/

theorem shell_loop_of_state_at (env : ShellEnv) (st0 : ShellState) :
    ∀ (i : Nat) (st : ShellState), state_at_pass env st0 i = some st →
      ∀ k, shell_loop env (i + k) 0 st0 = shell_loop env k i st := by
  intro i
  induction i with
  | zero =>
    intro st h k
    simp only [state_at_pass, Option.some.injEq] at h
    subst h
    simp
  | succ i ih =>
    intro st h k
    simp only [state_at_pass] at h
    cases hs : state_at_pass env st0 i with
    | none => simp [hs] at h
    | some s =>
      simp only [hs] at h
      cases hp : shell_pass env i s with
      | stop s' => simp [hp] at h
      | next s' =>
        simp only [hp, Option.some.injEq] at h
        subst h
        have e : i + 1 + k = i + (k + 1) := by omega
        rw [e, ih s hs (k + 1)]
        simp only [shell_loop, hp]

theorem state_at_succ (env : ShellEnv) (st0 st st' : ShellState) (i : Nat)
    (h : state_at_pass env st0 i = some st) (hp : shell_pass env i st = PassEnd.next st') :
    state_at_pass env st0 (i + 1) = some st' := by
  simp only [state_at_pass, h, hp]

theorem record_loops_fst (i : Nat) (ov : Bool) (onion : ExPolygons) :
    ∀ contours holes : List PerimeterGeneratorLoops,
      (record_loops i ov onion contours holes).1 =
        contours.modify (fun row => row ++ onion.map
          (fun ex => PerimeterGeneratorLoop.mk ex.contour i true ov [])) i := by
  unfold record_loops
  induction onion with
  | nil =>
    intro contours holes
    simp only [List.foldl_nil, List.map_nil, List.append_nil]
    exact (List.modify_id i contours).symm
  | cons ex rest ih =>
    intro contours holes
    rw [List.foldl_cons, ih, List.modify_modify_eq]
    congr 1
    funext row
    simp

theorem record_loops_snd (i : Nat) (ov : Bool) (onion : ExPolygons) :
    ∀ contours holes : List PerimeterGeneratorLoops,
      (record_loops i ov onion contours holes).2 =
        holes.modify (fun row => row ++ onion.flatMap (fun ex => ex.holes.map
          (fun hole => PerimeterGeneratorLoop.mk hole i false ov []))) i := by
  unfold record_loops
  induction onion with
  | nil =>
    intro contours holes
    simp only [List.foldl_nil, List.flatMap_nil, List.append_nil]
    exact (List.modify_id i holes).symm
  | cons ex rest ih =>
    intro contours holes
    rw [List.foldl_cons, ih, List.modify_modify_eq]
    congr 1
    funext row
    simp

theorem getD_modify_append (rows : List PerimeterGeneratorLoops) (extra : PerimeterGeneratorLoops)
    (i d : Nat) :
    (rows.modify (fun row => row ++ extra) i).getD d [] =
      if i = d ∧ d < rows.length then rows.getD d [] ++ extra else rows.getD d [] := by
  simp only [List.getD_eq_getElem?_getD, List.getElem?_modify]
  by_cases hid : i = d
  · subst hid
    by_cases hl : i < rows.length
    · simp [hl, List.getElem?_eq_getElem hl]
    · simp [hl, List.getElem?_eq_none (Nat.le_of_not_lt hl)]
  · cases h : rows[d]? <;> simp [hid]

theorem getD_append_nil_row (rows : List PerimeterGeneratorLoops) (d : Nat) :
    (rows ++ [[]]).getD d [] = rows.getD d [] := by
  simp only [List.getD_eq_getElem?_getD]
  by_cases hd : d < rows.length
  · rw [List.getElem?_append_left hd]
  · have hd' : rows.length ≤ d := Nat.le_of_not_lt hd
    rw [List.getElem?_append_right hd', List.getElem?_eq_none hd']
    cases h : d - rows.length <;> simp

/-- What a pass does, read off the inset and the overhang flag it computes. -/
theorem shell_pass_cases (env : ShellEnv) (i : Nat) (st : ShellState) :
    (inset_of_pass env i st = [] →
      ∃ st', shell_pass env i st = PassEnd.stop st' ∧ st'.loop_number = (i : Int) - 1 ∧
        st'.last = [] ∧ st'.contours = st.contours ∧ st'.holes = st.holes) ∧
    (inset_of_pass env i st ≠ [] → (i : Int) > st.loop_number →
      overhang_of_pass env i st = false →
      ∃ st', shell_pass env i st = PassEnd.stop st' ∧ st'.loop_number = st.loop_number ∧
        st'.contours = st.contours ∧ st'.holes = st.holes) ∧
    (inset_of_pass env i st ≠ [] → (i : Int) > st.loop_number →
      overhang_of_pass env i st = true →
      ∃ st', shell_pass env i st = PassEnd.next st' ∧ st'.loop_number = st.loop_number + 1 ∧
        st'.contours = (record_loops i true (inset_of_pass env i st)
          (st.contours ++ [[]]) (st.holes ++ [[]])).1 ∧
        st'.holes = (record_loops i true (inset_of_pass env i st)
          (st.contours ++ [[]]) (st.holes ++ [[]])).2) ∧
    (inset_of_pass env i st ≠ [] → ¬ ((i : Int) > st.loop_number) →
      ∃ st', shell_pass env i st = PassEnd.next st' ∧ st'.loop_number = st.loop_number ∧
        st'.contours = (record_loops i (overhang_of_pass env i st) (inset_of_pass env i st)
          st.contours st.holes).1 ∧
        st'.holes = (record_loops i (overhang_of_pass env i st) (inset_of_pass env i st)
          st.contours st.holes).2) := by
  unfold inset_of_pass overhang_of_pass
  refine ⟨?_, ?_, ?_, ?_⟩
  · intro he
    simp only [shell_pass, he, List.isEmpty_nil, if_true]
    exact ⟨_, rfl, rfl, rfl, rfl, rfl⟩
  · intro hne hgt hov
    have hemp : (compute_next_onion env i (divert_unsupported env i st.last).1).1.isEmpty
        = false := by
      simpa [List.isEmpty_iff] using hne
    simp only [shell_pass, hemp, hov, hgt, if_true, if_false, Bool.false_eq_true]
    exact ⟨_, rfl, rfl, rfl, rfl⟩
  · intro hne hgt hov
    have hemp : (compute_next_onion env i (divert_unsupported env i st.last).1).1.isEmpty
        = false := by
      simpa [List.isEmpty_iff] using hne
    simp only [shell_pass, hemp, hov, hgt, if_true, if_false, Bool.false_eq_true]
    exact ⟨_, rfl, rfl, rfl, rfl⟩
  · intro hne hgt
    have hemp : (compute_next_onion env i (divert_unsupported env i st.last).1).1.isEmpty
        = false := by
      simpa [List.isEmpty_iff] using hne
    simp only [shell_pass, hemp, hgt, if_false, Bool.false_eq_true]
    exact ⟨_, rfl, rfl, rfl, rfl⟩

theorem getD_replicate_nil (n d : Nat) :
    (List.replicate n ([] : PerimeterGeneratorLoops)).getD d [] = [] := by
  simp only [List.getD_eq_getElem?_getD]
  by_cases h : d < n
  · simp [List.getElem?_replicate, h]
  · simp [List.getElem?_replicate, h]

theorem shell_init_inv (env : ShellEnv) (surface : Surface)
    (hL : 0 ≤ initial_loop_number env surface) :
    ShellInv (initial_loop_number env surface) 0 (shell_init env surface) := by
  refine ⟨?_, ?_, ?_, ?_⟩
  · simp [shell_init]
  · simp only [shell_init, List.length_replicate]
    omega
  · simp only [shell_init]
    omega
  · intro d _
    simp only [shell_init]
    exact ⟨getD_replicate_nil _ _, getD_replicate_nil _ _⟩

theorem shell_pass_next_inv (env : ShellEnv) (L0 : Int) (i : Nat) (st st' : ShellState)
    (hinv : ShellInv L0 i st) (hp : shell_pass env i st = PassEnd.next st') :
    ShellInv L0 (i + 1) st' := by
  obtain ⟨c1, c2, c3, c4⟩ := shell_pass_cases env i st
  obtain ⟨h1, h2, h3, h4⟩ := hinv
  by_cases he : inset_of_pass env i st = []
  · obtain ⟨s, hs, _⟩ := c1 he
    rw [hs] at hp
    cases hp
  · by_cases hgt : (i : Int) > st.loop_number
    · cases hov : overhang_of_pass env i st with
      | false =>
        obtain ⟨s, hs, _⟩ := c2 he hgt hov
        rw [hs] at hp
        cases hp
      | true =>
        obtain ⟨s, hs, s1, s2, s3⟩ := c3 he hgt hov
        rw [hs] at hp
        cases hp
        rw [record_loops_fst] at s2
        rw [record_loops_snd] at s3
        refine ⟨?_, ?_, ?_, ?_⟩
        · rw [s2, s3]; simp [h1]
        · rw [s1, s2]
          simp only [List.length_modify, List.length_append, List.length_singleton,
            Nat.cast_add, Nat.cast_one]
          omega
        · rw [s1]; push_cast; omega
        · intro d hd
          rw [s2, s3, getD_modify_append, getD_modify_append,
            if_neg (by omega), if_neg (by omega), getD_append_nil_row, getD_append_nil_row]
          exact h4 d (by omega)
    · obtain ⟨s, hs, s1, s2, s3⟩ := c4 he hgt
      rw [hs] at hp
      cases hp
      rw [record_loops_fst] at s2
      rw [record_loops_snd] at s3
      refine ⟨?_, ?_, ?_, ?_⟩
      · rw [s2, s3]; simp [h1]
      · rw [s1, s2]
        simp only [List.length_modify]
        exact h2
      · rw [s1]; push_cast; omega
      · intro d hd
        rw [s2, s3, getD_modify_append, getD_modify_append,
          if_neg (by omega), if_neg (by omega)]
        exact h4 d (by omega)

theorem shell_pass_stop_facts (env : ShellEnv) (i : Nat) (st st' : ShellState)
    (hp : shell_pass env i st = PassEnd.stop st') :
    st'.contours = st.contours ∧ st'.holes = st.holes ∧
    ((inset_of_pass env i st = [] ∧ st'.loop_number = (i : Int) - 1 ∧ st'.last = []) ∨
     (inset_of_pass env i st ≠ [] ∧ (i : Int) > st.loop_number ∧
       overhang_of_pass env i st = false ∧ st'.loop_number = st.loop_number)) := by
  obtain ⟨c1, c2, c3, c4⟩ := shell_pass_cases env i st
  by_cases he : inset_of_pass env i st = []
  · obtain ⟨s, hs, s1, s2, s3, s4⟩ := c1 he
    rw [hs] at hp
    cases hp
    exact ⟨s3, s4, Or.inl ⟨he, s1, s2⟩⟩
  · by_cases hgt : (i : Int) > st.loop_number
    · cases hov : overhang_of_pass env i st with
      | false =>
        obtain ⟨s, hs, s1, s2, s3⟩ := c2 he hgt hov
        rw [hs] at hp
        cases hp
        exact ⟨s2, s3, Or.inr ⟨he, hgt, rfl, s1⟩⟩
      | true =>
        obtain ⟨s, hs, _⟩ := c3 he hgt hov
        rw [hs] at hp
        cases hp
    · obtain ⟨s, hs, _⟩ := c4 he hgt
      rw [hs] at hp
      cases hp

theorem state_at_inv (env : ShellEnv) (L0 : Int) (st0 : ShellState) (h0 : ShellInv L0 0 st0) :
    ∀ (i : Nat) (st : ShellState), state_at_pass env st0 i = some st → ShellInv L0 i st := by
  intro i
  induction i with
  | zero =>
    intro st h
    simp only [state_at_pass, Option.some.injEq] at h
    subst h
    exact h0
  | succ i ih =>
    intro st h
    simp only [state_at_pass] at h
    cases hs : state_at_pass env st0 i with
    | none => simp [hs] at h
    | some s =>
      simp only [hs] at h
      cases hp : shell_pass env i s with
      | stop s' => simp [hp] at h
      | next s' =>
        simp only [hp, Option.some.injEq] at h
        subst h
        exact shell_pass_next_inv env L0 i s _ (ih s hs) hp

/-- The loop stops at pass `n` at the latest when pass `n` is a look-ahead pass that
detects no overhang. -/
theorem shell_loop_stops_by (env : ShellEnv) (L0 : Int) (st0 : ShellState) (n : Nat)
    (hn : L0 < (n : Int))
    (hov : ∀ st, state_at_pass env st0 n = some st → overhang_of_pass env n st = false) :
    ∀ (m i : Nat) (st : ShellState), i + m = n → state_at_pass env st0 i = some st →
      ShellInv L0 i st →
      ∃ st', (∀ fuel, m < fuel → shell_loop env fuel i st = some st') ∧
        st'.loop_number ≤ max L0 ((n : Int) - 1) := by
  intro m
  induction m with
  | zero =>
    intro i st him hst hinv
    have hin : i = n := by omega
    subst hin
    cases hp : shell_pass env i st with
    | stop s' =>
      refine ⟨s', ?_, ?_⟩
      · intro fuel hf
        obtain ⟨f, rfl⟩ : ∃ f, fuel = f + 1 := ⟨fuel - 1, by omega⟩
        simp only [shell_loop, hp]
      · obtain ⟨_, _, h | h⟩ := shell_pass_stop_facts env i st s' hp
        · rw [h.2.1]; omega
        · rw [h.2.2.2, hinv.number]
    | next s' =>
      exfalso
      obtain ⟨c1, c2, c3, c4⟩ := shell_pass_cases env i st
      have hnum := hinv.number
      by_cases he : inset_of_pass env i st = []
      · obtain ⟨s, hs, _⟩ := c1 he
        rw [hs] at hp
        cases hp
      · obtain ⟨s, hs, _⟩ := c2 he (by omega) (hov st hst)
        rw [hs] at hp
        cases hp
  | succ m ih =>
    intro i st him hst hinv
    cases hp : shell_pass env i st with
    | stop s' =>
      refine ⟨s', ?_, ?_⟩
      · intro fuel hf
        obtain ⟨f, rfl⟩ : ∃ f, fuel = f + 1 := ⟨fuel - 1, by omega⟩
        simp only [shell_loop, hp]
      · have hnum := hinv.number
        obtain ⟨_, _, h | h⟩ := shell_pass_stop_facts env i st s' hp
        · rw [h.2.1]; omega
        · rw [h.2.2.2, hnum]; omega
    | next s' =>
      obtain ⟨s'', hf, hb⟩ := ih (i + 1) s' (by omega) (state_at_succ env st0 st s' i hst hp)
        (shell_pass_next_inv env L0 i st s' hinv hp)
      refine ⟨s'', ?_, hb⟩
      intro fuel hfuel
      obtain ⟨f, rfl⟩ : ∃ f, fuel = f + 1 := ⟨fuel - 1, by omega⟩
      simp only [shell_loop, hp]
      exact hf f (by omega)

theorem generate_shells_eq (env : ShellEnv) (surface : Surface) (fuel : Nat)
    (hL : 0 ≤ initial_loop_number env surface) :
    generate_shells env surface fuel = shell_loop env fuel 0 (shell_init env surface) := by
  unfold generate_shells
  rw [if_pos hL]

/-- C7. With `perimeters + extra_perimeters = N >= 1` and `only_one_perimeter_top` off,
if the inset of every pass `0..N` is one polygon without holes and the look-ahead pass
`N` detects no overhang, the depth loop ends in pass `N` (any step budget above `N`
gives the result), `loop_number` is `N - 1`, each depth `0..N-1` holds exactly one
contour, nothing is recorded at depth `N` or deeper, and no hole is recorded. Neither the
thin-wall setting nor the overhang flag of the passes before `N` matters. -/
theorem plain_island_shell_count (env : ShellEnv) (surface : Surface) (N : Nat) (hN : 1 ≤ N)
    (hcount : env.config.perimeters + (surface.extra_perimeters : Int) = N)
    (htop : env.config.only_one_perimeter_top = false)
    (hinset : ∀ i st, i ≤ N → state_at_pass env (shell_init env surface) i = some st →
      ∃ c, inset_of_pass env i st = [⟨c, []⟩])
    (hov : ∀ st, state_at_pass env (shell_init env surface) N = some st →
      overhang_of_pass env N st = false) :
    ∃ st', (∀ fuel, N < fuel → generate_shells env surface fuel = some st') ∧
      st'.loop_number = (N : Int) - 1 ∧
      (∀ d, d < N → ∃ c ov, st'.contours.getD d [] = [PerimeterGeneratorLoop.mk c d true ov []]) ∧
      (∀ d, N ≤ d → st'.contours.getD d [] = []) ∧
      (∀ d, st'.holes.getD d [] = []) := by
  have hL0 : initial_loop_number env surface = (N : Int) - 1 := by
    unfold initial_loop_number
    rw [htop]
    simp only [Bool.false_and, Bool.false_eq_true, if_false]
    omega
  have hL : 0 ≤ initial_loop_number env surface := by omega
  have hinv0 := shell_init_inv env surface hL
  have key : ∀ i, i ≤ N → ∃ st, state_at_pass env (shell_init env surface) i = some st ∧
      st.loop_number = (N : Int) - 1 ∧
      (∀ d, d < i → ∃ c ov, st.contours.getD d [] = [PerimeterGeneratorLoop.mk c d true ov []]) ∧
      (∀ d, st.holes.getD d [] = []) := by
    intro i
    induction i with
    | zero =>
      intro _
      refine ⟨shell_init env surface, rfl, by rw [← hL0]; rfl, fun d hd => absurd hd (by omega), ?_⟩
      intro d
      exact (hinv0.deeper_empty d (by omega)).2
    | succ i ih =>
      intro hi
      obtain ⟨st, hst, hnum, hc, hh⟩ := ih (by omega)
      have hinv := state_at_inv env _ _ hinv0 i st hst
      obtain ⟨c, hc1⟩ := hinset i st (by omega) hst
      obtain ⟨_, _, _, c4⟩ := shell_pass_cases env i st
      obtain ⟨s, hs, s1, s2, s3⟩ := c4 (by rw [hc1]; simp) (by omega)
      rw [record_loops_fst, hc1] at s2
      rw [record_loops_snd, hc1] at s3
      have hlen : i < st.contours.length := by
        have := hinv.len_ge
        omega
      refine ⟨s, state_at_succ env _ st s i hst hs, by rw [s1, hnum], ?_, ?_⟩
      · intro d hd
        rw [s2, getD_modify_append]
        by_cases hdi : i = d
        · subst hdi
          rw [if_pos ⟨rfl, hlen⟩, (hinv.deeper_empty i (Nat.le_refl _)).1]
          exact ⟨c, _, rfl⟩
        · rw [if_neg (fun h => hdi h.1)]
          exact hc d (by omega)
      · intro d
        rw [s3, getD_modify_append]
        simp only [List.flatMap_cons, List.map_nil, List.flatMap_nil, List.append_nil, ite_self]
        exact hh d
  obtain ⟨st, hst, hnum, hc, hh⟩ := key N (Nat.le_refl _)
  have hinv := state_at_inv env _ _ hinv0 N st hst
  obtain ⟨c, hc1⟩ := hinset N st (Nat.le_refl _) hst
  obtain ⟨_, c2, _, _⟩ := shell_pass_cases env N st
  obtain ⟨s, hs, s1, s2, s3⟩ := c2 (by rw [hc1]; simp) (by omega) (hov st hst)
  refine ⟨s, ?_, by rw [s1, hnum], ?_, ?_, ?_⟩
  · intro fuel hf
    obtain ⟨k, rfl⟩ : ∃ k, fuel = N + (k + 1) := ⟨fuel - N - 1, by omega⟩
    rw [generate_shells_eq env surface _ hL, shell_loop_of_state_at env _ N st hst]
    simp only [shell_loop, hs]
  · rw [s2]; exact hc
  · intro d hd
    rw [s2]
    exact (hinv.deeper_empty d hd).1
  · rw [s3]; exact hh

theorem plain_island_shell_count_witness :
    ∃ st', (∀ fuel, 2 < fuel → generate_shells plain_env sample_island fuel = some st') ∧
      st'.loop_number = ((2 : Nat) : Int) - 1 ∧
      (∀ d, d < 2 → ∃ c ov, st'.contours.getD d [] = [PerimeterGeneratorLoop.mk c d true ov []]) ∧
      (∀ d, 2 ≤ d → st'.contours.getD d [] = []) ∧
      (∀ d, st'.holes.getD d [] = []) :=
  plain_island_shell_count plain_env sample_island 2 (by decide) (by decide) rfl
    (by
      intro i st hi h
      have hi' : i = 0 ∨ i = 1 ∨ i = 2 := by omega
      rcases hi' with rfl | rfl | rfl
      · have e : (state_at_pass plain_env (shell_init plain_env sample_island) 0).map
            (inset_of_pass plain_env 0) = some [⟨square 10 60, []⟩] := by decide
        rw [h] at e
        exact ⟨_, by simpa using e⟩
      · have e : (state_at_pass plain_env (shell_init plain_env sample_island) 1).map
            (inset_of_pass plain_env 1) = some [⟨square 20 50, []⟩] := by decide
        rw [h] at e
        exact ⟨_, by simpa using e⟩
      · have e : (state_at_pass plain_env (shell_init plain_env sample_island) 2).map
            (inset_of_pass plain_env 2) = some [⟨square 30 40, []⟩] := by decide
        rw [h] at e
        exact ⟨_, by simpa using e⟩)
    (by intro st _; rfl)

/-- C8, as the code has it. Let `L0` be `loop_number` on entry of the depth loop
(`L0 >= 0`). If the look-ahead pass at depth `L0 + 1 + k` detects no overhang, the loop
ends at that pass at the latest (any step budget above `L0 + 1 + k` gives the result) and
the final `loop_number` is at most `L0 + k`. Each look-ahead pass before it that detects
an overhang on a non-empty inset adds one loop. -/
theorem loop_number_bound (env : ShellEnv) (surface : Surface) (k : Nat)
    (hL : 0 ≤ initial_loop_number env surface)
    (hov : ∀ st, state_at_pass env (shell_init env surface)
        ((initial_loop_number env surface).toNat + 1 + k) = some st →
      overhang_of_pass env ((initial_loop_number env surface).toNat + 1 + k) st = false) :
    ∃ st', (∀ fuel, (initial_loop_number env surface).toNat + 1 + k < fuel →
        generate_shells env surface fuel = some st') ∧
      st'.loop_number ≤ initial_loop_number env surface + k := by
  obtain ⟨st', hf, hb⟩ := shell_loop_stops_by env (initial_loop_number env surface)
    (shell_init env surface) ((initial_loop_number env surface).toNat + 1 + k)
    (by omega) hov ((initial_loop_number env surface).toNat + 1 + k) 0 (shell_init env surface)
    (by omega) rfl (shell_init_inv env surface hL)
  refine ⟨st', ?_, by omega⟩
  intro fuel hfuel
  rw [generate_shells_eq env surface _ hL]
  exact hf fuel hfuel

theorem loop_number_bound_witness :
    ∃ st', (∀ fuel, (initial_loop_number plain_env sample_island).toNat + 1 + 0 < fuel →
        generate_shells plain_env sample_island fuel = some st') ∧
      st'.loop_number ≤ initial_loop_number plain_env sample_island + (0 : Nat) :=
  loop_number_bound plain_env sample_island 0 (by decide) (by intro st _; rfl)

/-- C8, as stated, fails: with one loop asked for (`perimeters + extra_perimeters - 1 = 0`)
and an overhang detected at depths 1 and 2, the loop records depths 0, 1 and 2 and ends
with `loop_number = 2`, above `0 + 1`. -/
theorem overhang_adds_more_than_one_loop :
    overhang_env.config.perimeters + (sample_island.extra_perimeters : Int) - 1 = 0 ∧
    (generate_shells overhang_env sample_island 4).map (fun st => st.loop_number) = some 2 ∧
    ¬ ((2 : Int) ≤ (overhang_env.config.perimeters + (sample_island.extra_perimeters : Int) - 1) + 1) := by
  decide

/-- C9. If the inset computed in pass `i` is empty, the depth loop ends in that pass
(any step budget above `i` gives the result) with `loop_number = i - 1` and `last`
cleared, and no contour or hole is recorded at depth `i` or deeper. -/
theorem empty_inset_ends_generation (env : ShellEnv) (surface : Surface) (i : Nat)
    (st : ShellState) (hL : 0 ≤ initial_loop_number env surface)
    (hst : state_at_pass env (shell_init env surface) i = some st)
    (hempty : inset_of_pass env i st = []) :
    ∃ st', (∀ fuel, i < fuel → generate_shells env surface fuel = some st') ∧
      st'.loop_number = (i : Int) - 1 ∧ st'.last = [] ∧
      ∀ d, i ≤ d → st'.contours.getD d [] = [] ∧ st'.holes.getD d [] = [] := by
  have hinv := state_at_inv env _ _ (shell_init_inv env surface hL) i st hst
  obtain ⟨c1, _, _, _⟩ := shell_pass_cases env i st
  obtain ⟨s, hs, s1, s2, s3, s4⟩ := c1 hempty
  refine ⟨s, ?_, s1, s2, ?_⟩
  · intro fuel hf
    obtain ⟨k, rfl⟩ : ∃ k, fuel = i + (k + 1) := ⟨fuel - i - 1, by omega⟩
    rw [generate_shells_eq env surface _ hL, shell_loop_of_state_at env _ i st hst]
    simp only [shell_loop, hs]
  · intro d hd
    rw [s3, s4]
    exact hinv.deeper_empty d hd

theorem empty_inset_ends_generation_witness :
    ∃ st', (∀ fuel, 3 < fuel → generate_shells overhang_env sample_island fuel = some st') ∧
      st'.loop_number = ((3 : Nat) : Int) - 1 ∧ st'.last = [] ∧
      ∀ d, 3 ≤ d → st'.contours.getD d [] = [] ∧ st'.holes.getD d [] = [] :=
  empty_inset_ends_generation overhang_env sample_island 3
    ((state_at_pass overhang_env (shell_init overhang_env sample_island) 3).get (by decide))
    (by decide) (by simp) (by decide)

/-! ## Closed loops -/

theorem head?_push_to_last_path (a : Point) (p : ExtrusionPath) (rest : List ExtrusionPath) :
    (push_to_last_path a (p :: rest)).head? =
      some (if rest = [] then { p with polyline := ⟨p.polyline.points ++ [a]⟩ } else p) := by
  cases rest with
  | nil => simp [push_to_last_path]
  | cons q qs => simp [push_to_last_path]

theorem getLast?_push_to_last_path (a : Point) (paths : List ExtrusionPath) :
    (push_to_last_path a paths).getLast? =
      paths.getLast?.map (fun q => { q with polyline := ⟨q.polyline.points ++ [a]⟩ }) := by
  induction paths with
  | nil => simp [push_to_last_path]
  | cons p rest ih =>
    cases rest with
    | nil => simp [push_to_last_path]
    | cons q qs =>
      have hpush : push_to_last_path a (p :: q :: qs) = p :: push_to_last_path a (q :: qs) := rfl
      obtain ⟨y, ys, hy⟩ : ∃ y ys, push_to_last_path a (q :: qs) = y :: ys := by
        cases qs with
        | nil => exact ⟨_, _, rfl⟩
        | cons r rs => exact ⟨_, _, rfl⟩
      rw [hpush, List.getLast?_cons_cons, ← ih, hy, List.getLast?_cons_cons]

theorem close_loop_is_closed (l l' : ExtrusionLoop) (h : close_loop l = some l') :
    l'.is_closed := by
  unfold close_loop at h
  cases hf : l.first_point? with
  | none => simp [hf] at h
  | some a =>
    simp only [hf, Option.some.injEq] at h
    subst h
    unfold ExtrusionLoop.first_point? at hf
    cases hp : l.paths with
    | nil => simp [hp] at hf
    | cons p rest =>
      simp only [hp, List.head?_cons, Option.some_bind] at hf
      have hfirst : ExtrusionLoop.first_point?
          { l with paths := push_to_last_path a (p :: rest) } = some a := by
        unfold ExtrusionLoop.first_point?
        simp only [head?_push_to_last_path, Option.some_bind]
        by_cases hr : rest = []
        · simp only [hr, if_true]
          cases hpts : p.polyline.points with
          | nil => simp [hpts] at hf
          | cons x xs =>
            simp only [hpts, List.head?_cons, Option.some.injEq] at hf
            simp [hf]
        · simp only [hr, if_false]
          exact hf
      have hlast : ExtrusionLoop.last_point?
          { l with paths := push_to_last_path a (p :: rest) } = some a := by
        unfold ExtrusionLoop.last_point?
        simp only [getLast?_push_to_last_path]
        cases hg : (p :: rest).getLast? with
        | none => simp at hg
        | some q => simp
      exact ⟨by rw [hfirst]; rfl, by rw [hfirst, hlast]⟩

theorem island_entities_closed (env : JoinEnv) :
    ∀ (roots : PerimeterGeneratorLoops) (entities : List ExtrusionLoop),
      island_entities env roots = some entities → ∀ l ∈ entities, l.is_closed := by
  intro roots
  induction roots with
  | nil =>
    intro entities h l hl
    simp only [island_entities, Option.some.injEq] at h
    subst h
    simp at hl
  | cons loop rest ih =>
    intro entities h l hl
    simp only [island_entities] at h
    cases hc : close_loop (traverse_and_join_loops env loop loop.polygon.first_point
        env.default_has_to_reverse) with
    | none => simp [hc] at h
    | some extr_loop =>
      simp only [hc] at h
      cases hr : island_entities env rest with
      | none => simp [hr] at h
      | some es =>
        simp only [hr, Option.some.injEq] at h
        subst h
        rcases List.mem_cons.1 hl with rfl | hl'
        · exact close_loop_is_closed _ _ hc
        · exact ih es hr l hl'

theorem width_pass_valid (env : WidthEnv) (role : ExtrusionRole) (line : ThickLine)
    (s : WidthState) (h : s.paths_valid) : (width_pass env role line s).paths_valid := by
  obtain ⟨h1, h2⟩ := h
  unfold width_pass
  simp only
  split
  · exact ⟨h1, h2⟩
  · split
    · exact ⟨h1, h2⟩
    · split
      · exact ⟨h1, Or.inr (by simp)⟩
      · split
        · refine ⟨h1, Or.inr ?_⟩
          simp only [List.length_append, List.length_singleton]
          rcases h2 with h2 | h2
          · rename_i hne _
            simp [h2] at hne
          · omega
        · refine ⟨?_, Or.inl rfl⟩
          intro p hp
          rcases List.mem_append.1 hp with hp | hp
          · exact h1 p hp
          · simp only [List.mem_singleton] at hp
            subst hp
            rcases h2 with h2 | h2
            · rename_i hne _
              simp [h2] at hne
            · exact h2

theorem width_loop_valid (env : WidthEnv) (role : ExtrusionRole) :
    ∀ (fuel : Nat) (s s' : WidthState), width_loop env role fuel s = some s' →
      s.paths_valid → s'.paths_valid := by
  intro fuel
  induction fuel with
  | zero => intro s s' h; simp [width_loop] at h
  | succ fuel ih =>
    intro s s' h hv
    simp only [width_loop] at h
    cases hl : s.lines[s.i]? with
    | none =>
      simp only [hl, Option.some.injEq] at h
      subst h
      exact hv
    | some line =>
      simp only [hl] at h
      exact ih _ _ h (width_pass_valid env role line s hv)

theorem getLastD_mem_cons {α : Type} : ∀ (xs : List α) (x : α), xs.getLastD x ∈ x :: xs := by
  intro xs
  induction xs with
  | nil => intro x; simp
  | cons y ys ih =>
    intro x
    rw [List.getLastD_cons]
    exact List.mem_cons_of_mem _ (ih y)

theorem head?_eq_some_headD {α : Type} (l : List α) (d : α) (h : l ≠ []) :
    l.head? = some (l.headD d) := by
  cases l with
  | nil => exact absurd rfl h
  | cons x xs => rfl

theorem getLast?_eq_some_getLastD {α : Type} (l : List α) (d : α) (h : l ≠ []) :
    l.getLast? = some (l.getLastD d) := by
  cases l with
  | nil => exact absurd rfl h
  | cons x xs => simp [List.getLast?_eq_getLast, List.getLastD]

theorem collect_paths_closed (s : WidthState) (hv : s.paths_valid) (l : ExtrusionLoop)
    (hl : ExtrusionEntity.loop l ∈ collect_paths s) : l.is_closed := by
  obtain ⟨h1, h2⟩ := hv
  unfold collect_paths at hl
  simp only at hl
  generalize hps : (if s.path.polyline.points.length ≥ 2 then s.paths ++ [s.path] else s.paths)
    = paths at hl
  have hall : ∀ p ∈ paths, 2 ≤ p.polyline.points.length := by
    intro p hp
    rw [← hps] at hp
    split at hp
    · rcases List.mem_append.1 hp with hp | hp
      · exact h1 p hp
      · simp only [List.mem_singleton] at hp
        subst hp
        assumption
    · exact h1 p hp
  by_cases he : paths = []
  · simp [he] at hl
  · have hne : paths.isEmpty = false := by simpa [List.isEmpty_iff] using he
    simp only [hne, Bool.false_eq_true, if_false] at hl
    split at hl
    · rename_i heq
      simp only [List.mem_singleton, ExtrusionEntity.loop.injEq] at hl
      subst hl
      have hhead : (paths.headD s.path) ∈ paths := by
        cases paths with
        | nil => exact absurd rfl he
        | cons x xs => simp
      have hlast : (paths.getLastD s.path) ∈ paths := by
        cases paths with
        | nil => exact absurd rfl he
        | cons x xs =>
          rw [List.getLastD_cons]
          exact getLastD_mem_cons xs x
      have hh2 := hall _ hhead
      have hl2 := hall _ hlast
      have hhne : (paths.headD s.path).polyline.points ≠ [] := by
        intro hc; rw [hc] at hh2; simp at hh2
      have hlne : (paths.getLastD s.path).polyline.points ≠ [] := by
        intro hc; rw [hc] at hl2; simp at hl2
      have e1 : ExtrusionLoop.first_point? ⟨paths, ExtrusionLoopRole.elrDefault⟩ =
          some ((paths.headD s.path).polyline.points.headD ⟨0, 0⟩) := by
        unfold ExtrusionLoop.first_point?
        simp only [head?_eq_some_headD paths s.path he, Option.some_bind]
        exact head?_eq_some_headD _ _ hhne
      have e2 : ExtrusionLoop.last_point? ⟨paths, ExtrusionLoopRole.elrDefault⟩ =
          some ((paths.getLastD s.path).polyline.last_point) := by
        unfold ExtrusionLoop.last_point? Polyline.last_point
        simp only [getLast?_eq_some_getLastD paths s.path he, Option.some_bind]
        exact getLast?_eq_some_getLastD _ _ hlne
      exact ⟨by rw [e1]; rfl, by rw [e1, e2, heq]⟩
    · simp at hl

theorem variable_width_closed (env : WidthEnv) (role : ExtrusionRole) (fuel : Nat) :
    ∀ (polylines : List ThickPolyline) (flow : Flow) (coll : List ExtrusionEntity),
      variable_width env role fuel polylines flow = some coll →
      ∀ l, ExtrusionEntity.loop l ∈ coll → l.is_closed := by
  intro polylines
  induction polylines with
  | nil =>
    intro flow coll h l hl
    simp only [variable_width, Option.some.injEq] at h
    subst h
    simp at hl
  | cons p rest ih =>
    intro flow coll h l hl
    simp only [variable_width] at h
    cases hw : width_loop env role fuel
        { lines := env.thicklines p, i := 0, path := ExtrusionPath.of_role role, paths := [],
          flow := flow } with
    | none => simp [hw] at h
    | some s =>
      simp only [hw] at h
      cases hr : variable_width env role fuel rest s.flow with
      | none => simp [hr] at h
      | some c =>
        simp only [hr, Option.some.injEq] at h
        subst h
        rcases List.mem_append.1 hl with hl | hl
        · refine collect_paths_closed s ?_ l hl
          refine width_loop_valid env role fuel _ s hw ⟨?_, Or.inl rfl⟩
          intro q hq
          simp at hq
        · exact ih s.flow c hr l hl

/-- C6. Every loop that `process` appends to `entities` (the joined loop of a root, with
the first point of its first path appended to its last path) is closed, and so is every
`ExtrusionLoop` that `_variable_width` puts into its collection: the first point of the
first path is the last point of the last path. -/
theorem produced_loops_are_closed :
    (∀ (env : JoinEnv) (roots : PerimeterGeneratorLoops) (entities : List ExtrusionLoop),
      island_entities env roots = some entities → ∀ l ∈ entities, l.is_closed) ∧
    (∀ (env : WidthEnv) (role : ExtrusionRole) (fuel : Nat) (polylines : List ThickPolyline)
      (flow : Flow) (coll : List ExtrusionEntity),
      variable_width env role fuel polylines flow = some coll →
      ∀ l, ExtrusionEntity.loop l ∈ coll → l.is_closed) :=
  ⟨fun env roots entities h => island_entities_closed env roots entities h,
   fun env role fuel polylines flow coll h => variable_width_closed env role fuel polylines flow coll h⟩

theorem produced_loops_are_closed_witness :
    (∃ entities, island_entities sample_join_env
        [joined_sample] = some entities ∧
      entities.length = 1 ∧ ∀ l ∈ entities, l.is_closed) ∧
    (∃ coll l, variable_width sample_width_env ExtrusionRole.erGapFill 10 [triangle_centerline]
        ⟨1, 1⟩ = some coll ∧ ExtrusionEntity.loop l ∈ coll ∧ l.is_closed) := by
  have h1 : (island_entities sample_join_env
      [joined_sample]).isSome = true := by
    decide!
  have h2 : (variable_width sample_width_env ExtrusionRole.erGapFill 10 [triangle_centerline]
      ⟨1, 1⟩).isSome = true := by
    decide!
  obtain ⟨entities, he⟩ := Option.isSome_iff_exists.1 h1
  obtain ⟨coll, hc⟩ := Option.isSome_iff_exists.1 h2
  refine ⟨⟨entities, he, ?_, produced_loops_are_closed.1 _ _ _ he⟩, ?_⟩
  · have h3 : (island_entities sample_join_env
        [joined_sample]).map
        List.length = some 1 := by decide!
    rw [he] at h3
    simpa using h3
  · have h4 : (variable_width sample_width_env ExtrusionRole.erGapFill 10 [triangle_centerline]
        ⟨1, 1⟩).map (fun c => c.map (fun e => match e with
          | ExtrusionEntity.loop l => some (l.paths.map (fun p => p.polyline.points))
          | _ => none)) =
        some [some [[⟨0, 0⟩, ⟨100, 0⟩, ⟨0, 100⟩, ⟨0, 0⟩]]] := by decide!
    rw [hc] at h4
    simp only [Option.map_some', Option.some.injEq] at h4
    cases coll with
    | nil => simp at h4
    | cons e es =>
      cases e with
      | loop l => exact ⟨_, l, hc, by simp, produced_loops_are_closed.2 _ _ _ _ _ _ hc l (by simp)⟩
      | path_collection ps ns => simp at h4

/-! ## The final loop of `_traverse_and_join_loops` -/

/-- C10, what the code does. For `joined_sample` the search accepts the child at the
first vertex of the parent, so the node list after splicing is `[n0, n1]`: `n0` keeps the
point `(0, 0)`, `n1` carries the child's joined loop and the rest of the parent. The
final loop reads `myPolylines.front()` in its only pass, and the result is `n0`'s path
followed by `n0`'s path again with `last_point` put in front: neither the child's path
nor `n1`'s own segment is in it. -/
theorem joined_loop_repeats_first_node :
    (join_children sample_join_env joined_sample.children false
      (own_nodes sample_join_env true
        (sample_join_env.split_at_vertex (square 0 100) ⟨0, 0⟩))).map
      (fun n => (n.to_extrude_before.paths.map (fun p => p.polyline.points),
        n.me.polyline.points)) =
      [([], [⟨0, 0⟩]),
       ([[⟨10, 10⟩, ⟨10, 90⟩, ⟨90, 90⟩, ⟨90, 10⟩, ⟨10, 10⟩]],
        [⟨0, 0⟩, ⟨100, 0⟩, ⟨100, 100⟩, ⟨0, 100⟩, ⟨0, 0⟩])] ∧
    (traverse_and_join_loops sample_join_env joined_sample ⟨0, 0⟩ false).paths.map
      (fun p => p.polyline.points) = [[⟨0, 0⟩], [⟨0, 0⟩, ⟨0, 0⟩]] := by
  decide!

/-! ## Step budgets of the row loops, and what the depth loop hands to the tree builder -/

/-- A row loop of the hole pass is over once its budget covers the loops left in the row:
one more step changes nothing. -/
theorem nest_holes_row_budget (contains : Polygon → Point → Bool) (loop_number : Int) (d : Nat) :
    ∀ (fuel i : Nat) (st : LoopLists), (st.holes.getD d []).length - i ≤ fuel →
      nest_holes_row contains loop_number d (fuel + 1) i st =
        nest_holes_row contains loop_number d fuel i st := by
  intro fuel
  induction fuel with
  | zero =>
    intro i st hf
    have h0 : nest_holes_row contains loop_number d 0 i st = st := rfl
    have hi : ¬ i < (st.holes.getD d []).length := by omega
    rw [h0, nest_holes_row, dif_neg hi]
  | succ fuel ih =>
    intro i st hf
    rw [nest_holes_row]
    conv_rhs => rw [nest_holes_row]
    by_cases hi : i < (st.holes.getD d []).length
    · rw [dif_pos hi, dif_pos hi]
      obtain ⟨hA, _⟩ := hole_search_rule contains loop_number st.holes st.contours d
        ((st.holes.getD d [])[i]).polygon.first_point
      cases hs : scan_depths contains st.holes (depths_above loop_number d)
          ((st.holes.getD d [])[i]).polygon.first_point with
      | some tj =>
        obtain ⟨t, j⟩ := tj
        simp only [hs]
        obtain ⟨hdt, _, _⟩ := hA t j hs
        apply ih
        simp only
        rw [getD_erase_eq, getD_attach_ne _ _ _ _ _ (Nat.ne_of_gt hdt),
          List.length_eraseIdx_of_lt hi]
        omega
      | none =>
        simp only [hs]
        cases hs2 : scan_depths contains st.contours (depths_down_from loop_number)
            ((st.holes.getD d [])[i]).polygon.first_point with
        | some tj =>
          obtain ⟨t, j⟩ := tj
          simp only [hs2]
          apply ih
          simp only
          rw [getD_erase_eq, List.length_eraseIdx_of_lt hi]
          omega
        | none =>
          simp only [hs2]
          exact ih (i + 1) st (by omega)
    · rw [dif_neg hi, dif_neg hi]

/-- A row loop of the contour pass is over once its budget covers the loops left in the
row. -/
theorem nest_contours_row_budget (contains : Polygon → Point → Bool) (d : Nat) :
    ∀ (fuel i : Nat) (st : LoopLists), (st.contours.getD d []).length - i ≤ fuel →
      nest_contours_row contains d (fuel + 1) i st = nest_contours_row contains d fuel i st := by
  intro fuel
  induction fuel with
  | zero =>
    intro i st hf
    have h0 : nest_contours_row contains d 0 i st = st := rfl
    have hi : ¬ i < (st.contours.getD d []).length := by omega
    rw [h0, nest_contours_row, dif_neg hi]
  | succ fuel ih =>
    intro i st hf
    rw [nest_contours_row]
    conv_rhs => rw [nest_contours_row]
    by_cases hi : i < (st.contours.getD d []).length
    · rw [dif_pos hi, dif_pos hi]
      obtain ⟨hA, _⟩ := contour_search_rule contains st.contours d
        ((st.contours.getD d [])[i]).polygon.first_point
      cases hs : scan_depths contains st.contours (depths_below d)
          ((st.contours.getD d [])[i]).polygon.first_point with
      | some tj =>
        obtain ⟨t, j⟩ := tj
        simp only [hs]
        obtain ⟨hdt, _, _⟩ := hA t j hs
        apply ih
        simp only
        rw [getD_erase_eq, getD_attach_ne _ _ _ _ _ (Nat.ne_of_lt hdt),
          List.length_eraseIdx_of_lt hi]
        omega
      | none =>
        simp only [hs]
        exact ih (i + 1) st (by omega)
    · rw [dif_neg hi, dif_neg hi]

theorem edges_modify_append_fresh (rows : List PerimeterGeneratorLoops)
    (extra : PerimeterGeneratorLoops) (i : Nat) (hextra : extra.flatMap edges = [])
    (h : rows.flatMap (fun r => r.flatMap edges) = []) :
    (rows.modify (fun row => row ++ extra) i).flatMap (fun r => r.flatMap edges) = [] := by
  by_cases hi : i < rows.length
  · have hp := flatMap_modify_perm (fun r : PerimeterGeneratorLoops => r.flatMap edges)
      (fun row => row ++ extra) rows i hi [] []
      (by simp [hextra])
    rw [List.append_nil, List.append_nil, h] at hp
    exact List.Perm.eq_nil hp
  · rw [List.modify_eq_self (Nat.le_of_not_lt hi)]
    exact h

theorem edges_append_nil_row (rows : List PerimeterGeneratorLoops)
    (h : rows.flatMap (fun r => r.flatMap edges) = []) :
    (rows ++ [[]]).flatMap (fun r => r.flatMap edges) = [] := by
  rw [List.flatMap_append, h]
  rfl

theorem record_loops_fresh (i : Nat) (ov : Bool) (onion : ExPolygons)
    (contours holes : List PerimeterGeneratorLoops)
    (h : (LoopLists.mk contours holes).all_edges = []) :
    (LoopLists.mk (record_loops i ov onion contours holes).1
      (record_loops i ov onion contours holes).2).all_edges = [] := by
  rw [all_edges_eq] at h ⊢
  simp only [List.append_eq_nil] at h ⊢
  rw [record_loops_fst, record_loops_snd]
  refine ⟨edges_modify_append_fresh _ _ _ ?_ h.1, edges_modify_append_fresh _ _ _ ?_ h.2⟩
  · induction onion with
    | nil => rfl
    | cons ex rest ih =>
      simp only [List.map_cons, List.flatMap_cons, ih, List.append_nil]
      simp [edges, edgesList]
  · induction onion with
    | nil => rfl
    | cons ex rest ih =>
      simp only [List.flatMap_cons, List.flatMap_append, ih, List.append_nil]
      induction ex.holes with
      | nil => rfl
      | cons hole hs ih2 =>
        simp only [List.map_cons, List.flatMap_cons, ih2, List.append_nil]
        simp [edges, edgesList]

theorem shell_pass_next_fresh (env : ShellEnv) (i : Nat) (st st' : ShellState)
    (hfresh : (LoopLists.mk st.contours st.holes).all_edges = [])
    (hp : shell_pass env i st = PassEnd.next st') :
    (LoopLists.mk st'.contours st'.holes).all_edges = [] := by
  obtain ⟨c1, c2, c3, c4⟩ := shell_pass_cases env i st
  by_cases he : inset_of_pass env i st = []
  · obtain ⟨s, hs, _⟩ := c1 he
    rw [hs] at hp
    cases hp
  · by_cases hgt : (i : Int) > st.loop_number
    · cases hov : overhang_of_pass env i st with
      | false =>
        obtain ⟨s, hs, _⟩ := c2 he hgt hov
        rw [hs] at hp
        cases hp
      | true =>
        obtain ⟨s, hs, _, s2, s3⟩ := c3 he hgt hov
        rw [hs] at hp
        cases hp
        rw [s2, s3]
        apply record_loops_fresh
        rw [all_edges_eq] at hfresh ⊢
        simp only [List.append_eq_nil] at hfresh ⊢
        exact ⟨edges_append_nil_row _ hfresh.1, edges_append_nil_row _ hfresh.2⟩
    · obtain ⟨s, hs, _, s2, s3⟩ := c4 he hgt
      rw [hs] at hp
      cases hp
      rw [s2, s3]
      exact record_loops_fresh _ _ _ _ _ hfresh

theorem shell_loop_result (env : ShellEnv) (L0 : Int) :
    ∀ (fuel i : Nat) (st st' : ShellState), shell_loop env fuel i st = some st' →
      ShellInv L0 i st → (LoopLists.mk st.contours st.holes).all_edges = [] →
      (∀ d : Nat, ¬ ((d : Int) ≤ st'.loop_number) →
        st'.holes.getD d [] = [] ∧ st'.contours.getD d [] = []) ∧
      (LoopLists.mk st'.contours st'.holes).all_edges = [] := by
  intro fuel
  induction fuel with
  | zero => intro i st st' h; simp [shell_loop] at h
  | succ fuel ih =>
    intro i st st' h hinv hfresh
    simp only [shell_loop] at h
    cases hp : shell_pass env i st with
    | stop s =>
      simp only [hp, Option.some.injEq] at h
      subst h
      obtain ⟨e1, e2, e3⟩ := shell_pass_stop_facts env i st s hp
      have hnum := hinv.number
      refine ⟨?_, by rw [e1, e2]; exact hfresh⟩
      intro d hd
      rw [e1, e2]
      have hid : i ≤ d := by
        rcases e3 with e3 | e3
        · rw [e3.2.1] at hd; omega
        · rw [e3.2.2.2] at hd; omega
      exact ⟨(hinv.deeper_empty d hid).2, (hinv.deeper_empty d hid).1⟩
    | next s =>
      simp only [hp] at h
      exact ih (i + 1) s st' h (shell_pass_next_inv env L0 i st s hinv hp)
        (shell_pass_next_fresh env i st s hfresh hp)

/-- What the depth loop hands to the tree builder: nothing is recorded deeper than the
final `loop_number`, and no recorded loop has a child. -/
theorem generated_lists_fresh (env : ShellEnv) (surface : Surface) (fuel : Nat)
    (st : ShellState) (h : generate_shells env surface fuel = some st) :
    (∀ d : Nat, ¬ ((d : Int) ≤ st.loop_number) →
      st.holes.getD d [] = [] ∧ st.contours.getD d [] = []) ∧
    (LoopLists.mk st.contours st.holes).all_edges = [] := by
  unfold generate_shells at h
  by_cases hL : initial_loop_number env surface ≥ 0
  · rw [if_pos hL] at h
    refine shell_loop_result env _ fuel 0 _ st h (shell_init_inv env surface hL) ?_
    rw [all_edges_eq]
    simp only [shell_init, List.append_eq_nil]
    constructor <;>
    · generalize (initial_loop_number env surface + 1).toNat = n
      induction n with
      | zero => rfl
      | succ n ih => simp [List.replicate_succ, ih]
  · rw [if_neg hL] at h
    cases h

/-! ## Double arithmetic: rounding is monotone -/

theorem round_half_even_bounds (t : ℚ) :
    (round_half_even t = ⌊t⌋ ∧ t - ⌊t⌋ ≤ 1 / 2) ∨
    (round_half_even t = ⌊t⌋ + 1 ∧ 1 / 2 ≤ t - ⌊t⌋) := by
  unfold round_half_even
  by_cases h1 : t - ⌊t⌋ < 1 / 2
  · left
    rw [if_pos h1]
    exact ⟨rfl, le_of_lt h1⟩
  · rw [if_neg h1]
    by_cases h2 : 1 / 2 < t - ⌊t⌋
    · right
      rw [if_pos h2]
      exact ⟨rfl, le_of_lt h2⟩
    · rw [if_neg h2]
      by_cases h3 : ⌊t⌋ % 2 = 0
      · left
        rw [if_pos h3]
        exact ⟨rfl, not_lt.mp h2⟩
      · right
        rw [if_neg h3]
        exact ⟨rfl, not_lt.mp h1⟩

theorem round_half_even_int (m : Int) : round_half_even (m : ℚ) = m := by
  unfold round_half_even
  rw [Int.floor_intCast, sub_self, if_pos (by norm_num)]

theorem round_half_even_mono (t u : ℚ) (h : t ≤ u) : round_half_even t ≤ round_half_even u := by
  have hf : ⌊t⌋ ≤ ⌊u⌋ := Int.floor_mono h
  rcases lt_or_eq_of_le hf with hlt | heq
  · rcases round_half_even_bounds t with ⟨h1, _⟩ | ⟨h1, _⟩ <;>
      rcases round_half_even_bounds u with ⟨h2, _⟩ | ⟨h2, _⟩ <;> omega
  · unfold round_half_even
    rw [← heq]
    by_cases h1 : t - ⌊t⌋ < 1 / 2
    · rw [if_pos h1]
      split
      · exact le_rfl
      · split
        · omega
        · split <;> omega
    · rw [if_neg h1]
      by_cases h2 : 1 / 2 < t - ⌊t⌋
      · rw [if_pos h2, if_neg (by linarith), if_pos (by linarith)]
      · rw [if_neg h2]
        by_cases h3 : u - ⌊t⌋ < 1 / 2
        · exact absurd h3 (by linarith)
        · rw [if_neg h3]
          by_cases h4 : 1 / 2 < u - ⌊t⌋
          · rw [if_pos h4]
            split <;> omega
          · rw [if_neg h4]

theorem pow2_eq (q : Int) : pow2 q = (2 : ℚ) ^ q := by
  unfold pow2
  by_cases h : 0 ≤ q
  · rw [if_pos h]
    obtain ⟨n, rfl⟩ := Int.eq_ofNat_of_zero_le h
    simp
  · rw [if_neg h]
    obtain ⟨n, hn⟩ := Int.exists_eq_neg_ofNat (le_of_lt (not_le.mp h))
    subst hn
    simp

theorem pow2_pos (q : Int) : 0 < pow2 q := by
  rw [pow2_eq]
  positivity

theorem pow2_add (a b : Int) : pow2 (a + b) = pow2 a * pow2 b := by
  simp only [pow2_eq]
  exact zpow_add₀ (by norm_num) a b

theorem pow2_mono (a b : Int) (h : a ≤ b) : pow2 a ≤ pow2 b := by
  simp only [pow2_eq]
  exact zpow_le_zpow_right₀ (by norm_num) h

theorem pow2_nat (n : Nat) : pow2 (n : Int) = (((2 ^ n : Nat) : Int) : ℚ) := by
  rw [pow2_eq]
  simp

theorem log2_loop_spec : ∀ (fuel n : Nat), 1 ≤ n → n ≤ fuel →
    2 ^ log2_loop fuel n ≤ n ∧ n < 2 ^ (log2_loop fuel n + 1) := by
  intro fuel
  induction fuel with
  | zero => intro n h1 h2; omega
  | succ fuel ih =>
    intro n h1 h2
    rw [log2_loop]
    by_cases h : 2 ≤ n
    · rw [if_pos h]
      obtain ⟨ha, hb⟩ := ih (n / 2) (by omega) (by omega)
      rw [pow_succ, pow_succ]
      rw [pow_succ] at hb
      constructor <;> omega
    · rw [if_neg h]
      have : n = 1 := by omega
      subst this
      decide

theorem floor_log2_spec (n : Nat) (h : 1 ≤ n) :
    2 ^ floor_log2 n ≤ n ∧ n < 2 ^ (floor_log2 n + 1) :=
  log2_loop_spec n n h le_rfl

theorem binary_exponent_spec (x : ℚ) (hx : 0 < x) :
    pow2 (binary_exponent x) ≤ x ∧ x < pow2 (binary_exponent x + 1) := by
  have hnum : 0 < x.num := Rat.num_pos.mpr hx
  have hden : 0 < x.den := x.den_pos
  obtain ⟨na, nb⟩ := floor_log2_spec x.num.natAbs (by omega)
  obtain ⟨da, db⟩ := floor_log2_spec x.den (by omega)
  unfold binary_exponent
  generalize floor_log2 x.num.natAbs = a at na nb ⊢
  generalize floor_log2 x.den = b at da db ⊢
  have hxe : x = (x.num.natAbs : ℚ) / (x.den : ℚ) := by
    have h2 : (x.num.natAbs : ℚ) = (x.num : ℚ) := by
      rw [← Int.cast_natCast, Int.natAbs_of_nonneg (le_of_lt hnum)]
    rw [h2]
    exact (Rat.num_div_den x).symm
  have hdq : (0 : ℚ) < (x.den : ℚ) := by exact_mod_cast hden
  have na' : (2 : ℚ) ^ a ≤ (x.num.natAbs : ℚ) := by exact_mod_cast na
  have nb' : (x.num.natAbs : ℚ) < (2 : ℚ) ^ (a + 1) := by exact_mod_cast nb
  have da' : (2 : ℚ) ^ b ≤ (x.den : ℚ) := by exact_mod_cast da
  have db' : (x.den : ℚ) < (2 : ℚ) ^ (b + 1) := by exact_mod_cast db
  have hpa : (0 : ℚ) < (2 : ℚ) ^ a := by positivity
  have hpb : (0 : ℚ) < (2 : ℚ) ^ b := by positivity
  have e1 : pow2 ((a : Int) - (b : Int) + 1) = (2 : ℚ) ^ (a + 1) / (2 : ℚ) ^ b := by
    rw [pow2_eq, show (a : Int) - (b : Int) + 1 = ((a + 1 : Nat) : Int) - (b : Int) from by
      push_cast; ring, zpow_sub₀ (by norm_num), zpow_natCast, zpow_natCast]
  have e2 : pow2 ((a : Int) - (b : Int) - 1) = (2 : ℚ) ^ a / (2 : ℚ) ^ (b + 1) := by
    rw [pow2_eq, show (a : Int) - (b : Int) - 1 = (a : Int) - ((b + 1 : Nat) : Int) from by
      push_cast; ring, zpow_sub₀ (by norm_num), zpow_natCast, zpow_natCast]
  by_cases h : pow2 ((a : Int) - (b : Int)) ≤ x
  · rw [if_pos h]
    refine ⟨h, ?_⟩
    rw [e1, hxe, div_lt_div_iff₀ hdq hpb]
    calc (x.num.natAbs : ℚ) * 2 ^ b ≤ (x.num.natAbs : ℚ) * (x.den : ℚ) := by
          apply mul_le_mul_of_nonneg_left da' (by positivity)
      _ < 2 ^ (a + 1) * (x.den : ℚ) := by
          apply mul_lt_mul_of_pos_right nb' hdq
  · rw [if_neg h]
    rw [show (a : Int) - (b : Int) - 1 + 1 = (a : Int) - (b : Int) from by ring]
    refine ⟨?_, not_le.mp h⟩
    rw [e2, hxe, div_le_div_iff₀ (by positivity) hdq]
    calc (2 : ℚ) ^ a * (x.den : ℚ) ≤ (x.num.natAbs : ℚ) * (x.den : ℚ) := by
          apply mul_le_mul_of_nonneg_right na' (le_of_lt hdq)
      _ ≤ (x.num.natAbs : ℚ) * 2 ^ (b + 1) := by
          apply mul_le_mul_of_nonneg_left (le_of_lt db') (by positivity)

theorem binary_exponent_mono (x y : ℚ) (hx : 0 < x) (h : x ≤ y) :
    binary_exponent x ≤ binary_exponent y := by
  by_contra hc
  have h1 := (binary_exponent_spec x hx).1
  have h2 := (binary_exponent_spec y (lt_of_lt_of_le hx h)).2
  have h3 := pow2_mono (binary_exponent y + 1) (binary_exponent x) (by omega)
  linarith

/-- On one grid `2^q`, rounding is monotone. -/
theorem grid_mono (q : Int) (x y : ℚ) (h : x ≤ y) :
    (round_half_even (x / pow2 q) : ℚ) * pow2 q ≤ (round_half_even (y / pow2 q) : ℚ) * pow2 q := by
  apply mul_le_mul_of_nonneg_right _ (le_of_lt (pow2_pos q))
  have := round_half_even_mono (x / pow2 q) (y / pow2 q)
    (div_le_div_of_nonneg_right h (le_of_lt (pow2_pos q)))
  exact_mod_cast this

/-- A power of two that is not below the grid step lies on the grid. -/
theorem grid_fix (q k : Int) (h : q ≤ k) :
    (round_half_even (pow2 k / pow2 q) : ℚ) * pow2 q = pow2 k := by
  obtain ⟨n, hn⟩ := Int.eq_ofNat_of_zero_le (show 0 ≤ k - q by omega)
  have e : pow2 k = pow2 (n : Int) * pow2 q := by
    rw [← pow2_add, ← hn]
    congr 1
    ring
  rw [e, mul_div_assoc, div_self (ne_of_gt (pow2_pos q)), mul_one, pow2_nat,
    round_half_even_int]

theorem round_magnitude_zero : round_magnitude 0 = 0 := by decide!

theorem round_magnitude_nonneg (x : ℚ) (hx : 0 ≤ x) : 0 ≤ round_magnitude x := by
  unfold round_magnitude
  apply le_min _ (le_of_lt (pow2_pos _))
  apply mul_nonneg _ (le_of_lt (pow2_pos _))
  have h := round_half_even_mono 0 (x / pow2 (last_place x))
    (div_nonneg hx (le_of_lt (pow2_pos _)))
  have h0 : round_half_even 0 = 0 := by decide!
  rw [h0] at h
  exact_mod_cast h

theorem round_magnitude_mono (x y : ℚ) (hx : 0 ≤ x) (h : x ≤ y) :
    round_magnitude x ≤ round_magnitude y := by
  rcases eq_or_lt_of_le hx with h0 | hpos
  · rw [← h0, round_magnitude_zero]
    exact round_magnitude_nonneg y (le_trans hx h)
  · have hy : 0 < y := lt_of_lt_of_le hpos h
    have he := binary_exponent_mono x y hpos h
    unfold round_magnitude
    apply min_le_min _ le_rfl
    by_cases hq : last_place x = last_place y
    · rw [hq]
      exact grid_mono _ x y h
    · have hlt : last_place x < last_place y := by
        unfold last_place at hq ⊢
        omega
      have hqy : last_place y = binary_exponent y - 52 := by
        unfold last_place at hlt ⊢
        omega
      have hex : binary_exponent x + 1 ≤ binary_exponent y := by
        unfold last_place at hlt
        omega
      have hxB : x ≤ pow2 (binary_exponent y) :=
        le_trans (le_of_lt (binary_exponent_spec x hpos).2) (pow2_mono _ _ hex)
      have hBy : pow2 (binary_exponent y) ≤ y := (binary_exponent_spec y hy).1
      calc (round_half_even (x / pow2 (last_place x)) : ℚ) * pow2 (last_place x)
          ≤ (round_half_even (pow2 (binary_exponent y) / pow2 (last_place x)) : ℚ)
              * pow2 (last_place x) := grid_mono _ _ _ hxB
        _ = pow2 (binary_exponent y) := grid_fix _ _ (by unfold last_place at hlt ⊢; omega)
        _ = (round_half_even (pow2 (binary_exponent y) / pow2 (last_place y)) : ℚ)
              * pow2 (last_place y) := (grid_fix _ _ (by omega)).symm
        _ ≤ (round_half_even (y / pow2 (last_place y)) : ℚ) * pow2 (last_place y) :=
            grid_mono _ _ _ hBy

/-- Rounding to the nearest double is monotone. -/
theorem round_double_mono (x y : ℚ) (h : x ≤ y) : round_double x ≤ round_double y := by
  unfold round_double
  by_cases hx : 0 ≤ x
  · rw [if_pos hx, if_pos (le_trans hx h)]
    exact round_magnitude_mono x y hx h
  · rw [if_neg hx]
    by_cases hy : 0 ≤ y
    · rw [if_pos hy]
      have h1 := round_magnitude_nonneg (-x) (by linarith)
      have h2 := round_magnitude_nonneg y hy
      linarith
    · rw [if_neg hy]
      have := round_magnitude_mono (-y) (-x) (by linarith) (by linarith)
      linarith

theorem pow2_strict_mono (a b : Int) (h : a < b) : pow2 a < pow2 b := by
  simp only [pow2_eq]
  exact zpow_lt_zpow_right₀ (by norm_num) h

theorem pow2_le_iff (a b : Int) (h : pow2 a ≤ pow2 b) : a ≤ b := by
  by_contra hc
  have := pow2_strict_mono b a (by omega)
  linarith

/-- The threshold of the search is the truncated rounded product: for a perimeter width
of 100 it is 409 where `4.1 * 100` is 410, so that a child whose nearest vertex is 409
units away from the nearest parent vertex is passed over, and one that is 408 units away
is spliced in. -/
theorem splice_threshold_is_rounded :
    splice_threshold wide_join_env = 409 ∧
    double_mul (round_double 100) (round_double (41 / 10)) < 410 ∧
    (find_splice wide_join_env ⟨[⟨409, 0⟩, ⟨500, 0⟩, ⟨500, 100⟩, ⟨409, 100⟩]⟩
      wide_pieces).found = none ∧
    (find_splice wide_join_env ⟨[⟨408, 0⟩, ⟨500, 0⟩, ⟨500, 100⟩, ⟨408, 100⟩]⟩
      wide_pieces).found = some (0, 0, 0) := by
  decide!

theorem scanned_before_succ_piece {i j i' : Nat} (h : scanned_before i j i' 0 ∨ i = i') :
    scanned_before i j (i' + 1) 0 := by
  unfold scanned_before at *
  omega

theorem axis_length_nonneg : ∀ l : List Point, 0 ≤ axis_length l
  | [] => by simp [axis_length]
  | [_] => by simp [axis_length]
  | a :: b :: rest => by
    rw [axis_length]
    have h1 := axis_length_nonneg (b :: rest)
    have h2 : (0 : ℚ) ≤ ((|b.x - a.x| + |b.y - a.y| : Int) : ℚ) := by
      exact_mod_cast add_nonneg (abs_nonneg _) (abs_nonneg _)
    linarith

/-- C16, what the code does. On a straight centerline of constant width 0.4 mm the
running path is compared through `scale_(flow.width)`, which holds the width with
`height * (1 - 0.25 * PI)` added, against the plain width of the next line. At layer
height 0.2 mm the difference is 42920 scaled units, above `tolerance / 2 = 25000`: the
second segment starts a path of its own. At layer height 0.1 mm the difference is 21460
and the two segments form one path. -/
theorem constant_width_centerline_is_split :
    (variable_width metric_width_env ExtrusionRole.erGapFill 8 [straight_centerline]
        ⟨45 / 100, 2 / 10⟩).map (fun coll => coll.map ExtrusionEntity.path_points)
      = some [[[⟨0, 0⟩, ⟨1000000, 0⟩], [⟨1000000, 0⟩, ⟨2000000, 0⟩]]] ∧
    (variable_width metric_width_env ExtrusionRole.erGapFill 8 [straight_centerline]
        ⟨45 / 100, 1 / 10⟩).map (fun coll => coll.map ExtrusionEntity.path_points)
      = some [[[⟨0, 0⟩, ⟨1000000, 0⟩, ⟨2000000, 0⟩]]] := by
  decide!

/-! ## The entities of `_variable_width` -/

theorem collect_paths_eq_polyline_entity (s : WidthState) :
    collect_paths s = polyline_entity s.final_paths := by
  unfold collect_paths WidthState.final_paths
  simp only
  generalize (if s.path.polyline.points.length ≥ 2 then s.paths ++ [s.path] else s.paths)
    = paths
  cases paths with
  | nil => rfl
  | cons first rest =>
    simp only [List.isEmpty_cons, Bool.false_eq_true, if_false, List.headD_cons, polyline_entity]
    have e : (first :: rest).getLastD s.path = (first :: rest).getLastD first := by
      cases rest with
      | nil => rfl
      | cons b bs => simp [List.getLastD]
    rw [e]

/-! ## The second try of the thin-wall inset -/

/-- C19, as the claim states it, fails. With a baseline of 1 piece, a first try of 11
pieces and a second try of 7, the retry is made (11 > 3 * 1) and the second try is the
closer one (6 from the baseline against 10), and yet the first try is kept. -/
theorem closer_second_try_is_dropped :
    (no_thin_try fragmenting_env [⟨square 0 70, []⟩]).length = 1 ∧
    (first_try fragmenting_env [⟨square 0 70, []⟩]).length = 11 ∧
    (second_try fragmenting_env [⟨square 0 70, []⟩]).length = 7 ∧
    thin_wall_onion fragmenting_env [⟨square 0 70, []⟩]
      = first_try fragmenting_env [⟨square 0 70, []⟩] ∧
    thin_wall_onion fragmenting_env [⟨square 0 70, []⟩]
      ≠ second_try fragmenting_env [⟨square 0 70, []⟩] := by
  decide!

/-- C19, amended. The thin-aware inset at depth 0 is the second try exactly when the
no-thin result is non-empty, the first try has more than 3 times as many pieces, and the
piece count of the first try is more than twice as far from the no-thin count as that of
the second try; in every other case it is the first try. -/
theorem second_try_kept_when_twice_closer (env : ShellEnv) (last : ExPolygons) :
    thin_wall_onion env last =
      if 0 < (no_thin_try env last).length ∧
          3 * (no_thin_try env last).length < (first_try env last).length ∧
          2 * |((second_try env last).length : Int) - ((no_thin_try env last).length : Int)|
            < |((first_try env last).length : Int) - ((no_thin_try env last).length : Int)|
      then second_try env last else first_try env last := by
  unfold thin_wall_onion first_try no_thin_try second_try
  simp only [gt_iff_lt, Bool.and_eq_true, decide_eq_true_eq, Int.abs_eq_natAbs]
  by_cases h1 : 0 < (env.engine.offset_ex last
      (-((env.widths.ext_perimeter_width.tdiv 2 : Int) : ℚ))).length ∧
      3 * (env.engine.offset_ex last
        (-((env.widths.ext_perimeter_width.tdiv 2 : Int) : ℚ))).length
      < (env.engine.offset2_ex last
        (-((env.widths.ext_perimeter_width.tdiv 2 + env.widths.ext_min_spacing.tdiv 2 - 1
          : Int) : ℚ))
        ((env.widths.ext_min_spacing.tdiv 2 - 1 : Int) : ℚ)).length
  · rw [if_pos h1]
    split
    · next h2 =>
      rw [if_pos ⟨h1.1, h1.2, by exact_mod_cast h2⟩]
    · next h2 =>
      rw [if_neg]
      rintro ⟨_, _, h3⟩
      exact h2 (by exact_mod_cast h3)
  · rw [if_neg h1, if_neg]
    rintro ⟨h2, h3, _⟩
    exact h1 ⟨h2, h3⟩

/-! ## The unsupported part of a region -/

/-- C20. With an exact difference (the region of `diff_ex(a, b)` is the region of `a`
without that of `b`) that returns no polygon for an empty region, the unsupported part of
the supported part of any region over any lower layer is empty; the overhang test finds
no overhang on the supported part, and the diversion of unsupported areas leaves it as it
is. -/
theorem unsupported_of_supported_is_empty {α : Type} (covers : ExPolygons → Set α)
    (env : ShellEnv) (last lower : ExPolygons)
    (hexact : ∀ a b s, covers (env.engine.diff_ex a b s) = covers a \ covers b)
    (hnormal : ∀ a b s, covers (env.engine.diff_ex a b s) = ∅ → env.engine.diff_ex a b s = [])
    (hlower : env.lower_slices = some lower) :
    unsupported_of env.engine (supported_of env.engine last lower) lower = [] ∧
    detect_overhang env (supported_of env.engine last lower) = false ∧
    ∀ i, divert_unsupported env i (supported_of env.engine last lower)
      = (supported_of env.engine last lower, []) := by
  have h : env.engine.diff_ex (supported_of env.engine last lower) lower true = [] := by
    apply hnormal
    unfold supported_of unsupported_of
    rw [hexact, hexact, hexact]
    ext x
    simp only [Set.mem_diff, Set.mem_empty_iff_false, iff_false, not_and, not_not]
    tauto
  refine ⟨h, ?_, ?_⟩
  · unfold detect_overhang
    simp only [hlower, h, List.isEmpty_nil, Bool.not_true, Bool.false_eq_true, if_false,
      ite_self]
  · intro i
    unfold divert_unsupported
    simp only [hlower, h, List.isEmpty_nil, Bool.not_true, Bool.false_eq_true, if_false,
      ite_self]

theorem unsupported_of_supported_is_empty_witness :
    unsupported_of piecewise_engine
      (supported_of piecewise_engine [⟨square 0 70, []⟩, ⟨square 100 170, []⟩]
        [⟨square 0 70, []⟩]) [⟨square 0 70, []⟩] = [] ∧
    detect_overhang piecewise_env
      (supported_of piecewise_engine [⟨square 0 70, []⟩, ⟨square 100 170, []⟩]
        [⟨square 0 70, []⟩]) = false :=
  have h := unsupported_of_supported_is_empty (fun a => {ex | ex ∈ a}) piecewise_env
    [⟨square 0 70, []⟩, ⟨square 100 170, []⟩] [⟨square 0 70, []⟩]
    (by
      intro a b s
      ext x
      simp [piecewise_env, piecewise_engine])
    (by
      intro a b s hempty
      apply List.eq_nil_iff_forall_not_mem.mpr
      intro x hx
      have hmem : x ∈ ({ex | ex ∈ piecewise_env.engine.diff_ex a b s} : Set ExPolygon) := hx
      have hempty' : ({ex | ex ∈ piecewise_env.engine.diff_ex a b s} : Set ExPolygon) = ∅ :=
        hempty
      rw [hempty'] at hmem
      exact hmem)
    rfl
  ⟨h.1, h.2.1⟩

/-! ## Gap fill -/

/-- The bound of line 495 is the rounded product, which can lie below the product
itself: with a perimeter width of 300007 and a spacing of 350000 the product of
`0.2 * 300007 * 0.6` and `2 * 350000` is 25200588000, the double that the code compares
with is `25200587999.999996`, and a fragment of area 25200588000 gets its medial
axis. -/
theorem gap_threshold_is_rounded :
    fine_gap_env.min_max = 6606182940671999 / 262144 ∧
    fine_gap_env.min_max < (2 / 10 * 300007 * (1 - 4 / 10)) * (2 * 350000) ∧
    gap_polylines fine_gap_env
        [⟨⟨[⟨0, 0⟩, ⟨25200588000, 0⟩, ⟨25200588000, 1⟩, ⟨0, 1⟩]⟩, []⟩]
      = [{ points := [⟨0, 0⟩, ⟨25200588000, 1⟩], width := [25200588000, 25200588000] }] := by
  decide!

theorem traverse_pass_append (env : TraverseEnv) (loops : PerimeterGeneratorLoops)
    (children_of : List (List ExtrusionEntity)) (coll entities : List ExtrusionEntity)
    (item : Nat × ExtrusionEntity) :
    traverse_pass env loops children_of coll entities item =
      entities ++ traverse_pass env loops children_of coll [] item := by
  unfold traverse_pass
  split
  · simp
  · split
    · split <;> simp
    · simp

theorem foldl_traverse_pass (env : TraverseEnv) (loops : PerimeterGeneratorLoops)
    (children_of : List (List ExtrusionEntity)) (coll : List ExtrusionEntity)
    (items : List (Nat × ExtrusionEntity)) :
    ∀ entities, items.foldl (traverse_pass env loops children_of coll) entities =
      entities ++ items.flatMap (traverse_pass env loops children_of coll []) := by
  induction items with
  | nil => intro entities; simp
  | cons item rest ih =>
    intro entities
    rw [List.foldl_cons, ih, traverse_pass_append, List.flatMap_cons, List.append_assoc]

theorem children_entities_eq_map (env : TraverseEnv) (loops : List PerimeterGeneratorLoop) :
    children_entities env loops = loops.map (traverse_children env) := by
  induction loops with
  | nil => rw [children_entities]; rfl
  | cons loop rest ih => rw [children_entities, ih]; rfl

theorem traverse_children_eq (env : TraverseEnv) (loop : PerimeterGeneratorLoop) :
    traverse_children env loop =
      traverse_body env loop.children (children_entities env loop.children) [] := by
  cases loop with
  | mk p d c o ch => rw [traverse_children]; rfl

theorem collection_getElem? (env : TraverseEnv) (loops : PerimeterGeneratorLoops)
    (thin_walls : List ExtrusionEntity) (idx : Nat) (loop : PerimeterGeneratorLoop)
    (hl : loops[idx]? = some loop) :
    (collection env loops thin_walls)[idx]? = some (ExtrusionEntity.loop (loop_entity env loop)) := by
  have hlt : idx < loops.length := by
    by_contra hc
    rw [List.getElem?_eq_none (by omega)] at hl
    cases hl
  unfold collection
  rw [List.getElem?_append_left (by simpa using hlt), List.getElem?_map, hl]
  rfl

/-- What a pass on the index of a loop appends: the loop as built for it, wound as the
source winds it, with the entities of its children before it (contour) or after it
(hole). -/
theorem traverse_pass_loop (env : TraverseEnv) (loops : PerimeterGeneratorLoops)
    (children_of : List (List ExtrusionEntity)) (thin_walls entities : List ExtrusionEntity)
    (idx : Nat) (e : ExtrusionEntity) (loop : PerimeterGeneratorLoop)
    (hl : loops[idx]? = some loop) :
    traverse_pass env loops children_of (collection env loops thin_walls) entities (idx, e) =
      entities ++ emission_order loop.is_contour
        (ExtrusionEntity.loop
          (if loop.is_contour then
            (if loop.is_overhang && env.join.layer_id.tmod 2 == 1 then
              env.make_clockwise (loop_entity env loop)
            else env.make_counter_clockwise (loop_entity env loop))
          else env.make_clockwise (loop_entity env loop)))
        (children_of.getD idx []) := by
  have hlt : idx < loops.length := by
    by_contra hc
    rw [List.getElem?_eq_none (by omega)] at hl
    cases hl
  unfold traverse_pass
  simp only [ge_iff_le, not_le.mpr hlt, if_false, hl,
    collection_getElem? env loops thin_walls idx loop hl, emission_order]
  by_cases hc : loop.is_contour = true
  · simp only [hc, if_true, List.append_assoc]
  · simp only [hc, if_false, Bool.false_eq_true, List.append_assoc, List.singleton_append]

/-- C13. The entities that `_traverse_loops` returns are, in the order of the sorted
collection, one block per entry: a thin wall is its sorted entity; a contour is the
entities of `_traverse_loops` on its children followed by its own loop; a hole is its own
loop followed by the entities of `_traverse_loops` on its children. -/
theorem children_before_contour_after_hole (env : TraverseEnv) (fuel : Nat)
    (loops : PerimeterGeneratorLoops) (thin_walls : ThickPolylines) :
    traverse_loops env fuel loops thin_walls =
      (thin_wall_entities env fuel thin_walls).map (fun tw =>
        (env.chained_path (collection env loops tw)).flatMap (fun item =>
          if loops.length ≤ item.1 then [item.2]
          else match loops[item.1]? with
            | none => []
            | some loop =>
              emission_order loop.is_contour
                (ExtrusionEntity.loop
                  (if loop.is_contour then
                    (if loop.is_overhang && env.join.layer_id.tmod 2 == 1 then
                      env.make_clockwise (loop_entity env loop)
                    else env.make_counter_clockwise (loop_entity env loop))
                  else env.make_clockwise (loop_entity env loop)))
                (traverse_children env loop))) ∧
    (∀ loop : PerimeterGeneratorLoop,
      traverse_loops env fuel loop.children [] = some (traverse_children env loop)) ∧
    ∀ (own : ExtrusionEntity) (children : List ExtrusionEntity),
      emission_order true own children = children ++ [own] ∧
      emission_order false own children = own :: children := by
  refine ⟨?_, ?_, fun _ _ => ⟨rfl, rfl⟩⟩
  · unfold traverse_loops
    cases thin_wall_entities env fuel thin_walls with
    | none => rfl
    | some tw =>
      simp only [Option.map_some', Option.some.injEq]
      unfold traverse_body
      simp only
      rw [foldl_traverse_pass, List.nil_append]
      apply List.flatMap_congr
      intro item _
      by_cases hge : loops.length ≤ item.1
      · simp only [hge, if_true]
        unfold traverse_pass
        simp only [ge_iff_le, hge, if_true, List.nil_append]
      · simp only [hge, if_false]
        have hlt : item.1 < loops.length := by omega
        have hl : loops[item.1]? = some loops[item.1] := List.getElem?_eq_getElem hlt
        have hp := traverse_pass_loop env loops (children_entities env loops) tw [] item.1
          item.2 loops[item.1] hl
        rw [List.nil_append] at hp
        rw [show (item.1, item.2) = item from rfl] at hp
        rw [hp, hl]
        simp only
        rw [children_entities_eq_map, List.getD_eq_getElem?_getD, List.getElem?_map, hl]
        rfl
  · intro loop
    unfold traverse_loops thin_wall_entities
    simp only [List.isEmpty_nil, Bool.not_true, Bool.false_eq_true, if_false]
    rw [traverse_children_eq]

/-- C14. On a layer with `layer_id >= 0`, the loop that a pass appends for a loop of the
tree is the loop as built for it, wound by the design's rule of `is_contour`,
`is_overhang` and the parity of `layer_id`: clockwise for a hole, counter-clockwise for a
contour, but clockwise for an overhang contour on an odd layer. -/
theorem winding_follows_rule (env : TraverseEnv) (loops : PerimeterGeneratorLoops)
    (children_of : List (List ExtrusionEntity)) (thin_walls entities : List ExtrusionEntity)
    (idx : Nat) (e : ExtrusionEntity) (loop : PerimeterGeneratorLoop)
    (hlayer : 0 ≤ env.join.layer_id) (hl : loops[idx]? = some loop) :
    traverse_pass env loops children_of (collection env loops thin_walls) entities (idx, e) =
      entities ++ emission_order loop.is_contour
        (ExtrusionEntity.loop
          (env.with_winding
            (winding_rule loop.is_contour loop.is_overhang (decide (env.join.layer_id % 2 = 1)))
            (loop_entity env loop)))
        (children_of.getD idx []) := by
  rw [traverse_pass_loop env loops children_of thin_walls entities idx e loop hl]
  have hmod : env.join.layer_id.tmod 2 = env.join.layer_id % 2 :=
    Int.tmod_eq_emod hlayer (by decide)
  rw [hmod]
  unfold winding_rule
  by_cases hc : loop.is_contour = true
  · by_cases ho : loop.is_overhang = true
    · by_cases hodd : env.join.layer_id % 2 = 1
      · simp [hc, ho, hodd, TraverseEnv.with_winding]
      · simp [hc, ho, hodd, TraverseEnv.with_winding]
    · simp [hc, ho, TraverseEnv.with_winding]
  · simp [hc, TraverseEnv.with_winding]

theorem winding_follows_rule_witness :
    traverse_pass sample_traverse_env [overhang_tree]
        (children_entities sample_traverse_env [overhang_tree])
        (collection sample_traverse_env [overhang_tree] []) []
        (0, ExtrusionEntity.loop (loop_entity sample_traverse_env overhang_tree)) =
      [] ++ emission_order overhang_tree.is_contour
        (ExtrusionEntity.loop
          (sample_traverse_env.with_winding
            (winding_rule overhang_tree.is_contour overhang_tree.is_overhang
              (decide (sample_traverse_env.join.layer_id % 2 = 1)))
            (loop_entity sample_traverse_env overhang_tree)))
        ((children_entities sample_traverse_env [overhang_tree]).getD 0 []) :=
  winding_follows_rule sample_traverse_env [overhang_tree]
    (children_entities sample_traverse_env [overhang_tree]) [] []
    0 (ExtrusionEntity.loop (loop_entity sample_traverse_env overhang_tree)) overhang_tree
    (by decide) rfl

/-- The sample tree on layer 1: the hole of the inner contour, the inner contour
(counter-clockwise), the hole of the outer contour, and last the outer overhang contour,
clockwise. Both holes are clockwise. -/
theorem traverse_sample_order :
    (traverse_loops sample_traverse_env 8 [overhang_tree] []).map
      (fun c => c.map ExtrusionEntity.path_points) =
    some [[[⟨40, 40⟩, ⟨40, 50⟩, ⟨50, 50⟩, ⟨50, 40⟩, ⟨40, 40⟩]],
          [[⟨10, 10⟩, ⟨90, 10⟩, ⟨90, 90⟩, ⟨10, 90⟩, ⟨10, 10⟩]],
          [[⟨60, 60⟩, ⟨60, 70⟩, ⟨70, 70⟩, ⟨70, 60⟩, ⟨60, 60⟩]],
          [[⟨0, 0⟩, ⟨0, 100⟩, ⟨100, 100⟩, ⟨100, 0⟩, ⟨0, 0⟩]]] := by
  decide!

/-! ## The segment loop of `_variable_width` ends -/

theorem line_cost_pos (env : WidthEnv) (rounds : Nat) (line : ThickLine) :
    1 ≤ line_cost env rounds line := by
  cases rounds with
  | zero =>
    unfold line_cost
    split <;> omega
  | succ k =>
    unfold line_cost
    split
    · exact le_rfl
    · split <;> omega

theorem lines_cost_cons (env : WidthEnv) (rounds : Nat) (line : ThickLine)
    (rest : List ThickLine) :
    lines_cost env rounds (line :: rest)
      = line_cost env rounds line + lines_cost env rounds rest := by
  simp [lines_cost]

theorem lines_cost_append (env : WidthEnv) (rounds : Nat) (a b : List ThickLine) :
    lines_cost env rounds (a ++ b) = lines_cost env rounds a + lines_cost env rounds b := by
  simp [lines_cost]

/-- A line that is done with after `rounds` rounds is done with after one round more,
and the bound on its passes is the same. -/
theorem tame_succ (env : WidthEnv) : ∀ (rounds : Nat) (line : ThickLine),
    tame env rounds line = true →
    tame env (rounds + 1) line = true ∧
      line_cost env (rounds + 1) line = line_cost env rounds line := by
  intro rounds
  induction rounds with
  | zero =>
    intro line h
    unfold tame at h
    simp only [Bool.or_eq_true, decide_eq_true_eq] at h
    constructor
    · unfold tame
      simp only [Bool.or_eq_true, decide_eq_true_eq]
      exact Or.inl h
    · unfold line_cost
      rcases h with h | h
      · rw [if_pos h, if_pos h]
      · by_cases hs : env.line_length line < env.scaled_epsilon
        · rw [if_pos hs, if_pos hs]
        · rw [if_neg hs, if_neg hs, if_neg (not_lt.mpr h)]
  | succ k ih =>
    intro line h
    unfold tame at h
    simp only [Bool.or_eq_true, decide_eq_true_eq, List.all_eq_true] at h
    constructor
    · rw [tame]
      simp only [Bool.or_eq_true, decide_eq_true_eq, List.all_eq_true]
      rcases h with h | h
      · exact Or.inl h
      · exact Or.inr (fun l hl => (ih l (h l hl)).1)
    · rw [line_cost, line_cost]
      by_cases hs : env.line_length line < env.scaled_epsilon
      · rw [if_pos hs, if_pos hs]
      · rw [if_neg hs, if_neg hs]
        by_cases hd : thickness_delta line > env.tolerance
        · rw [if_pos hd, if_pos hd]
          rcases h with (h | h) | h
          · exact absurd h hs
          · exact absurd hd (not_lt.mpr h)
          · congr 2
            apply List.map_congr_left
            intro l hl
            exact (ih l (h l hl)).2
        · rw [if_neg hd, if_neg hd]

theorem lines_cost_succ (env : WidthEnv) (rounds : Nat) (lines : List ThickLine)
    (h : ∀ l ∈ lines, tame env rounds l = true) :
    lines_cost env (rounds + 1) lines = lines_cost env rounds lines := by
  unfold lines_cost
  congr 1
  apply List.map_congr_left
  intro l hl
  exact (tame_succ env rounds l (h l hl)).2

/-- A line that is neither passed over nor flat and is done with after `rounds` rounds:
there is a round left, its parts are done with one round earlier, and its bound is one
more than the bound of its parts. -/
theorem tame_steep (env : WidthEnv) (rounds : Nat) (line : ThickLine)
    (h : tame env rounds line = true)
    (hlong : ¬ env.line_length line < env.scaled_epsilon)
    (hsteep : env.tolerance < thickness_delta line) :
    1 ≤ rounds ∧
    (∀ l ∈ subdivision_lines env line (width_segments env (thickness_delta line)),
      tame env (rounds - 1) l = true ∧ tame env rounds l = true) ∧
    line_cost env rounds line
      = 1 + lines_cost env rounds
          (subdivision_lines env line (width_segments env (thickness_delta line))) := by
  cases rounds with
  | zero =>
    unfold tame at h
    simp only [Bool.or_eq_true, decide_eq_true_eq] at h
    rcases h with h | h
    · exact absurd h hlong
    · exact absurd hsteep (not_lt.mpr h)
  | succ k =>
    unfold tame at h
    simp only [Bool.or_eq_true, decide_eq_true_eq, List.all_eq_true] at h
    rcases h with (h | h) | h
    · exact absurd h hlong
    · exact absurd hsteep (not_lt.mpr h)
    · refine ⟨by omega, fun l hl => ⟨h l hl, (tame_succ env k l (h l hl)).1⟩, ?_⟩
      rw [lines_cost_succ env k _ h, line_cost, if_neg hlong, if_pos hsteep]
      rfl

/-- A pass of the segment loop on tame lines uses up at least one unit of the budget and
leaves tame lines. -/
theorem width_pass_budget (env : WidthEnv) (role : ExtrusionRole) (rounds : Nat)
    (line : ThickLine) (s : WidthState)
    (hline : s.lines[s.i]? = some line)
    (htame : ∀ l ∈ s.lines.drop s.i, tame env rounds l = true) :
    (width_pass env role line s).budget env rounds + 1 ≤ s.budget env rounds ∧
    ∀ l ∈ (width_pass env role line s).lines.drop (width_pass env role line s).i,
      tame env rounds l = true := by
  have hi : s.i < s.lines.length := by
    by_contra hc
    rw [List.getElem?_eq_none (by omega)] at hline
    cases hline
  have hline' : s.lines[s.i] = line := by
    rw [List.getElem?_eq_getElem hi] at hline
    injection hline
  have hdrop : s.lines.drop s.i = line :: s.lines.drop (s.i + 1) := by
    rw [List.drop_eq_getElem_cons hi, hline']
  have hrest : ∀ l ∈ s.lines.drop (s.i + 1), tame env rounds l = true := by
    intro l hl
    apply htame
    rw [hdrop]
    exact List.mem_cons_of_mem _ hl
  have hcost : lines_cost env rounds (s.lines.drop s.i)
      = line_cost env rounds line + lines_cost env rounds (s.lines.drop (s.i + 1)) := by
    rw [hdrop, lines_cost_cons]
  have hpos := line_cost_pos env rounds line
  unfold WidthState.budget
  rw [hcost]
  unfold width_pass
  simp only
  by_cases hshort : env.line_length line < env.scaled_epsilon
  · simp only [if_pos hshort]
    refine ⟨?_, hrest⟩
    omega
  · simp only [if_neg hshort]
    by_cases hsteep : thickness_delta line > env.tolerance
    · simp only [if_pos hsteep]
      have ht : tame env rounds line = true :=
        htame line (by rw [hdrop]; exact List.mem_cons_self _ _)
      obtain ⟨_, hparts, hc⟩ := tame_steep env rounds line ht hshort hsteep
      have hsub : (s.lines.take s.i ++ subdivision_lines env line
            (width_segments env (thickness_delta line))
            ++ s.lines.drop (s.i + 1)).drop s.i
          = subdivision_lines env line (width_segments env (thickness_delta line))
            ++ s.lines.drop (s.i + 1) := by
        rw [List.append_assoc]
        exact List.drop_left' (by rw [List.length_take]; omega)
      rw [hsub]
      constructor
      · rw [lines_cost_append, hc]
        omega
      · intro l hl
        rcases List.mem_append.mp hl with h | h
        · exact (hparts l h).2
        · exact hrest l h
    · simp only [if_neg hsteep]
      have h2 : line_cost env rounds line ≤ 2 ∧ 2 ≤ line_cost env rounds line := by
        cases rounds with
        | zero =>
          unfold line_cost
          rw [if_neg hshort]
          omega
        | succ k =>
          unfold line_cost
          rw [if_neg hshort, if_neg hsteep]
          omega
      by_cases hempty : s.path.polyline.points.isEmpty = true
      · simp only [hempty, if_true]
        refine ⟨?_, hrest⟩
        simp only [List.isEmpty_cons, Bool.false_eq_true, if_false]
        omega
      · simp only [hempty, if_false, Bool.false_eq_true]
        split
        · refine ⟨?_, hrest⟩
          have : (s.path.polyline.points ++ [line.b]).isEmpty = false := by
            cases s.path.polyline.points <;> rfl
          simp only [this, Bool.false_eq_true, if_false]
          omega
        · refine ⟨?_, htame⟩
          rw [hcost]
          simp only [ExtrusionPath.of_role, List.isEmpty_nil, if_true]
          omega

/-- With a budget above the bound, the segment loop on tame lines ends and returns its
state. -/
theorem width_loop_returns (env : WidthEnv) (role : ExtrusionRole) (rounds : Nat) :
    ∀ (fuel : Nat) (s : WidthState), s.budget env rounds < fuel →
      (∀ l ∈ s.lines.drop s.i, tame env rounds l = true) →
      ∃ s', width_loop env role fuel s = some s' := by
  intro fuel
  induction fuel with
  | zero => intro s h; omega
  | succ fuel ih =>
    intro s hb htame
    rw [width_loop]
    cases hline : s.lines[s.i]? with
    | none => exact ⟨s, rfl⟩
    | some line =>
      simp only
      obtain ⟨h1, h2⟩ := width_pass_budget env role rounds line s hline htame
      exact ih _ (by omega) h2

/-- With a budget above the bound of every polyline, `_variable_width` on tame lines
returns its collection. -/
theorem polyline_states_returns (env : WidthEnv) (role : ExtrusionRole) (rounds fuel : Nat) :
    ∀ (polylines : List ThickPolyline) (flow : Flow),
      (∀ p ∈ polylines, ∀ l ∈ env.thicklines p, tame env rounds l = true) →
      (∀ p ∈ polylines, lines_cost env rounds (env.thicklines p) < fuel) →
      ∃ states, polyline_states env role fuel polylines flow = some states := by
  intro polylines
  induction polylines with
  | nil => intro flow _ _; exact ⟨[], rfl⟩
  | cons p rest ih =>
    intro flow htame hfuel
    rw [polyline_states]
    obtain ⟨s, hs⟩ := width_loop_returns env role rounds fuel
      { lines := env.thicklines p, i := 0, path := ExtrusionPath.of_role role, paths := [],
        flow := flow }
      (by
        unfold WidthState.budget
        simp only [List.drop_zero, ExtrusionPath.of_role, List.isEmpty_nil, if_true,
          Nat.add_zero]
        exact hfuel p (List.mem_cons_self _ _))
      (by
        simp only [List.drop_zero]
        exact htame p (List.mem_cons_self _ _))
    obtain ⟨states, hst⟩ := ih s.flow (fun q hq => htame q (List.mem_cons_of_mem _ hq))
      (fun q hq => hfuel q (List.mem_cons_of_mem _ hq))
    exact ⟨s :: states, by simp only [hs, hst]⟩

/-- C17. The collection that `_variable_width` returns is, polyline by polyline in input
order, what the design's rule makes of the polyline's finished paths: nothing when there
is no path, and otherwise exactly one entity holding the paths in their order, a loop
when the first point of the first path coincides with the last point of the last path
and a collection with `no_sort = true` when it does not. On tame lines, which the segment
loop is done with after some number of rounds of subdivision, and with a budget above the
bound of every polyline, the collection is returned. -/
theorem one_entity_per_polyline (env : WidthEnv) (role : ExtrusionRole) (fuel : Nat)
    (polylines : List ThickPolyline) (flow : Flow) :
    variable_width env role fuel polylines flow =
      (polyline_states env role fuel polylines flow).map
        (fun states => states.flatMap (fun s => polyline_entity s.final_paths)) ∧
    (∀ states, polyline_states env role fuel polylines flow = some states →
      states.length = polylines.length) ∧
    (∀ paths : List ExtrusionPath,
      (paths = [] → polyline_entity paths = []) ∧
      (paths ≠ [] →
        ((paths.headD (ExtrusionPath.of_role role)).polyline.points.headD ⟨0, 0⟩
            = (paths.getLastD (ExtrusionPath.of_role role)).polyline.last_point →
          polyline_entity paths = [ExtrusionEntity.loop ⟨paths, ExtrusionLoopRole.elrDefault⟩]) ∧
        ((paths.headD (ExtrusionPath.of_role role)).polyline.points.headD ⟨0, 0⟩
            ≠ (paths.getLastD (ExtrusionPath.of_role role)).polyline.last_point →
          polyline_entity paths = [ExtrusionEntity.path_collection paths true]))) ∧
    (0 < env.tolerance → 0 < env.scaled_epsilon → ∀ rounds : Nat,
      (∀ p ∈ polylines, ∀ l ∈ env.thicklines p, tame env rounds l) →
      (∀ p ∈ polylines, lines_cost env rounds (env.thicklines p) < fuel) →
      ∃ states, polyline_states env role fuel polylines flow = some states) := by
  refine ⟨?_, ?_, ?_, fun _ _ rounds htame hfuel =>
    polyline_states_returns env role rounds fuel polylines flow htame hfuel⟩
  · induction polylines generalizing flow with
    | nil => rfl
    | cons p rest ih =>
      rw [variable_width, polyline_states]
      cases hw : width_loop env role fuel
          { lines := env.thicklines p, i := 0, path := ExtrusionPath.of_role role, paths := [],
            flow := flow } with
      | none => rfl
      | some s =>
        simp only
        rw [ih s.flow]
        cases polyline_states env role fuel rest s.flow with
        | none => rfl
        | some states =>
          simp only [Option.map_some', List.flatMap_cons, collect_paths_eq_polyline_entity]
  · induction polylines generalizing flow with
    | nil =>
      intro states h
      rw [polyline_states] at h
      injection h with h
      subst h
      rfl
    | cons p rest ih =>
      intro states h
      rw [polyline_states] at h
      cases hw : width_loop env role fuel
          { lines := env.thicklines p, i := 0, path := ExtrusionPath.of_role role, paths := [],
            flow := flow } with
      | none => simp only [hw] at h; cases h
      | some s =>
        simp only [hw] at h
        cases hr : polyline_states env role fuel rest s.flow with
        | none => simp only [hr] at h; cases h
        | some states' =>
          simp only [hr, Option.some.injEq] at h
          subst h
          simp only [List.length_cons, ih s.flow states' hr]
  · intro paths
    cases paths with
    | nil => exact ⟨fun _ => rfl, fun h => absurd rfl h⟩
    | cons first rest =>
      refine ⟨fun h => (by cases h), fun _ => ?_⟩
      have e : (first :: rest).getLastD (ExtrusionPath.of_role role)
          = (first :: rest).getLastD first := by
        cases rest with
        | nil => rfl
        | cons b bs => simp [List.getLastD]
      simp only [List.headD_cons, e, polyline_entity]
      exact ⟨fun h => (by rw [if_pos h]), fun h => (by rw [if_neg h])⟩

theorem one_entity_per_polyline_witness :
    ∃ states, polyline_states sample_width_env ExtrusionRole.erGapFill 8 [triangle_centerline]
      ⟨400, 200⟩ = some states :=
  (one_entity_per_polyline sample_width_env ExtrusionRole.erGapFill 8 [triangle_centerline]
    ⟨400, 200⟩).2.2.2 (by decide!) (by decide!) 0 (by decide!) (by decide!)

/-! ## Binary search on a sorted vector -/

theorem sorted_getD_le (zs : List ℚ) (hs : zs.Pairwise (· ≤ ·)) (i j : Nat) (hij : i ≤ j)
    (hj : j < zs.length) : zs.getD i 0 ≤ zs.getD j 0 := by
  rw [List.getD_eq_getElem _ _ (by omega), List.getD_eq_getElem _ _ hj]
  rcases Nat.lt_or_eq_of_le hij with h | h
  · exact List.pairwise_iff_getElem.mp hs i j (by omega) hj h
  · subst h
    exact le_rfl

/-- The binary search keeps what it knows: everything before `first` is below `val`,
everything from `first + len` on is not. -/
theorem lower_bound_loop_spec (zs : List ℚ) (val : ℚ) (hs : zs.Pairwise (· ≤ ·)) :
    ∀ (fuel first len : Nat), len ≤ fuel → first + len ≤ zs.length →
      (∀ i, i < first → zs.getD i 0 < val) →
      (∀ i, first + len ≤ i → i < zs.length → val ≤ zs.getD i 0) →
      lower_bound_loop zs val fuel first len ≤ zs.length ∧
      (∀ i, i < lower_bound_loop zs val fuel first len → zs.getD i 0 < val) ∧
      (∀ i, lower_bound_loop zs val fuel first len ≤ i → i < zs.length →
        val ≤ zs.getD i 0) := by
  intro fuel
  induction fuel with
  | zero =>
    intro first len hl hb hlow hhigh
    have h0 : lower_bound_loop zs val 0 first len = first := rfl
    rw [h0]
    exact ⟨by omega, hlow, fun i hi hlt => hhigh i (by omega) hlt⟩
  | succ fuel ih =>
    intro first len hl hb hlow hhigh
    rw [lower_bound_loop]
    by_cases hpos : len > 0
    · rw [if_pos hpos]
      simp only
      by_cases hmid : zs.getD (first + len / 2) 0 < val
      · rw [if_pos hmid]
        have hhalf : len / 2 < len := Nat.div_lt_self hpos (by decide)
        apply ih (first + len / 2 + 1) (len - len / 2 - 1) (by omega) (by omega)
        · intro i hi
          have := sorted_getD_le zs hs i (first + len / 2) (by omega) (by omega)
          exact lt_of_le_of_lt this hmid
        · intro i hi hlt
          exact hhigh i (by omega) hlt
      · rw [if_neg hmid]
        have hhalf : len / 2 < len := Nat.div_lt_self hpos (by decide)
        apply ih first (len / 2) (by omega) (by omega) hlow
        intro i hi hlt
        have := sorted_getD_le zs hs (first + len / 2) i hi hlt
        exact le_trans (not_lt.mp hmid) this
    · rw [if_neg hpos]
      exact ⟨by omega, hlow, fun i hi hlt => hhigh i (by omega) hlt⟩

/-- On a sorted vector `std::lower_bound` returns the first position whose element is not
less than `val`, or the size when there is none. -/
theorem lower_bound_spec (zs : List ℚ) (val : ℚ) (hs : zs.Pairwise (· ≤ ·)) :
    lower_bound zs val ≤ zs.length ∧
    (∀ i, i < lower_bound zs val → zs.getD i 0 < val) ∧
    (∀ i, lower_bound zs val ≤ i → i < zs.length → val ≤ zs.getD i 0) :=
  lower_bound_loop_spec zs val hs zs.length 0 zs.length le_rfl (by omega)
    (fun i hi => by omega) (fun i hi hlt => by omega)

theorem to_int32_of_small (x : Int) (h0 : 0 ≤ x) (h1 : x < 2147483648) : to_int32 x = x := by
  unfold to_int32
  omega

/-- What `find_close_layer_idx` returns on a sorted vector, in terms of the distances it
computes: `-1` when the computed distance of every member from `z` is at least `eps`,
and otherwise an index whose member has a computed distance below `eps` and no larger
than that of any other member; when `z` lies between two adjacent members, the index is
the lower one if its computed distance is strictly the smaller, and the higher one
otherwise. -/
theorem find_close_layer_idx_cases (zs : List ℚ) (z eps : ℚ) (hs : zs.Pairwise (· ≤ ·))
    (hlen : zs.length < 2147483648) :
    (find_close_layer_idx zs z eps = -1 ∧
      ∀ k, k < zs.length → eps ≤ computed_distance z (zs.getD k 0)) ∨
    ∃ i : Nat, i < zs.length ∧ find_close_layer_idx zs z eps = (i : Int) ∧
      computed_distance z (zs.getD i 0) < eps ∧
      (∀ k, k < zs.length →
        computed_distance z (zs.getD i 0) ≤ computed_distance z (zs.getD k 0)) ∧
      ∀ l, l + 1 < zs.length → zs.getD l 0 < z → z ≤ zs.getD (l + 1) 0 →
        (computed_distance z (zs.getD l 0) < computed_distance z (zs.getD (l + 1) 0) →
          i = l) ∧
        (computed_distance z (zs.getD (l + 1) 0) ≤ computed_distance z (zs.getD l 0) →
          i = l + 1) := by
  obtain ⟨h1, h2, h3⟩ := lower_bound_spec zs z hs
  have hbelow : ∀ k, k < lower_bound zs z →
      computed_distance z (zs.getD k 0) = double_sub z (zs.getD k 0) := by
    intro k hk
    unfold computed_distance double_sub
    rw [abs_of_neg (by linarith [h2 k hk])]
    congr 1
    ring
  have habove : ∀ k, lower_bound zs z ≤ k → k < zs.length →
      computed_distance z (zs.getD k 0) = double_sub (zs.getD k 0) z := by
    intro k hk hlt
    unfold computed_distance double_sub
    rw [abs_of_nonneg (by linarith [h3 k hk hlt])]
  have hlb : ∀ l, l + 1 < zs.length → zs.getD l 0 < z → z ≤ zs.getD (l + 1) 0 →
      lower_bound zs z = l + 1 := by
    intro l hl hlo hhi
    have a : l < lower_bound zs z := by
      by_contra hc
      have := h3 l (by omega) (by omega)
      linarith
    have b : ¬ l + 1 < lower_bound zs z := by
      intro hc
      have := h2 (l + 1) hc
      linarith
    omega
  unfold find_close_layer_idx
  by_cases hempty : zs = []
  · left
    subst hempty
    exact ⟨rfl, fun k hk => absurd hk (by simp)⟩
  have hpos : 0 < zs.length := List.length_pos.mpr hempty
  have hne : zs.isEmpty = false := by
    cases zs with
    | nil => exact absurd rfl hempty
    | cons a as => rfl
  simp only [hne, Bool.false_eq_true, if_false]
  by_cases hend : lower_bound zs z = zs.length
  · -- every member is below `z`: the last one is the nearest
    simp only [hend, if_true]
    have hlast : ∀ k, k < zs.length →
        double_sub z (zs.getD (zs.length - 1) 0) ≤ computed_distance z (zs.getD k 0) := by
      intro k hk
      rw [hbelow k (by omega)]
      have := sorted_getD_le zs hs k (zs.length - 1) (by omega) (by omega)
      exact round_double_mono _ _ (by linarith)
    by_cases hnear : double_sub z (zs.getD (zs.length - 1) 0) < eps
    · right
      rw [if_pos hnear, to_int32_of_small _ (by omega) (by omega)]
      refine ⟨zs.length - 1, by omega, by omega, ?_, ?_, ?_⟩
      · rw [hbelow _ (by omega)]
        exact hnear
      · intro k hk
        rw [hbelow (zs.length - 1) (by omega)]
        exact hlast k hk
      · intro l hl hlo hhi
        have := hlb l hl hlo hhi
        omega
    · left
      rw [if_neg hnear]
      exact ⟨rfl, fun k hk => le_trans (not_lt.mp hnear) (hlast k hk)⟩
  · simp only [hend, if_false]
    by_cases hbegin : lower_bound zs z = 0
    · -- no member is below `z`: the first one is the nearest
      simp only [hbegin, if_true]
      have hfirst : ∀ k, k < zs.length →
          double_sub (zs.getD 0 0) z ≤ computed_distance z (zs.getD k 0) := by
        intro k hk
        rw [habove k (by omega) hk]
        have := sorted_getD_le zs hs 0 k (by omega) hk
        exact round_double_mono _ _ (by linarith)
      by_cases hnear : double_sub (zs.getD 0 0) z < eps
      · right
        rw [if_pos hnear]
        refine ⟨0, hpos, rfl, ?_, ?_, ?_⟩
        · rw [habove 0 (by omega) hpos]
          exact hnear
        · intro k hk
          rw [habove 0 (by omega) hpos]
          exact hfirst k hk
        · intro l hl hlo hhi
          have := hlb l hl hlo hhi
          omega
      · left
        rw [if_neg hnear]
        exact ⟨rfl, fun k hk => le_trans (not_lt.mp hnear) (hfirst k hk)⟩
    · -- `z` lies between the members at `it_l` and `it_h`
      simp only [hbegin, if_false]
      have hlt : lower_bound zs z < zs.length := by omega
      have hl1 : lower_bound zs z - 1 < lower_bound zs z := by omega
      have hlow : ∀ k, k < lower_bound zs z →
          double_sub z (zs.getD (lower_bound zs z - 1) 0)
            ≤ computed_distance z (zs.getD k 0) := by
        intro k hk
        rw [hbelow k hk]
        have := sorted_getD_le zs hs k (lower_bound zs z - 1) (by omega) (by omega)
        exact round_double_mono _ _ (by linarith)
      have hhigh : ∀ k, lower_bound zs z ≤ k → k < zs.length →
          double_sub (zs.getD (lower_bound zs z) 0) z
            ≤ computed_distance z (zs.getD k 0) := by
        intro k hk hkl
        rw [habove k hk hkl]
        have := sorted_getD_le zs hs (lower_bound zs z) k hk hkl
        exact round_double_mono _ _ (by linarith)
      by_cases hnear : min (double_sub z (zs.getD (lower_bound zs z - 1) 0))
          (double_sub (zs.getD (lower_bound zs z) 0) z) < eps
      · right
        rw [if_pos hnear]
        by_cases hcl : double_sub z (zs.getD (lower_bound zs z - 1) 0)
            < double_sub (zs.getD (lower_bound zs z) 0) z
        · rw [if_pos hcl, to_int32_of_small _ (by omega) (by omega)]
          rw [min_eq_left (le_of_lt hcl)] at hnear
          refine ⟨lower_bound zs z - 1, by omega, rfl, ?_, ?_, ?_⟩
          · rw [hbelow _ hl1]
            exact hnear
          · intro k hk
            rw [hbelow _ hl1]
            by_cases hkl : k < lower_bound zs z
            · exact hlow k hkl
            · exact le_trans (le_of_lt hcl) (hhigh k (by omega) hk)
          · intro l hl hlo hhi
            have e := hlb l hl hlo hhi
            have e2 : lower_bound zs z - 1 = l := by omega
            refine ⟨fun _ => e2, fun hge => ?_⟩
            rw [hbelow l (by omega), habove (l + 1) (by omega) hl] at hge
            rw [e2, e] at hcl
            exact absurd hcl (not_lt.mpr hge)
        · rw [if_neg hcl, to_int32_of_small _ (by omega) (by omega)]
          rw [min_eq_right (not_lt.mp hcl)] at hnear
          refine ⟨lower_bound zs z, hlt, rfl, ?_, ?_, ?_⟩
          · rw [habove _ le_rfl hlt]
            exact hnear
          · intro k hk
            rw [habove _ le_rfl hlt]
            by_cases hkl : k < lower_bound zs z
            · exact le_trans (not_lt.mp hcl) (hlow k hkl)
            · exact hhigh k (by omega) hk
          · intro l hl hlo hhi
            have e := hlb l hl hlo hhi
            have e2 : lower_bound zs z - 1 = l := by omega
            refine ⟨fun hlt' => ?_, fun _ => e⟩
            rw [hbelow l (by omega), habove (l + 1) (by omega) hl] at hlt'
            rw [e2, e] at hcl
            exact absurd hlt' hcl
      · left
        rw [if_neg hnear]
        refine ⟨rfl, ?_⟩
        intro k hk
        have hmin := not_lt.mp hnear
        by_cases hkl : k < lower_bound zs z
        · exact le_trans (le_trans hmin (min_le_left _ _)) (hlow k hkl)
        · exact le_trans (le_trans hmin (min_le_right _ _)) (hhigh k (by omega) hk)

/-- C21, as the claim states it, fails. With `zs = [1, 3, 7]`, `z = 2` and `eps = 1` the
members 1 and 3 lie on the bounds of the interval from `z - eps` to `z + eps` and the
function returns `-1`: the code compares with `<`. And with `zs = [2^-60]`, `z = 1` and
`eps = 1` the member lies strictly inside the interval, the difference `1 - 2^-60` is
rounded to the double 1, which is not below `eps`, and the function returns `-1`. -/
theorem close_layer_on_the_bound_is_missed :
    find_close_layer_idx [1, 3, 7] 2 1 = -1 ∧
    ((2 : ℚ) - 1 ≤ 1 ∧ (1 : ℚ) ≤ 2 + 1) ∧ ((2 : ℚ) - 1 ≤ 3 ∧ (3 : ℚ) ≤ 2 + 1) ∧
    find_close_layer_idx [1 / 1152921504606846976] 1 1 = -1 ∧
    ((1 : ℚ) - 1 < 1 / 1152921504606846976 ∧ (1 : ℚ) / 1152921504606846976 < 1 + 1) ∧
    computed_distance 1 (1 / 1152921504606846976) = 1 := by
  decide!

/-- C21, amended. On a sorted vector `find_close_layer_idx(zs, z, eps)` returns `-1`
exactly when no member has a distance from `z`, as the code computes it in doubles, that
is strictly below `eps`, and otherwise an index `i` with `0 <= i < zs.size()` whose
member has such a distance; when `eps` is a double, that member lies strictly between
`z - eps` and `z + eps`. On an empty vector it returns `-1`. -/
theorem close_layer_found_iff_in_interval (zs : List ℚ) (z eps : ℚ)
    (hs : zs.Pairwise (· ≤ ·)) (hlen : zs.length < 2147483648) :
    (zs = [] → find_close_layer_idx zs z eps = -1) ∧
    (find_close_layer_idx zs z eps = -1 ↔
      ∀ k, k < zs.length → ¬ computed_distance z (zs.getD k 0) < eps) ∧
    (find_close_layer_idx zs z eps ≠ -1 →
      ∃ i : Nat, find_close_layer_idx zs z eps = (i : Int) ∧ i < zs.length ∧
        computed_distance z (zs.getD i 0) < eps ∧
        (round_double eps = eps → z - eps < zs.getD i 0 ∧ zs.getD i 0 < z + eps)) := by
  have hexact : ∀ v : ℚ, round_double eps = eps → computed_distance z v < eps →
      z - eps < v ∧ v < z + eps := by
    intro v he hv
    have hlt : |v - z| < eps := by
      by_contra hc
      have := round_double_mono _ _ (not_lt.mp hc)
      rw [he] at this
      exact absurd hv (not_lt.mpr this)
    rw [abs_lt] at hlt
    exact ⟨by linarith, by linarith⟩
  refine ⟨fun h => by subst h; rfl, ?_, ?_⟩
  · rcases find_close_layer_idx_cases zs z eps hs hlen with ⟨h1, h2⟩ | ⟨i, hi, h1, h2, _⟩
    · exact ⟨fun _ k hk => not_lt.mpr (h2 k hk), fun _ => h1⟩
    · constructor
      · intro h
        rw [h1] at h
        omega
      · intro h
        exact absurd h2 (h i hi)
  · intro hne
    rcases find_close_layer_idx_cases zs z eps hs hlen with ⟨h1, _⟩ | ⟨i, hi, h1, h2, _⟩
    · exact absurd h1 hne
    · exact ⟨i, h1, hi, h2, fun he => hexact _ he h2⟩

theorem close_layer_found_iff_in_interval_witness :
    ∃ i : Nat, find_close_layer_idx [1 / 4, 1 / 2, 3 / 4] (1 / 2) (1 / 1024) = (i : Int) ∧
      i < [(1 : ℚ) / 4, 1 / 2, 3 / 4].length ∧
      computed_distance (1 / 2) ([(1 : ℚ) / 4, 1 / 2, 3 / 4].getD i 0) < 1 / 1024 ∧
      (round_double (1 / 1024) = 1 / 1024 →
        1 / 2 - 1 / 1024 < [(1 : ℚ) / 4, 1 / 2, 3 / 4].getD i 0 ∧
        [(1 : ℚ) / 4, 1 / 2, 3 / 4].getD i 0 < 1 / 2 + 1 / 1024) :=
  (close_layer_found_iff_in_interval [1 / 4, 1 / 2, 3 / 4] (1 / 2) (1 / 1024)
    (by decide!) (by decide)).2.2 (by decide!)

/-- C28, as the claim states it, fails. With `zs = [2^-60, 2]`, `z = 1` and `eps = 2` the
member at index 0 is nearer to `z` than the member at index 1, the two differences are
both rounded to the double 1, and the function returns index 1. The same happens with
the doubles nearest to 0.23 and 3.07 around the double nearest to 1.65. -/
theorem farther_layer_is_returned :
    find_close_layer_idx [1 / 1152921504606846976, 2] 1 2 = 1 ∧
    |(1 : ℚ) / 1152921504606846976 - 1| < |(2 : ℚ) - 1| ∧
    find_close_layer_idx [round_double (23 / 100), round_double (307 / 100)]
      (round_double (165 / 100)) 2 = 1 ∧
    |round_double (23 / 100) - round_double (165 / 100)|
      < |round_double (307 / 100) - round_double (165 / 100)| := by
  decide!

/-- C28, amended. On a sorted vector, an index that `find_close_layer_idx` returns is the
index of a member nearest to `z` as far as the distances tell that the code computes in
doubles: no member has a smaller computed distance, and a member that is nearer to `z`
has the same computed distance. When `z` lies between two adjacent members, the index is
the lower one if its computed distance is strictly the smaller and the higher one
otherwise, so on a tie, and in particular when `z` is equally far from both. -/
theorem close_layer_is_nearest (zs : List ℚ) (z eps : ℚ)
    (hs : zs.Pairwise (· ≤ ·)) (hlen : zs.length < 2147483648)
    (hfound : find_close_layer_idx zs z eps ≠ -1) :
    ∃ i : Nat, find_close_layer_idx zs z eps = (i : Int) ∧ i < zs.length ∧
      (∀ k, k < zs.length →
        computed_distance z (zs.getD i 0) ≤ computed_distance z (zs.getD k 0)) ∧
      (∀ k, k < zs.length → |zs.getD k 0 - z| < |zs.getD i 0 - z| →
        computed_distance z (zs.getD k 0) = computed_distance z (zs.getD i 0)) ∧
      ∀ l, l + 1 < zs.length → zs.getD l 0 < z → z ≤ zs.getD (l + 1) 0 →
        (computed_distance z (zs.getD l 0) < computed_distance z (zs.getD (l + 1) 0) →
          i = l) ∧
        (computed_distance z (zs.getD (l + 1) 0) ≤ computed_distance z (zs.getD l 0) →
          i = l + 1) ∧
        (z - zs.getD l 0 = zs.getD (l + 1) 0 - z → i = l + 1) := by
  rcases find_close_layer_idx_cases zs z eps hs hlen with ⟨h1, _⟩ | ⟨i, hi, h1, _, h3, h4⟩
  · exact absurd h1 hfound
  · refine ⟨i, h1, hi, h3, ?_, ?_⟩
    · intro k hk hnearer
      apply le_antisymm
      · exact round_double_mono _ _ (le_of_lt hnearer)
      · exact h3 k hk
    · intro l hl hlo hhi
      obtain ⟨ha, hb⟩ := h4 l hl hlo hhi
      refine ⟨ha, hb, fun htie => hb ?_⟩
      unfold computed_distance
      apply le_of_eq
      congr 1
      rw [abs_of_nonneg (by linarith), abs_of_neg (by linarith)]
      linarith

theorem close_layer_is_nearest_witness :
    find_close_layer_idx [1, 3, 7] 2 (3 / 2) = 1 ∧
    ∃ i : Nat, find_close_layer_idx [1, 3, 7] 2 (3 / 2) = (i : Int) ∧
      i < [(1 : ℚ), 3, 7].length ∧
      (∀ k, k < [(1 : ℚ), 3, 7].length →
        computed_distance 2 ([(1 : ℚ), 3, 7].getD i 0)
          ≤ computed_distance 2 ([(1 : ℚ), 3, 7].getD k 0)) :=
  ⟨by decide!,
    (close_layer_is_nearest [1, 3, 7] 2 (3 / 2) (by decide!) (by decide) (by decide!)).elim
      (fun i h => ⟨i, h.1, h.2.1, h.2.2.1⟩)⟩

/-! ## `Preview::check_layers_slider_values` -/

/-- The difference `print_z - epsilon` is rounded before it is searched for: with the
doubles nearest to 0.2, 0.200001 and 0.000001 for the layer, the tick and epsilon, the
difference of tick and epsilon lies above the layer, its rounded value is the layer
itself, and the tick is kept. -/
theorem tick_is_kept_by_rounding :
    round_double (2 / 10) < round_double (200001 / 1000000) - round_double (1 / 1000000) ∧
    double_sub (round_double (200001 / 1000000)) (round_double (1 / 1000000))
      = round_double (2 / 10) ∧
    check_layers_slider_values (fun t : ℚ => t) (round_double (1 / 1000000))
        [round_double (200001 / 1000000)] [round_double (2 / 10)]
      = ([round_double (200001 / 1000000)], false) := by
  decide!

/-- C22, what the code does. The number of test objects is the number selected in the
`nb tests` box. The step is not the number selected in the `step` box: line 56 adds 5 to
it and drops the fraction, so the three choices 2.5, 5 and 10 give the steps 7, 10 and
15. With the default choice 5 and a start of 100, consecutive test objects are given 100,
110, 120, 130 and 140. -/
theorem calibration_step_is_not_the_selected_step :
    (∀ idx_nb : Nat, idx_nb < choices_nb.length →
      calibration_nb_items (idx_nb : Int) = choices_nb.getD idx_nb 0) ∧
    [0, 1, 2].map (fun idx_steps : Nat => (choices_steps.getD idx_steps 0,
      calibration_step (idx_steps : Int))) = [(5 / 2, 7), (5, 10), (10, 15)] ∧
    (List.range (calibration_nb_items 4)).map
      (fun i => tested_value 100 true i (calibration_step 1)) = [100, 110, 120, 130, 140] ∧
    (List.range (calibration_nb_items 4)).map
      (fun i => tested_value 100 false i (calibration_step 1)) = [100, 90, 80, 70, 60] := by
  decide!

/-- C30, what the code does. The scaling loop runs `i` from 0 to 4 whatever `nb_items`
is. With one test selected and a nozzle of 0.6 mm (`z_scale = 1.5`),
`objs_idx` has one entry and the loop reads `objs_idx[1]` to `objs_idx[4]`; the other
loops stay below `nb_items`. With a nozzle of 0.4 mm nothing is scaled and every read is
in range. -/
theorem scaling_loop_reads_past_objs_idx :
    calibration_nb_items 0 = 1 ∧
    (objs_idx_reads (calibration_nb_items 0) (6 / 10)).filter
      (fun i => decide (¬ i < calibration_nb_items 0)) = [1, 2, 3, 4] ∧
    (∀ idx_nb : Nat, idx_nb < choices_nb.length →
      ∀ i ∈ objs_idx_reads (calibration_nb_items (idx_nb : Int)) (4 / 10),
        i < calibration_nb_items (idx_nb : Int)) ∧
    (∀ idx_nb : Nat, idx_nb < 4 →
      ∃ i ∈ objs_idx_reads (calibration_nb_items (idx_nb : Int)) (6 / 10),
        ¬ i < calibration_nb_items (idx_nb : Int)) := by
  decide!

/-! ## Room at the splice point, and the direction of the joined loops -/

/-- C24. A loop's own polyline is reversed exactly when `has_to_reverse` equals
`is_contour`, and the call for every child that is spliced in is made with the negation
of the caller's `has_to_reverse`, the flag of the caller going on to the children that
follow. -/
theorem reversal_alternates_with_depth (env : JoinEnv) (polygon : Polygon) (depth : Nat)
    (is_contour is_overhang : Bool) (children : List PerimeterGeneratorLoop)
    (entryPoint : Point) (has_to_reverse : Bool) :
    traverse_and_join_loops env (.mk polygon depth is_contour is_overhang children)
        entryPoint has_to_reverse =
      final_assembly (join_children env children has_to_reverse
        (own_nodes env (depth == 0)
          (env.clip_end
            (if has_to_reverse = is_contour then
              ⟨(env.split_at_vertex polygon entryPoint).points.reverse⟩
            else env.split_at_vertex polygon entryPoint)
            (env.perimeter_scaled_width : ℚ)))) ∧
    ∀ (child : PerimeterGeneratorLoop) (rest : List PerimeterGeneratorLoop)
      (myPolylines : List PerimeterPolylineNode),
      join_children env (child :: rest) has_to_reverse myPolylines =
        match (find_splice env child.polygon myPolylines).found with
        | none => join_children env rest has_to_reverse myPolylines
        | some (smallest_idx, my_smallest_idx, my_polyline_idx) =>
          join_children env rest has_to_reverse
            (splice_child env myPolylines
              (traverse_and_join_loops env child
                (child.polygon.points.getD smallest_idx ⟨0, 0⟩) (!has_to_reverse))
              my_polyline_idx my_smallest_idx) := by
  constructor
  · rw [traverse_and_join_loops]
    cases has_to_reverse <;> cases is_contour <;> rfl
  · intro child rest myPolylines
    rw [join_children]

/-! ## The joined loop is connected -/

theorem assembly_pass_inv (s : AssemblyState) (h : AssemblyInv s) :
    AssemblyInv (assembly_pass s) := by
  obtain ⟨h1, h2, h3⟩ := h
  unfold assembly_pass
  simp only [h1, List.isEmpty_nil, Bool.not_true, Bool.false_eq_true, if_false]
  by_cases hme : s.front.me.polyline.points = []
  · simp only [hme, List.isEmpty_nil, Bool.not_true, Bool.false_eq_true, if_false]
    exact ⟨h1, h2, h3⟩
  · have hne : s.front.me.polyline.points.isEmpty = false := by
      cases hp : s.front.me.polyline.points with
      | nil => exact absurd hp hme
      | cons a as => rfl
    simp only [hne, Bool.not_false, if_true]
    obtain ⟨last, hl1, hl2⟩ := h3 hme
    refine ⟨h1, ?_, ?_⟩
    · rw [List.chain'_append]
      refine ⟨h2, List.chain'_singleton _, ?_⟩
      intro x hx y hy
      rw [hl1] at hx
      simp only [Option.mem_def, Option.some.injEq] at hx
      subst hx
      simp only [List.head?_cons, Option.mem_def, Option.some.injEq] at hy
      subst hy
      exact ⟨s.last_point, hl2, rfl⟩
    · intro _
      refine ⟨_, List.getLast?_concat _, ?_⟩
      simp only [Polyline.last_point]
      exact getLast?_eq_some_getLastD _ _ (by simp)

theorem assembly_iterate_inv (n : Nat) (s : AssemblyState) (h : AssemblyInv s) :
    AssemblyInv (Nat.iterate assembly_pass n s) := by
  induction n generalizing s with
  | zero => exact h
  | succ n ih =>
    rw [Function.iterate_succ_apply]
    exact ih _ (assembly_pass_inv s h)

/-- The final loop puts out connected paths when the first node carries no child loop. -/
theorem final_assembly_connected (myPolylines : List PerimeterPolylineNode)
    (hfront : ∀ n, myPolylines.head? = some n → n.to_extrude_before.paths = []) :
    (final_assembly myPolylines).paths.Chain' connects := by
  cases myPolylines with
  | nil => exact List.chain'_nil
  | cons first_node rest =>
    unfold final_assembly
    simp only
    refine (assembly_iterate_inv _ _ ⟨hfront first_node rfl, List.chain'_singleton _, ?_⟩).chain
    intro hne
    exact ⟨first_node.me, rfl, getLast?_eq_some_getLastD _ _ hne⟩

theorem own_nodes_front_plain (env : JoinEnv) (is_external : Bool) (pl : Polyline) :
    ∀ n, (own_nodes env is_external pl).head? = some n → n.to_extrude_before.paths = [] := by
  intro n hn
  have hall : ∀ m ∈ own_nodes env is_external pl, m.to_extrude_before.paths = [] := by
    intro m hm
    unfold own_nodes at hm
    by_cases hc : (env.overhangs && decide (env.layer_id > 0)
        && !(env.support_material && env.support_material_contact_distance_zero)) = true
    · simp only [hc, if_true, List.mem_map] at hm
      obtain ⟨_, _, rfl⟩ := hm
      rfl
    · simp only [hc, if_false, Bool.false_eq_true, List.mem_singleton] at hm
      subst hm
      rfl
  exact hall n (List.mem_of_mem_head? hn)

theorem splice_child_front_plain (env : JoinEnv) (nodes : List PerimeterPolylineNode)
    (child_loop : ExtrusionLoop) (poly pt : Nat)
    (h : ∀ n, nodes.head? = some n → n.to_extrude_before.paths = []) :
    ∀ n, (splice_child env nodes child_loop poly pt).head? = some n →
      n.to_extrude_before.paths = [] := by
  intro n hn
  unfold splice_child at hn
  cases hp : nodes[poly]? with
  | none =>
    simp only [hp] at hn
    exact h n hn
  | some piece =>
    simp only [hp] at hn
    cases poly with
    | zero =>
      simp only [List.take_zero, List.nil_append, List.head?_cons, Option.some.injEq] at hn
      subst hn
      simp only
      apply h piece
      rw [← hp]
      cases nodes <;> simp
    | succ k =>
      cases nodes with
      | nil => simp at hp
      | cons a as =>
        simp only [List.take_succ_cons, List.cons_append, List.head?_cons,
          Option.some.injEq] at hn
        subst hn
        exact h _ rfl

theorem join_children_front_plain (env : JoinEnv) :
    ∀ (children : List PerimeterGeneratorLoop) (has_to_reverse : Bool)
      (nodes : List PerimeterPolylineNode),
      (∀ n, nodes.head? = some n → n.to_extrude_before.paths = []) →
      ∀ n, (join_children env children has_to_reverse nodes).head? = some n →
        n.to_extrude_before.paths = [] := by
  intro children
  induction children with
  | nil =>
    intro h nodes hn
    rw [join_children]
    exact hn
  | cons child rest ih =>
    intro h nodes hn
    rw [join_children]
    cases hf : (find_splice env child.polygon nodes).found with
    | none => exact ih h nodes hn
    | some t =>
      obtain ⟨s, pt, poly⟩ := t
      exact ih h _ (splice_child_front_plain env nodes _ poly pt hn)

/-- C25. In the loop that `_traverse_and_join_loops` returns, every path after the first
starts at the point where the path before it ends. -/
theorem joined_loop_is_connected (env : JoinEnv) (loop : PerimeterGeneratorLoop)
    (entryPoint : Point) (has_to_reverse : Bool) :
    (traverse_and_join_loops env loop entryPoint has_to_reverse).paths.Chain'
      (fun earlier later => ∃ p, earlier.polyline.points.getLast? = some p ∧
        later.polyline.points.head? = some p) := by
  cases loop with
  | mk polygon depth is_contour is_overhang children =>
    rw [traverse_and_join_loops]
    exact final_assembly_connected _
      (join_children_front_plain env children has_to_reverse _
        (own_nodes_front_plain env _ _))

/-! ## Without overhang detection -/

theorem prepend_to_first_path_role (p : Point) (paths : List ExtrusionPath) :
    ∀ q ∈ prepend_to_first_path p paths, ∃ q' ∈ paths, q.role = q'.role := by
  intro q hq
  cases paths with
  | nil => simp [prepend_to_first_path] at hq
  | cons a as =>
    simp only [prepend_to_first_path, List.mem_cons] at hq
    rcases hq with rfl | hq
    · exact ⟨a, List.mem_cons_self _ _, rfl⟩
    · exact ⟨q, List.mem_cons_of_mem _ hq, rfl⟩

theorem assembly_pass_plain (s : AssemblyState)
    (h : plain_role s.front.me.role ∧
      (∀ q ∈ s.front.to_extrude_before.paths, plain_role q.role) ∧
      ∀ p ∈ s.paths, plain_role p.role) :
    plain_role (assembly_pass s).front.me.role ∧
      (∀ q ∈ (assembly_pass s).front.to_extrude_before.paths, plain_role q.role) ∧
      ∀ p ∈ (assembly_pass s).paths, plain_role p.role := by
  obtain ⟨h1, h2, h3⟩ := h
  have hb : ∀ q ∈ prepend_to_first_path s.last_point s.front.to_extrude_before.paths,
      plain_role q.role := by
    intro q hq
    obtain ⟨q', hq', e⟩ := prepend_to_first_path_role _ _ q hq
    rw [e]
    exact h2 q' hq'
  unfold assembly_pass
  simp only
  split
  · split
    · refine ⟨h1, hb, ?_⟩
      intro p hp
      simp only [List.mem_append, List.mem_singleton] at hp
      rcases hp with (hp | hp) | hp
      · exact h3 p hp
      · exact hb p hp
      · subst hp
        exact h1
    · refine ⟨h1, hb, ?_⟩
      intro p hp
      simp only [List.mem_append] at hp
      rcases hp with hp | hp
      · exact h3 p hp
      · exact hb p hp
  · split
    · refine ⟨h1, h2, ?_⟩
      intro p hp
      simp only [List.mem_append, List.mem_singleton] at hp
      rcases hp with hp | hp
      · exact h3 p hp
      · subst hp
        exact h1
    · exact ⟨h1, h2, h3⟩

theorem assembly_iterate_plain (n : Nat) (s : AssemblyState)
    (h : plain_role s.front.me.role ∧
      (∀ q ∈ s.front.to_extrude_before.paths, plain_role q.role) ∧
      ∀ p ∈ s.paths, plain_role p.role) :
    ∀ p ∈ (Nat.iterate assembly_pass n s).paths, plain_role p.role := by
  induction n generalizing s with
  | zero => exact h.2.2
  | succ n ih =>
    rw [Function.iterate_succ_apply]
    exact ih _ (assembly_pass_plain s h)

theorem final_assembly_plain (nodes : List PerimeterPolylineNode) (h : plain_nodes nodes) :
    ∀ p ∈ (final_assembly nodes).paths, plain_role p.role := by
  cases nodes with
  | nil => intro p hp; simp [final_assembly] at hp
  | cons first_node rest =>
    unfold final_assembly
    simp only
    have hf := h first_node (List.mem_cons_self _ _)
    apply assembly_iterate_plain
    refine ⟨hf.1, hf.2, ?_⟩
    intro p hp
    simp only [List.mem_singleton] at hp
    subst hp
    exact hf.1

theorem splice_child_plain (env : JoinEnv) (nodes : List PerimeterPolylineNode)
    (child_loop : ExtrusionLoop) (poly pt : Nat) (h : plain_nodes nodes)
    (hc : ∀ q ∈ child_loop.paths, plain_role q.role) :
    plain_nodes (splice_child env nodes child_loop poly pt) := by
  unfold splice_child
  cases hp : nodes[poly]? with
  | none => exact h
  | some piece =>
    simp only
    have hpiece := h piece (List.getElem?_mem hp)
    intro n hn
    simp only [List.mem_append, List.mem_cons] at hn
    rcases hn with hn | rfl | rfl | hn
    · exact h n (List.mem_of_mem_take hn)
    · exact hpiece
    · exact ⟨hpiece.1, hc⟩
    · exact h n (List.mem_of_mem_drop hn)

/-- With overhang detection off or on layer 0, the node list of a loop is its one path,
with the role and the flow of an external or an internal perimeter. -/
theorem own_nodes_without_overhangs (env : JoinEnv) (is_external : Bool) (pl : Polyline)
    (hoff : env.overhangs = false ∨ env.layer_id = 0) :
    own_nodes env is_external pl =
      [{ to_extrude_before := ⟨[], ExtrusionLoopRole.elrDefault⟩
         me := { polyline := pl
                 role := if is_external then ExtrusionRole.erExternalPerimeter
                         else ExtrusionRole.erPerimeter
                 mm3_per_mm := if is_external then env.ext_mm3_per_mm else env.mm3_per_mm
                 width := if is_external then env.ext_perimeter_flow_width
                          else env.perimeter_flow_width
                 height := env.layer_height } }] := by
  have hc : ¬ (env.overhangs && decide (env.layer_id > 0)
      && !(env.support_material && env.support_material_contact_distance_zero)) = true := by
    rcases hoff with h | h
    · simp [h]
    · simp [h]
  unfold own_nodes
  simp only [hc, if_false, Bool.false_eq_true]

mutual
/-- With overhang detection off or on layer 0, no path of a joined loop has the overhang
role. -/
theorem traverse_and_join_loops_plain (env : JoinEnv)
    (hoff : env.overhangs = false ∨ env.layer_id = 0) :
    ∀ (loop : PerimeterGeneratorLoop) (entryPoint : Point) (has_to_reverse : Bool),
      ∀ p ∈ (traverse_and_join_loops env loop entryPoint has_to_reverse).paths,
        plain_role p.role
  | .mk polygon depth is_contour is_overhang children, entryPoint, has_to_reverse => by
    rw [traverse_and_join_loops]
    apply final_assembly_plain
    apply join_children_plain env hoff children
    rw [own_nodes_without_overhangs env _ _ hoff]
    intro n hn
    simp only [List.mem_singleton] at hn
    subst hn
    refine ⟨?_, fun q hq => by simp at hq⟩
    unfold plain_role
    simp only
    split
    · exact Or.inl rfl
    · exact Or.inr rfl
/-- Splicing children in keeps the roles plain. -/
theorem join_children_plain (env : JoinEnv)
    (hoff : env.overhangs = false ∨ env.layer_id = 0) :
    ∀ (children : List PerimeterGeneratorLoop) (has_to_reverse : Bool)
      (nodes : List PerimeterPolylineNode), plain_nodes nodes →
      plain_nodes (join_children env children has_to_reverse nodes)
  | [], _, nodes => by
    intro h
    rw [join_children]
    exact h
  | child :: rest, has_to_reverse, nodes => by
    intro h
    rw [join_children]
    cases hf : (find_splice env child.polygon nodes).found with
    | none => exact join_children_plain env hoff rest has_to_reverse nodes h
    | some t =>
      obtain ⟨s, pt, poly⟩ := t
      exact join_children_plain env hoff rest has_to_reverse _
        (splice_child_plain env nodes _ poly pt h
          (traverse_and_join_loops_plain env hoff child _ _))
end

/-- C26. With overhang detection off, or on layer 0, every loop gives exactly one path,
in `_traverse_loops` and in `_traverse_and_join_loops` alike: its role is
`erExternalPerimeter` for an external loop (depth 0) and `erPerimeter` otherwise, its
`mm3_per_mm` and width are those of the external or of the internal perimeter flow, and
its height is the layer height; and no path of a joined loop has the role
`erOverhangPerimeter`. -/
theorem one_plain_path_without_overhangs (env : TraverseEnv)
    (hoff : env.join.overhangs = false ∨ env.join.layer_id = 0) :
    (∀ loop : PerimeterGeneratorLoop, (loop_entity env loop).paths =
      [{ polyline := env.split_at_first_point loop.polygon
         role := if loop.is_external then ExtrusionRole.erExternalPerimeter
                 else ExtrusionRole.erPerimeter
         mm3_per_mm := if loop.is_external then env.join.ext_mm3_per_mm
                       else env.join.mm3_per_mm
         width := if loop.is_external then env.join.ext_perimeter_flow_width
                  else env.join.perimeter_flow_width
         height := env.join.layer_height }]) ∧
    (∀ (is_external : Bool) (initialPolyline : Polyline),
      (own_nodes env.join is_external initialPolyline).map (fun node => node.me) =
        [{ polyline := initialPolyline
           role := if is_external then ExtrusionRole.erExternalPerimeter
                   else ExtrusionRole.erPerimeter
           mm3_per_mm := if is_external then env.join.ext_mm3_per_mm else env.join.mm3_per_mm
           width := if is_external then env.join.ext_perimeter_flow_width
                    else env.join.perimeter_flow_width
           height := env.join.layer_height }]) ∧
    ∀ (loop : PerimeterGeneratorLoop) (entryPoint : Point) (has_to_reverse : Bool),
      ∀ p ∈ (traverse_and_join_loops env.join loop entryPoint has_to_reverse).paths,
        p.role ≠ ExtrusionRole.erOverhangPerimeter := by
  have hc : ¬ (env.join.overhangs && decide (env.join.layer_id > 0)
      && !(env.join.support_material && env.join.support_material_contact_distance_zero))
      = true := by
    rcases hoff with h | h
    · simp [h]
    · simp [h]
  refine ⟨?_, ?_, ?_⟩
  · intro loop
    unfold loop_entity
    simp only [hc, if_false, Bool.false_eq_true]
  · intro is_external initialPolyline
    rw [own_nodes_without_overhangs env.join _ _ hoff]
    rfl
  · intro loop entryPoint has_to_reverse p hp
    have h := traverse_and_join_loops_plain env.join hoff loop entryPoint has_to_reverse p hp
    rcases h with h | h <;> rw [h] <;> decide

theorem one_plain_path_without_overhangs_witness :
    (loop_entity sample_traverse_env overhang_tree).paths.map (fun p => p.role)
      = [ExtrusionRole.erExternalPerimeter] ∧
    ∀ p ∈ (traverse_and_join_loops sample_traverse_env.join joined_sample ⟨0, 0⟩ false).paths,
      p.role ≠ ExtrusionRole.erOverhangPerimeter :=
  have h := one_plain_path_without_overhangs sample_traverse_env (Or.inl rfl)
  ⟨by rw [h.1 overhang_tree]; rfl, h.2.2 joined_sample ⟨0, 0⟩ false⟩

/-! ## The segment loop of `_variable_width` terminates -/

/-- When, among lines of some kind, the parts of a subdivided line are again of that kind
and shorter than the line by a factor `ρ`, a line of that kind is done with after `k`
rounds as soon as its length times `ρ^k` is below the length at which a line is passed
over. -/
theorem shrinking_parts_are_tame (env : WidthEnv) (P : ThickLine → Prop) (ρ : ℚ)
    (hρ : 0 ≤ ρ)
    (hshrink : ∀ line, P line → ¬ env.line_length line < env.scaled_epsilon →
      env.tolerance < thickness_delta line →
      ∀ l ∈ subdivision_lines env line (width_segments env (thickness_delta line)),
        P l ∧ env.line_length l ≤ ρ * env.line_length line) :
    ∀ (k : Nat) (line : ThickLine), P line →
      env.line_length line * ρ ^ k < env.scaled_epsilon → tame env k line = true := by
  intro k
  induction k with
  | zero =>
    intro line _ h
    unfold tame
    simp only [Bool.or_eq_true, decide_eq_true_eq]
    left
    simpa using h
  | succ k ih =>
    intro line hP h
    rw [tame]
    simp only [Bool.or_eq_true, decide_eq_true_eq, List.all_eq_true]
    by_cases hs : env.line_length line < env.scaled_epsilon
    · exact Or.inl (Or.inl hs)
    · by_cases hd : env.tolerance < thickness_delta line
      · right
        intro l hl
        obtain ⟨hPl, h1⟩ := hshrink line hP hs hd l hl
        apply ih l hPl
        have h2 : (0 : ℚ) ≤ ρ ^ k := pow_nonneg hρ k
        calc env.line_length l * ρ ^ k ≤ (ρ * env.line_length line) * ρ ^ k :=
              mul_le_mul_of_nonneg_right h1 h2
          _ = env.line_length line * ρ ^ (k + 1) := by ring
          _ < env.scaled_epsilon := h
      · exact Or.inl (Or.inr (not_lt.mp hd))

/-- The lines that come of the line of 1 mm are of this kind: each part of a subdivided
line is shorter than 0.51 times the line. -/
theorem steep_line_parts_shrink :
    (∀ line ∈ steep_line_family,
      ¬ double_width_env.line_length line < double_width_env.scaled_epsilon →
      double_width_env.tolerance < thickness_delta line →
      ∀ l ∈ subdivision_lines double_width_env line
          (width_segments double_width_env (thickness_delta line)),
        l ∈ steep_line_family ∧
        double_width_env.line_length l ≤ 51 / 100 * double_width_env.line_length line) ∧
    tame double_width_env 14 steep_line = true :=
  have h : ∀ line ∈ steep_line_family,
      ¬ double_width_env.line_length line < double_width_env.scaled_epsilon →
      double_width_env.tolerance < thickness_delta line →
      ∀ l ∈ subdivision_lines double_width_env line
          (width_segments double_width_env (thickness_delta line)),
        l ∈ steep_line_family ∧
        double_width_env.line_length l ≤ 51 / 100 * double_width_env.line_length line := by
    decide!
  ⟨h, shrinking_parts_are_tame double_width_env (fun l => l ∈ steep_line_family) (51 / 100)
    (by norm_num) h 14 steep_line (by decide!) (by decide!)⟩

end Slic3r
